import Mathlib

/-!
# Pathfinding visualizer: grid model, the four searches and path reconstruction

Shallow embedding of `src/pathfinding-visualizer/src/App.js`.

* A node object is identified with its coordinates `(row, col)`; the working
  grid maps coordinates to the node's fields.  Reference equality of nodes
  (`current === endNode`, `openSet.includes(neighbor)`) is equality of
  coordinates, since every grid holds one node object per coordinate.
* The JavaScript numbers stored in `distance` are `0, 1, 2, ...` and
  `Infinity`; they are `Option Nat` with `none` for `Infinity`.
* `while` loops are run by `iterate` with an explicit bound on the number of
  evaluations of the loop condition; `none` means the bound was exhausted.
  The theorems below show that on a fresh working copy with a non-wall start
  every search, and `getPath` after it, returns within its bound.
* A search returns the mutated working copy together with
  `visitedNodesInOrder`, since `getPath` reads the predecessor pointers the
  search has written.
-/

namespace MazeRunner

/-! ## Constants and the node record -/

def ROWS : Nat := 20

def COLS : Nat := 40

/-- Coordinates `(row, col)` of a node. -/
abbrev Cell := Nat × Nat

def START_NODE : Cell := (10, 5)

def END_NODE : Cell := (10, 35)

/-- Fields of a node object other than its coordinates. -/
structure Node where
  isStart : Bool
  isEnd : Bool
  isWall : Bool
  isVisited : Bool
  isPath : Bool
  distance : Option Nat
  previousNode : Option Cell

/-- The grid: the node stored at each coordinate. -/
abbrev Grid := Cell → Node

/-- Assignment `grid[row][col] = n` for the node with coordinates `c`. -/
def Grid.set (grid : Grid) (c : Cell) (n : Node) : Grid :=
  fun c' => if c' = c then n else grid c'

def createNode (row col : Nat) : Node :=
  { isStart := row = START_NODE.1 ∧ col = START_NODE.2
    isEnd := row = END_NODE.1 ∧ col = END_NODE.2
    isWall := false
    isVisited := false
    isPath := false
    distance := none
    previousNode := none }

def initializeGrid : Grid := fun c => createNode c.1 c.2

/-- The working copy made by `visualize` (and the grid written by `clearPath`):
run-scoped fields reset, walls and start/end flags carried over. -/
def resetNode (node : Node) : Node :=
  { node with isVisited := false, isPath := false, distance := none, previousNode := none }

def gridCopy (grid : Grid) : Grid := fun c => resetNode (grid c)

/-! ## JavaScript numbers with `Infinity` -/

/-- The value of `x + 1`. -/
def numSucc : Option Nat → Option Nat
  | some a => some (a + 1)
  | none => none

/-- The test `x < y`. -/
def numLt : Option Nat → Option Nat → Bool
  | some a, some b => decide (a < b)
  | some _, none => true
  | none, _ => false

/-- Comparator test: `x - y` is not positive (it is negative, zero, or `NaN`
for `Infinity - Infinity`, which `sort` reads as zero), so a stable sort
keeps `x` before `y`. -/
def numLe : Option Nat → Option Nat → Bool
  | some a, some b => decide (a ≤ b)
  | some _, none => true
  | none, some _ => false
  | none, none => true

/-! ## `Array.prototype.sort`: a stable sort -/

/-- Insert `a` in front of the first element it may precede. -/
def orderedInsert {α : Type} (le : α → α → Bool) (a : α) : List α → List α
  | [] => [a]
  | b :: l => if le a b then a :: b :: l else b :: orderedInsert le a l

/-- Stable sort by a comparator given as the test "`a` may stay before `b`". -/
def stableSort {α : Type} (le : α → α → Bool) : List α → List α
  | [] => []
  | a :: l => orderedInsert le a (stableSort le l)

/-! ## Loops -/

/-- Outcome of one pass through a `while` loop: `next` goes back to the loop
condition (end of body or `continue`), `done` leaves the loop (condition false
or `break`). -/
inductive Step (σ : Type) where
  | next (s : σ) : Step σ
  | done (s : σ) : Step σ

/-- Run a loop for at most `fuel` evaluations of its condition. -/
def iterate {σ : Type} (body : σ → Step σ) : Nat → σ → Option σ
  | 0, _ => none
  | fuel + 1, s =>
    match body s with
    | Step.done s' => some s'
    | Step.next s' => iterate body fuel s'

/-- Number of passes through a loop in which its condition held, that is in
which the loop body ran (passes cut short by `continue` or `break` included),
for a loop that exits within `fuel` evaluations of its condition. -/
def countPasses {σ : Type} (cond : σ → Bool) (body : σ → Step σ) : Nat → σ → Option Nat
  | 0, _ => none
  | fuel + 1, s =>
    match body s with
    | Step.done _ => some (if cond s then 1 else 0)
    | Step.next s' => (countPasses cond body fuel s').map (fun k => k + 1)

/-! ## Grid model -/

def getNeighbors (node : Cell) (grid : Grid) : List Cell :=
  let row := node.1
  let col := node.2
  ((if row > 0 then [(row - 1, col)] else []) ++
   (if row < ROWS - 1 then [(row + 1, col)] else []) ++
   (if col > 0 then [(row, col - 1)] else []) ++
   (if col < COLS - 1 then [(row, col + 1)] else [])).filter (fun n => !(grid n).isWall)

def heuristic (node endNode : Cell) : Nat :=
  Int.natAbs ((node.1 : Int) - (endNode.1 : Int)) + Int.natAbs ((node.2 : Int) - (endNode.2 : Int))

/-! ## A* -/

structure AstarState where
  grid : Grid
  openSet : List Cell
  visitedNodesInOrder : List Cell

/-- The sort key `a.distance + heuristic(a, endNode)`. -/
def fScore (grid : Grid) (endNode a : Cell) : Option Nat :=
  (grid a).distance.map (fun d => d + heuristic a endNode)

/-- Body of `for (const neighbor of neighbors)` in `astar`. -/
def astarRelax (current : Cell) (acc : Grid × List Cell) (neighbor : Cell) : Grid × List Cell :=
  let tentativeDistance := numSucc (acc.1 current).distance
  if numLt tentativeDistance (acc.1 neighbor).distance then
    let grid1 := acc.1.set neighbor
      { acc.1 neighbor with distance := tentativeDistance, previousNode := some current }
    if neighbor ∈ acc.2 then (grid1, acc.2) else (grid1, acc.2 ++ [neighbor])
  else acc

def astarBody (endNode : Cell) (st : AstarState) : Step AstarState :=
  match stableSort (fun a b => numLe (fScore st.grid endNode a) (fScore st.grid endNode b))
      st.openSet with
  | [] => Step.done st
  | current :: rest =>
    if (st.grid current).isWall then Step.next { st with openSet := rest }
    else if (st.grid current).distance = none then Step.done { st with openSet := rest }
    else
      let grid1 := st.grid.set current { st.grid current with isVisited := true }
      let visited1 := st.visitedNodesInOrder ++ [current]
      if current = endNode then Step.done ⟨grid1, rest, visited1⟩
      else
        let r := (getNeighbors current grid1).foldl (astarRelax current) (grid1, rest)
        Step.next ⟨r.1, r.2, visited1⟩

/-- Result of `astar(grid, startNode, endNode)`: the mutated grid and
`visitedNodesInOrder`. -/
def astar (grid : Grid) (startNode endNode : Cell) : Option (Grid × List Cell) :=
  (iterate (astarBody endNode) (ROWS * COLS + 1)
    ⟨grid.set startNode { grid startNode with distance := some 0 }, [startNode], []⟩).map
    (fun st => (st.grid, st.visitedNodesInOrder))

/-! ## Dijkstra -/

structure DijkstraState where
  grid : Grid
  unvisitedNodes : List Cell
  visitedNodesInOrder : List Cell

/-- The node references of `grid.flat()`, row by row. -/
def flat : List Cell :=
  (List.range ROWS).flatMap (fun row => (List.range COLS).map (fun col => (row, col)))

/-- Body of `for (const neighbor of neighbors)` in `dijkstra`. -/
def dijkstraRelax (closestNode : Cell) (grid : Grid) (neighbor : Cell) : Grid :=
  let newDistance := numSucc (grid closestNode).distance
  if numLt newDistance (grid neighbor).distance then
    grid.set neighbor { grid neighbor with distance := newDistance, previousNode := some closestNode }
  else grid

def dijkstraBody (endNode : Cell) (st : DijkstraState) : Step DijkstraState :=
  match stableSort (fun a b => numLe (st.grid a).distance (st.grid b).distance)
      st.unvisitedNodes with
  | [] => Step.done st
  | closestNode :: rest =>
    if (st.grid closestNode).isWall then Step.next { st with unvisitedNodes := rest }
    else if (st.grid closestNode).distance = none then
      Step.done { st with unvisitedNodes := rest }
    else
      let grid1 := st.grid.set closestNode { st.grid closestNode with isVisited := true }
      let visited1 := st.visitedNodesInOrder ++ [closestNode]
      if closestNode = endNode then Step.done ⟨grid1, rest, visited1⟩
      else
        Step.next ⟨(getNeighbors closestNode grid1).foldl (dijkstraRelax closestNode) grid1,
          rest, visited1⟩

def dijkstra (grid : Grid) (startNode endNode : Cell) : Option (Grid × List Cell) :=
  (iterate (dijkstraBody endNode) (ROWS * COLS + 1)
    ⟨grid.set startNode { grid startNode with distance := some 0 }, flat, []⟩).map
    (fun st => (st.grid, st.visitedNodesInOrder))

/-! ## Breadth-first search -/

structure BfsState where
  grid : Grid
  queue : List Cell
  visitedNodesInOrder : List Cell

/-- Body of `for (const neighbor of neighbors)` in `bfs`. -/
def bfsVisit (current : Cell) (acc : Grid × List Cell) (neighbor : Cell) : Grid × List Cell :=
  if !(acc.1 neighbor).isVisited then
    (acc.1.set neighbor { acc.1 neighbor with isVisited := true, previousNode := some current },
     acc.2 ++ [neighbor])
  else acc

def bfsBody (endNode : Cell) (st : BfsState) : Step BfsState :=
  match st.queue with
  | [] => Step.done st
  | current :: rest =>
    let visited1 := st.visitedNodesInOrder ++ [current]
    if current = endNode then Step.done ⟨st.grid, rest, visited1⟩
    else
      let r := (getNeighbors current st.grid).foldl (bfsVisit current) (st.grid, rest)
      Step.next ⟨r.1, r.2, visited1⟩

def bfs (grid : Grid) (startNode endNode : Cell) : Option (Grid × List Cell) :=
  (iterate (bfsBody endNode) (ROWS * COLS + 1)
    ⟨grid.set startNode { grid startNode with isVisited := true }, [startNode], []⟩).map
    (fun st => (st.grid, st.visitedNodesInOrder))

/-! ## Depth-first search -/

/-- The `stack` array is kept with its top (the last array element) at the
head of the list: `push` is `::` and `pop` takes the head. -/
structure DfsState where
  grid : Grid
  stack : List Cell
  visitedNodesInOrder : List Cell

/-- Body of `for (const neighbor of neighbors)` in `dfs`. -/
def dfsPush (current : Cell) (acc : Grid × List Cell) (neighbor : Cell) : Grid × List Cell :=
  if !(acc.1 neighbor).isVisited then
    (acc.1.set neighbor { acc.1 neighbor with previousNode := some current }, neighbor :: acc.2)
  else acc

def dfsBody (endNode : Cell) (st : DfsState) : Step DfsState :=
  match st.stack with
  | [] => Step.done st
  | current :: rest =>
    if (st.grid current).isVisited || (st.grid current).isWall then
      Step.next { st with stack := rest }
    else
      let grid1 := st.grid.set current { st.grid current with isVisited := true }
      let visited1 := st.visitedNodesInOrder ++ [current]
      if current = endNode then Step.done ⟨grid1, rest, visited1⟩
      else
        let r := (getNeighbors current grid1).foldl (dfsPush current) (grid1, rest)
        Step.next ⟨r.1, r.2, visited1⟩

def dfs (grid : Grid) (startNode endNode : Cell) : Option (Grid × List Cell) :=
  (iterate (dfsBody endNode) (4 * (ROWS * COLS) + 2) ⟨grid, [startNode], []⟩).map
    (fun st => (st.grid, st.visitedNodesInOrder))

/-! ## Path reconstruction -/

/-- The `while (current !== null)` loop of `getPath`; `path.unshift` is `::`. -/
def getPathBody (grid : Grid) (st : Option Cell × List Cell) : Step (Option Cell × List Cell) :=
  match st.1 with
  | none => Step.done st
  | some current => Step.next ((grid current).previousNode, current :: st.2)

def getPath (grid : Grid) (endNode : Cell) : Option (List Cell) :=
  (iterate (getPathBody grid) (ROWS * COLS + 1) (some endNode, [])).map
    (fun st => if st.2.length > 1 then st.2 else [])

/-! ## One run -/

/-- One run as `visualize` and `animateAlgorithm` perform it, for a search
function and a start and end cell: the working copy is made, the search runs on
it, and `getPath(endNode)` reads the path off the mutated copy.  The result is
the mutated copy, `visitedNodesInOrder` and the path. -/
def runSearch (search : Grid → Cell → Cell → Option (Grid × List Cell)) (grid : Grid)
    (startNode endNode : Cell) : Option (Grid × List Cell × List Cell) :=
  (search (gridCopy grid) startNode endNode).bind
    (fun r => (getPath r.1 endNode).map (fun path => (r.1, r.2, path)))

/-! ## Editing operations and the run orchestrator -/

/-- `toggleWall(row, col)`; `isVisualizing` is the state flag it checks
first.  The result is the grid state after the call. -/
def toggleWall (isVisualizing : Bool) (grid : Grid) (row col : Nat) : Grid :=
  if isVisualizing then grid
  else if (grid (row, col)).isStart || (grid (row, col)).isEnd then grid
  else grid.set (row, col) { grid (row, col) with isWall := !(grid (row, col)).isWall }

/-- The grid state written by `clearPath()`. -/
def clearPath (grid : Grid) : Grid :=
  fun c => { grid c with isVisited := false, isPath := false, distance := none,
                         previousNode := none }

/-- The grid state written by `generateMaze()`; `random c` is the outcome of
the test `Math.random() < 0.3` drawn for the node at `c`. -/
def generateMaze (random : Cell → Bool) (grid : Grid) : Grid :=
  fun c => { grid c with isWall := !(grid c).isStart && !(grid c).isEnd && random c,
                         isVisited := false, isPath := false }

/-- What a call of `visualize` computes before the animation replays it:
the grid state written by `clearPath()`, the working copy after the search,
`visitedNodesInOrder`, and the path `animateAlgorithm` gets from
`getPath(endNode)`. -/
structure RunResult where
  grid : Grid
  gridCopy : Grid
  visitedNodesInOrder : List Cell
  path : List Cell

/-- The run made by `visualize()` when no run is in progress: `clearPath()`,
the working copy, the `switch (algorithm)` (which has no `default`, so any
other string leaves `visitedNodesInOrder` empty), then `getPath(endNode)`. -/
def visualize (algorithm : String) (grid : Grid) : Option RunResult :=
  let copy := gridCopy grid
  let searched : Option (Grid × List Cell) :=
    if algorithm = "astar" then astar copy START_NODE END_NODE
    else if algorithm = "dijkstra" then dijkstra copy START_NODE END_NODE
    else if algorithm = "bfs" then bfs copy START_NODE END_NODE
    else if algorithm = "dfs" then dfs copy START_NODE END_NODE
    else some (copy, [])
  searched.bind (fun r => (getPath r.1 END_NODE).map
    (fun path => ⟨clearPath grid, r.1, r.2, path⟩))

/-! ## Reference notions, invariants and postconditions -/

/-- Two coordinates are one step up, down, left or right of each other. -/
def Adjacent (a b : Cell) : Prop :=
  (a.1 = b.1 ∧ (a.2 + 1 = b.2 ∨ b.2 + 1 = a.2)) ∨ (a.2 = b.2 ∧ (a.1 + 1 = b.1 ∨ b.1 + 1 = a.1))

/-- A cell of the grid that is not a wall. -/
def Free (walls : Cell → Bool) (c : Cell) : Prop :=
  c.1 < ROWS ∧ c.2 < COLS ∧ walls c = false

/-- `Walk walls s c n`: there is a walk of `n` edges from `s` to `c` through
4-adjacent non-wall cells of the grid. -/
inductive Walk (walls : Cell → Bool) (s : Cell) : Cell → Nat → Prop where
  | start : Free walls s → Walk walls s s 0
  | step {c c' : Cell} {n : Nat} :
      Walk walls s c n → Adjacent c c' → Free walls c' → Walk walls s c' (n + 1)

/-- `d` is the least number of edges of a walk from `s` to `e`. -/
def IsShortest (walls : Cell → Bool) (s e : Cell) (d : Nat) : Prop :=
  Walk walls s e d ∧ ∀ n, Walk walls s e n → d ≤ n

/-- The wall configuration of a grid. -/
def wallsOf (grid : Grid) : Cell → Bool := fun c => (grid c).isWall

instance (a b : Cell) : Decidable (Adjacent a b) := by unfold Adjacent; infer_instance

instance (walls : Cell → Bool) (c : Cell) : Decidable (Free walls c) := by
  unfold Free; infer_instance

/-- Position of the first occurrence of `c` in `l` (`l.length` if there is none). -/
def indexIn (c : Cell) : List Cell → Nat
  | [] => 0
  | a :: l => if a = c then 0 else indexIn c l + 1

/-- Every visited cell other than the start points back to a cell visited
earlier and adjacent to it. -/
def TreeOn (grid : Grid) (s : Cell) (order : List Cell) : Prop :=
  ∀ c ∈ order, c ≠ s → ∃ p, (grid c).previousNode = some p ∧ p ∈ order ∧
    indexIn p order < indexIn c order ∧ Adjacent p c

/-- State left by a search: the visitation order and the predecessor
pointers of the working grid. -/
structure SearchPost (walls : Cell → Bool) (s e : Cell) (grid' : Grid) (order : List Cell) :
    Prop where
  wallsEq : ∀ c, (grid' c).isWall = walls c
  nodup : order.Nodup
  walk : ∀ c ∈ order, ∃ n, Walk walls s c n
  start_mem : s ∈ order
  start_prev : (grid' s).previousNode = none
  tree : TreeOn grid' s order
  end_last : e ∈ order → order.getLast? = some e
  end_prev : e ∉ order → (grid' e).previousNode = none
  complete : e ∉ order → ∀ c n, Walk walls s c n → c ∈ order

/-- The visited cells carry their shortest distance from the start, and each
predecessor pointer goes down one level. -/
def Levelled (walls : Cell → Bool) (s : Cell) (grid' : Grid) (order : List Cell) : Prop :=
  ∃ lv : Cell → Nat, lv s = 0 ∧ (∀ c ∈ order, IsShortest walls s c (lv c)) ∧
    ∀ c ∈ order, ∀ p, (grid' c).previousNode = some p → lv c = lv p + 1

/-- A working copy as `visualize` makes it: nothing visited, no distance, no
predecessor. -/
def Fresh (grid : Grid) : Prop :=
  ∀ c, (grid c).isVisited = false ∧ (grid c).distance = none ∧ (grid c).previousNode = none

/-- Loop invariant of `bfs`; `lv` is the level (distance from the start) of
the discovered cells. -/
structure BfsInv (walls : Cell → Bool) (s e : Cell) (lv : Cell → Nat) (st : BfsState) :
    Prop where
  wallsEq : ∀ c, (st.grid c).isWall = walls c
  nodup : (st.visitedNodesInOrder ++ st.queue).Nodup
  vis_iff : ∀ c, (st.grid c).isVisited = true ↔ c ∈ st.visitedNodesInOrder ∨ c ∈ st.queue
  lv_start : lv s = 0
  start_disc : s ∈ st.visitedNodesInOrder ∨ s ∈ st.queue
  start_prev : (st.grid s).previousNode = none
  walk : ∀ c, c ∈ st.visitedNodesInOrder ∨ c ∈ st.queue → Walk walls s c (lv c)
  sorted : st.queue.Pairwise (fun a b => lv a ≤ lv b)
  band : ∀ a ∈ st.queue, ∀ b ∈ st.queue, lv b ≤ lv a + 1
  closed_le : ∀ a ∈ st.visitedNodesInOrder, ∀ b ∈ st.queue, lv a ≤ lv b
  expanded : ∀ c ∈ st.visitedNodesInOrder, ∀ c', Adjacent c c' → Free walls c' →
    (c' ∈ st.visitedNodesInOrder ∨ c' ∈ st.queue) ∧ lv c' ≤ lv c + 1
  optimal : ∀ c ∈ st.visitedNodesInOrder, ∀ n, Walk walls s c n → lv c ≤ n
  pred : ∀ c, c ∈ st.visitedNodesInOrder ∨ c ∈ st.queue → c ≠ s →
    ∃ p, (st.grid c).previousNode = some p ∧ p ∈ st.visitedNodesInOrder ∧
      lv c = lv p + 1 ∧ Adjacent p c
  undisc : ∀ c, c ∉ st.visitedNodesInOrder → c ∉ st.queue → (st.grid c).previousNode = none
  tree : TreeOn st.grid s st.visitedNodesInOrder
  end_not : e ∉ st.visitedNodesInOrder

/-- What a finished search with shortest-path guarantee leaves behind. -/
def ShortestPost (walls : Cell → Bool) (s e : Cell) (grid' : Grid) (order : List Cell) : Prop :=
  SearchPost walls s e grid' order ∧ Levelled walls s grid' order

/-- The node written by a relaxation from `cur` at cost `d`. -/
def relaxNode (cur : Cell) (d : Nat) (n : Node) : Node :=
  { n with distance := some (d + 1), previousNode := some cur }

/-- The recorded cost of a cell, `0` where the field is `Infinity`. -/
def costOf (grid : Grid) (c : Cell) : Nat := ((grid c).distance).getD 0

/-- Field-level description of the grid after one expansion by a cost-based
search: the cells in `R` were relaxed from `u` at cost `d`, `u` was marked
visited, everything else is as before. -/
structure Relaxed (grid g' : Grid) (u : Cell) (d : Nat) (R : Cell → Prop) : Prop where
  wall : ∀ c, (g' c).isWall = (grid c).isWall
  vis : ∀ c, (g' c).isVisited = true ↔ ((grid c).isVisited = true ∨ c = u)
  hit : ∀ c, R c → (g' c).distance = some (d + 1) ∧ (g' c).previousNode = some u
  miss : ∀ c, ¬ R c → (g' c).distance = (grid c).distance ∧
    (g' c).previousNode = (grid c).previousNode

/-- The part of the loop invariant that `astar` and `dijkstra` share: the
recorded distances of the visited cells are shortest distances. -/
structure CostInv (walls : Cell → Bool) (s e : Cell) (grid : Grid) (order : List Cell) :
    Prop where
  wallsEq : ∀ c, (grid c).isWall = walls c
  nodup : order.Nodup
  vis_iff : ∀ c, (grid c).isVisited = true ↔ c ∈ order
  closed_disc : ∀ c ∈ order, ∃ k, (grid c).distance = some k
  start_dist : (grid s).distance = some 0
  start_prev : (grid s).previousNode = none
  walk : ∀ c k, (grid c).distance = some k → Walk walls s c k
  expanded : ∀ c ∈ order, ∀ c', Adjacent c c' → Free walls c' →
    ∃ k k', (grid c).distance = some k ∧ (grid c').distance = some k' ∧ k' ≤ k + 1
  optimal : ∀ c ∈ order, ∀ k n, (grid c).distance = some k → Walk walls s c n → k ≤ n
  pred : ∀ c k, (grid c).distance = some k → c ≠ s →
    ∃ p kp, (grid c).previousNode = some p ∧ p ∈ order ∧
      (grid p).distance = some kp ∧ k = kp + 1 ∧ Adjacent p c
  undisc : ∀ c, (grid c).distance = none → (grid c).previousNode = none
  tree : TreeOn grid s order
  end_not : e ∉ order

/-- Loop invariant of `astar`. -/
structure AstarInv (walls : Cell → Bool) (s e : Cell) (st : AstarState) : Prop where
  cost : CostInv walls s e st.grid st.visitedNodesInOrder
  nodup : (st.visitedNodesInOrder ++ st.openSet).Nodup
  disc_iff : ∀ c, (∃ k, (st.grid c).distance = some k) ↔
    c ∈ st.visitedNodesInOrder ∨ c ∈ st.openSet
  start_first : s ∈ st.visitedNodesInOrder ∨ st.openSet = [s]

/-- Loop invariant of `dijkstra`. -/
structure DijkstraInv (walls : Cell → Bool) (s e : Cell) (st : DijkstraState) : Prop where
  cost : CostInv walls s e st.grid st.visitedNodesInOrder
  nodup : (st.visitedNodesInOrder ++ st.unvisitedNodes).Nodup
  free_mem : ∀ c, Free walls c → c ∈ st.visitedNodesInOrder ∨ c ∈ st.unvisitedNodes

/-- Loop invariant of `dfs`. -/
structure DfsInv (walls : Cell → Bool) (s e : Cell) (st : DfsState) : Prop where
  wallsEq : ∀ c, (st.grid c).isWall = walls c
  nodup : st.visitedNodesInOrder.Nodup
  vis_iff : ∀ c, (st.grid c).isVisited = true ↔ c ∈ st.visitedNodesInOrder
  reach : ∀ c, c ∈ st.visitedNodesInOrder ∨ c ∈ st.stack → ∃ n, Walk walls s c n
  start_prev : (st.grid s).previousNode = none
  first : s ∈ st.visitedNodesInOrder ∨ (st.stack = [s] ∧ st.visitedNodesInOrder = [])
  stack_pred : ∀ c ∈ st.stack, c ∉ st.visitedNodesInOrder → c ≠ s →
    ∃ p, (st.grid c).previousNode = some p ∧ p ∈ st.visitedNodesInOrder ∧ Adjacent p c
  expanded : ∀ c ∈ st.visitedNodesInOrder, ∀ c', Adjacent c c' → Free walls c' →
    c' ∈ st.visitedNodesInOrder ∨ c' ∈ st.stack
  undisc : ∀ c, c ∉ st.visitedNodesInOrder → c ∉ st.stack → (st.grid c).previousNode = none
  tree : TreeOn st.grid s st.visitedNodesInOrder
  end_not : e ∉ st.visitedNodesInOrder

/-- The four searches `visualize` can dispatch to. -/
def searches : List (Grid → Cell → Cell → Option (Grid × List Cell)) :=
  [astar, dijkstra, bfs, dfs]

/-- The three searches that record shortest paths. -/
def shortestSearches : List (Grid → Cell → Cell → Option (Grid × List Cell)) :=
  [astar, dijkstra, bfs]

/-- A grid whose only walls are the two neighbours of the corner `(0, 0)`. -/
def cornerGrid : Grid :=
  fun c => { createNode c.1 c.2 with isWall := decide (c = (1, 0) ∨ c = (0, 1)) }

/-- The coordinates whose nodes `getNeighbors` reads from the grid: the
pushes guarded by the four bounds tests, in the order up, down, left, right. -/
def neighborCandidates (node : Cell) : List Cell :=
  (if node.1 > 0 then [(node.1 - 1, node.2)] else []) ++
  (if node.1 < ROWS - 1 then [(node.1 + 1, node.2)] else []) ++
  (if node.2 > 0 then [(node.1, node.2 - 1)] else []) ++
  (if node.2 < COLS - 1 then [(node.1, node.2 + 1)] else [])

/-- Modelled from the spec's words (section 4.1): the up-to-4 grid-adjacent
cells `(row±1, col)` and `(row, col±1)`, in the order up, down, left, right,
that lie within bounds, excluding walls.  The candidates are integer pairs, so
that `row - 1` above row 0 is out of bounds. -/
def neighborsSpec (walls : Cell → Bool) (row col : Nat) : List Cell :=
  (([((row : Int) - 1, (col : Int)), ((row : Int) + 1, (col : Int)),
      ((row : Int), (col : Int) - 1), ((row : Int), (col : Int) + 1)].filter
      (fun p => decide (0 ≤ p.1 ∧ p.1 < (ROWS : Int) ∧ 0 ≤ p.2 ∧ p.2 < (COLS : Int)))).map
      (fun p => (p.1.toNat, p.2.toNat))).filter (fun c => !walls c)

/-- Grid states reachable from `initializeGrid()` by `toggleWall` (whatever
the `isVisualizing` flag and the coordinates), `generateMaze` (whatever the
random draws) and `clearPath`. -/
inductive Reachable : Grid → Prop where
  | init : Reachable initializeGrid
  | toggle {grid : Grid} (isVisualizing : Bool) (row col : Nat) :
      Reachable grid → Reachable (toggleWall isVisualizing grid row col)
  | maze {grid : Grid} (random : Cell → Bool) :
      Reachable grid → Reachable (generateMaze random grid)
  | clear {grid : Grid} : Reachable grid → Reachable (clearPath grid)

/-- A grid with a mark left by an earlier run at `(10, 6)`. -/
def leftoverGrid : Grid :=
  initializeGrid.set (10, 6) { createNode 10 6 with isVisited := true }

/-- The state a pass through a loop hands on, whether or not it leaves the
loop. -/
def Step.state {σ : Type} : Step σ → σ
  | Step.next s => s
  | Step.done s => s

/-- Every visited cell other than the start points to the most recently
visited cell among the cells adjacent to it that were visited before it. -/
def LatestPredecessors (grid : Grid) (s : Cell) (order : List Cell) : Prop :=
  ∀ c ∈ order, c ≠ s → ∃ p, (grid c).previousNode = some p ∧ p ∈ order ∧
    indexIn p order < indexIn c order ∧ Adjacent p c ∧
    ∀ q ∈ order, Adjacent q c → indexIn q order < indexIn c order →
      indexIn q order ≤ indexIn p order

/-- Every free cell not yet visited that has a visited cell next to it points
to the most recently visited such cell. -/
def PendingPredecessors (walls : Cell → Bool) (grid : Grid) (order : List Cell) : Prop :=
  ∀ c, c ∉ order → Free walls c → ∀ q ∈ order, Adjacent q c →
    ∃ p, (grid c).previousNode = some p ∧ p ∈ order ∧ Adjacent p c ∧
      indexIn q order ≤ indexIn p order

/-- The recorded distance of every visited cell is its shortest distance from
the start, and along the visitation order the distances never decrease. -/
def LevelOrder (walls : Cell → Bool) (s : Cell) (grid' : Grid) (order : List Cell) : Prop :=
  (∀ c ∈ order, ∃ k, (grid' c).distance = some k ∧ IsShortest walls s c k) ∧
  order.Pairwise (fun a b => ∃ ka kb, (grid' a).distance = some ka ∧
    (grid' b).distance = some kb ∧ ka ≤ kb)

/-- Loop invariant behind `LevelOrder`: the visited cells are in order of
distance, and no cell outside them has a smaller recorded distance. -/
structure Mono (grid : Grid) (order : List Cell) : Prop where
  pw : order.Pairwise (fun a b => costOf grid a ≤ costOf grid b)
  below : ∀ a ∈ order, ∀ c k, c ∉ order → (grid c).distance = some k → costOf grid a ≤ k

/-- Run `n` passes of a loop, provided none of them leaves it. -/
def advance {σ : Type} (body : σ → Step σ) : Nat → σ → Option σ
  | 0, s => some s
  | n + 1, s =>
    match body s with
    | Step.done _ => none
    | Step.next s' => advance body n s'

/-- Passes through `while (openSet.length > 0)` in `astar(grid, startNode,
endNode)`. -/
def astarPasses (grid : Grid) (startNode endNode : Cell) : Option Nat :=
  countPasses (fun st => !st.openSet.isEmpty) (astarBody endNode) (ROWS * COLS + 1)
    ⟨grid.set startNode { grid startNode with distance := some 0 }, [startNode], []⟩

/-- Passes through `while (unvisitedNodes.length)` in `dijkstra`. -/
def dijkstraPasses (grid : Grid) (startNode endNode : Cell) : Option Nat :=
  countPasses (fun st => !st.unvisitedNodes.isEmpty) (dijkstraBody endNode) (ROWS * COLS + 1)
    ⟨grid.set startNode { grid startNode with distance := some 0 }, flat, []⟩

/-- Passes through `while (queue.length)` in `bfs`. -/
def bfsPasses (grid : Grid) (startNode endNode : Cell) : Option Nat :=
  countPasses (fun st => !st.queue.isEmpty) (bfsBody endNode) (ROWS * COLS + 1)
    ⟨grid.set startNode { grid startNode with isVisited := true }, [startNode], []⟩

/-- Passes through `while (stack.length)` in `dfs`. -/
def dfsPasses (grid : Grid) (startNode endNode : Cell) : Option Nat :=
  countPasses (fun st => !st.stack.isEmpty) (dfsBody endNode) (4 * (ROWS * COLS) + 2)
    ⟨grid, [startNode], []⟩

/-- Number of distinct cells on the stack of `dfs` that are not marked
visited. -/
def pendingCount (st : DfsState) : Nat :=
  ((st.stack.filter (fun c => !(st.grid c).isVisited)).dedup).length

/-- The grid with the four cells around the end cell walled in. -/
def enclosedGrid : Grid :=
  fun c => { createNode c.1 c.2 with
    isWall := decide (c = (9, 35) ∨ c = (11, 35) ∨ c = (10, 34) ∨ c = (10, 36)) }

/-- Forget the fields of a node that no search and no path reconstruction
reads or writes: `isStart`, `isEnd` and `isPath`. -/
def stripNode (n : Node) : Node :=
  { n with isStart := false, isEnd := false, isPath := false }

/-- The grid with those fields forgotten at every node. -/
def strip (grid : Grid) : Grid := fun c => stripNode (grid c)

/-- Apply a function to the state a pass hands on. -/
def Step.map {σ τ : Type} (f : σ → τ) : Step σ → Step τ
  | Step.next s => Step.next (f s)
  | Step.done s => Step.done (f s)

/-- The result of a search with the unread fields of the grid forgotten. -/
def stripResult (r : Grid × List Cell) : Grid × List Cell := (strip r.1, r.2)

def stripAstar (st : AstarState) : AstarState := { st with grid := strip st.grid }

def stripDijkstra (st : DijkstraState) : DijkstraState := { st with grid := strip st.grid }

def stripBfs (st : BfsState) : BfsState := { st with grid := strip st.grid }

def stripDfs (st : DfsState) : DfsState := { st with grid := strip st.grid }

/-- Visitation order and path of a run. -/
def runOutput (search : Grid → Cell → Cell → Option (Grid × List Cell)) (copy : Grid)
    (s e : Cell) : Option (List Cell × List Cell) :=
  (search copy s e).bind (fun r => (getPath r.1 e).map (fun path => (r.2, path)))

/-- Which cells are marked visited when a search returns: the cells of the
visitation order and, after `bfs` (which marks at enqueue), free cells still
in the queue, each with a predecessor in the visitation order. -/
def VisitedPost (walls : Cell → Bool) (grid' : Grid) (order : List Cell) : Prop :=
  ∀ c, (grid' c).isVisited = true →
    c ∈ order ∨ (Free walls c ∧ ∃ p, (grid' c).previousNode = some p ∧ p ∈ order)

/-- What bounds the loop of `bfs` whatever the walls: the visited and the
queued cells are distinct cells of the grid, all marked visited. -/
structure BfsBound (st : BfsState) : Prop where
  nodup : (st.visitedNodesInOrder ++ st.queue).Nodup
  inBounds : ∀ c, c ∈ st.visitedNodesInOrder ++ st.queue → c.1 < ROWS ∧ c.2 < COLS
  vis : ∀ c, c ∈ st.visitedNodesInOrder ++ st.queue → (st.grid c).isVisited = true

/-! ## Basic facts: adjacency, neighbours, loops, sorting, counting -/

theorem Adjacent.symm {a b : Cell} (h : Adjacent a b) : Adjacent b a := by
  unfold Adjacent at *; omega

theorem Adjacent.ne {a b : Cell} (h : Adjacent a b) : a ≠ b := by
  intro hab; subst hab; unfold Adjacent at h; omega

theorem Walk.free {walls : Cell → Bool} {s c : Cell} {n : Nat} (h : Walk walls s c n) :
    Free walls c := by
  cases h with
  | start h => exact h
  | step _ _ h => exact h

theorem Walk.free_start {walls : Cell → Bool} {s c : Cell} {n : Nat} (h : Walk walls s c n) :
    Free walls s := by
  induction h with
  | start h => exact h
  | step _ _ _ ih => exact ih

theorem mem_getNeighbors {c c' : Cell} {grid : Grid} :
    c' ∈ getNeighbors c grid ↔
      ((0 < c.1 ∧ c' = (c.1 - 1, c.2)) ∨ (c.1 < ROWS - 1 ∧ c' = (c.1 + 1, c.2)) ∨
        (0 < c.2 ∧ c' = (c.1, c.2 - 1)) ∨ (c.2 < COLS - 1 ∧ c' = (c.1, c.2 + 1))) ∧
      (grid c').isWall = false := by
  unfold getNeighbors
  simp only [List.mem_filter, List.mem_append, gt_iff_lt]
  constructor
  · rintro ⟨h, hw⟩
    refine ⟨?_, by simpa using hw⟩
    rcases h with ((h | h) | h) | h
    · split at h <;> simp at h; left; exact ⟨by assumption, h⟩
    · split at h <;> simp at h; right; left; exact ⟨by assumption, h⟩
    · split at h <;> simp at h; right; right; left; exact ⟨by assumption, h⟩
    · split at h <;> simp at h; right; right; right; exact ⟨by assumption, h⟩
  · rintro ⟨h, hw⟩
    refine ⟨?_, by simpa using hw⟩
    rcases h with ⟨h, rfl⟩ | ⟨h, rfl⟩ | ⟨h, rfl⟩ | ⟨h, rfl⟩
    · left; left; left; simp [h]
    · left; left; right; simp [h]
    · left; right; simp [h]
    · right; simp [h]

theorem mem_getNeighbors_iff {c c' : Cell} {grid : Grid} (hc : c.1 < ROWS ∧ c.2 < COLS) :
    c' ∈ getNeighbors c grid ↔ Adjacent c c' ∧ Free (wallsOf grid) c' := by
  rw [mem_getNeighbors]
  obtain ⟨a, b⟩ := c
  obtain ⟨a', b'⟩ := c'
  simp only [Adjacent, Free, wallsOf, Prod.mk.injEq, ROWS, COLS] at *
  constructor
  · rintro ⟨h, hw⟩; refine ⟨?_, ?_, ?_, hw⟩ <;> omega
  · rintro ⟨h, h1, h2, hw⟩; refine ⟨?_, hw⟩; omega

theorem getNeighbors_congr {grid grid' : Grid} (h : ∀ c, (grid' c).isWall = (grid c).isWall)
    (c : Cell) : getNeighbors c grid' = getNeighbors c grid := by
  unfold getNeighbors
  simp only [h]

theorem getNeighbors_nodup (c : Cell) (grid : Grid) : (getNeighbors c grid).Nodup := by
  unfold getNeighbors
  apply List.Nodup.filter
  obtain ⟨a, b⟩ := c
  by_cases h1 : a > 0 <;> by_cases h2 : a < ROWS - 1 <;> by_cases h3 : b > 0 <;>
    by_cases h4 : b < COLS - 1 <;> simp [h1, h2, h3, h4] <;> omega

theorem getNeighbors_length_le (c : Cell) (grid : Grid) : (getNeighbors c grid).length ≤ 4 := by
  unfold getNeighbors
  refine le_trans (List.length_filter_le _ _) ?_
  simp only [List.length_append]
  split <;> split <;> split <;> split <;> simp

theorem heuristic_adjacent {a b : Cell} (e : Cell) (h : Adjacent a b) :
    heuristic a e ≤ heuristic b e + 1 := by
  unfold heuristic; unfold Adjacent at h
  omega

theorem iterate_spec {σ : Type} (body : σ → Step σ) (Inv Post : σ → Prop) (μ : σ → Nat)
    (hnext : ∀ s s', Inv s → body s = Step.next s' → Inv s' ∧ μ s' < μ s)
    (hdone : ∀ s s', Inv s → body s = Step.done s' → Post s') :
    ∀ fuel s, Inv s → μ s < fuel → ∃ r, iterate body fuel s = some r ∧ Post r := by
  intro fuel
  induction fuel with
  | zero => intro s _ h; omega
  | succ fuel ih =>
    intro s hs hμ
    unfold iterate
    cases hb : body s with
    | done s' => exact ⟨s', rfl, hdone s s' hs hb⟩
    | next s' =>
      obtain ⟨h1, h2⟩ := hnext s s' hs hb
      exact ih s' h1 (by omega)

theorem orderedInsert_perm {α : Type} (le : α → α → Bool) (a : α) (l : List α) :
    (orderedInsert le a l).Perm (a :: l) := by
  induction l with
  | nil => simp [orderedInsert]
  | cons b l ih =>
    unfold orderedInsert
    split
    · exact List.Perm.refl _
    · exact (List.Perm.cons b ih).trans (List.Perm.swap a b l)

theorem stableSort_perm {α : Type} (le : α → α → Bool) (l : List α) :
    (stableSort le l).Perm l := by
  induction l with
  | nil => simp [stableSort]
  | cons a l ih =>
    unfold stableSort
    exact (orderedInsert_perm le a _).trans (List.Perm.cons a ih)

theorem orderedInsert_sorted {α : Type} (le : α → α → Bool)
    (htot : ∀ a b, le a b = true ∨ le b a = true)
    (htrans : ∀ a b c, le a b = true → le b c = true → le a c = true)
    (a : α) (l : List α) (hl : l.Pairwise (fun x y => le x y = true)) :
    (orderedInsert le a l).Pairwise (fun x y => le x y = true) := by
  induction l with
  | nil => simp [orderedInsert]
  | cons b l ih =>
    unfold orderedInsert
    rw [List.pairwise_cons] at hl
    split
    · rename_i hab
      refine List.Pairwise.cons ?_ (List.Pairwise.cons hl.1 hl.2)
      intro x hx
      rcases List.mem_cons.1 hx with rfl | hx
      · exact hab
      · exact htrans _ _ _ hab (hl.1 x hx)
    · rename_i hab
      have hba : le b a = true := by
        rcases htot a b with h | h
        · exact absurd h hab
        · exact h
      refine List.Pairwise.cons ?_ (ih hl.2)
      intro x hx
      rcases List.mem_cons.1 ((orderedInsert_perm le a l).mem_iff.1 hx) with rfl | hx
      · exact hba
      · exact hl.1 x hx

theorem stableSort_sorted {α : Type} (le : α → α → Bool)
    (htot : ∀ a b, le a b = true ∨ le b a = true)
    (htrans : ∀ a b c, le a b = true → le b c = true → le a c = true) (l : List α) :
    (stableSort le l).Pairwise (fun x y => le x y = true) := by
  induction l with
  | nil => simp [stableSort]
  | cons a l ih =>
    unfold stableSort
    exact orderedInsert_sorted le htot htrans a _ ih

/-- The element taken by `shift()` after the sort is minimal in the array. -/
theorem stableSort_head_le {α : Type} (le : α → α → Bool)
    (htot : ∀ a b, le a b = true ∨ le b a = true)
    (htrans : ∀ a b c, le a b = true → le b c = true → le a c = true)
    {l : List α} {a : α} {rest : List α} (h : stableSort le l = a :: rest) :
    ∀ b ∈ l, le a b = true := by
  intro b hb
  have hs := stableSort_sorted le htot htrans l
  rw [h] at hs
  have hb' : b ∈ a :: rest := by rw [← h]; exact (stableSort_perm le l).mem_iff.2 hb
  rcases List.mem_cons.1 hb' with rfl | hb'
  · rcases htot b b with h | h <;> exact h
  · exact (List.pairwise_cons.1 hs).1 b hb'

theorem numLe_total (x y : Option Nat) : numLe x y = true ∨ numLe y x = true := by
  cases x <;> cases y <;> simp [numLe]; omega

theorem numLe_trans (x y z : Option Nat) (h1 : numLe x y = true) (h2 : numLe y z = true) :
    numLe x z = true := by
  cases x <;> cases y <;> cases z <;> simp [numLe] at * ; omega

theorem length_le_of_nodup {l : List Cell} (hn : l.Nodup)
    (hb : ∀ c ∈ l, c.1 < ROWS ∧ c.2 < COLS) : l.length ≤ ROWS * COLS := by
  have h1 : l.toFinset ⊆ Finset.range ROWS ×ˢ Finset.range COLS := by
    intro c hc
    have := hb c (List.mem_toFinset.1 hc)
    simp [Finset.mem_product, this]
  have h2 := Finset.card_le_card h1
  rw [List.toFinset_card_of_nodup hn] at h2
  simpa using h2

/-! ## The frontier argument and chains of predecessor pointers -/

/-- While a best-first search runs, every walk from the start either ends in
a closed cell whose recorded cost is at most the walk's length, or some open
cell has priority at most the walk's length plus the heuristic at its end. -/
theorem frontier_of_walk (walls : Cell → Bool) (s : Cell) (h g : Cell → Nat)
    (closed opened : Cell → Prop)
    (hcons : ∀ a b, Adjacent a b → h a ≤ h b + 1)
    (hs : g s = 0) (hsd : closed s ∨ opened s)
    (hexp : ∀ c, closed c → ∀ c', Adjacent c c' → Free walls c' →
      (closed c' ∨ opened c') ∧ g c' ≤ g c + 1)
    {u : Cell} {n : Nat} (hw : Walk walls s u n) :
    (closed u ∧ g u ≤ n) ∨ ∃ p, opened p ∧ g p + h p ≤ n + h u := by
  induction hw with
  | start _ =>
    rcases hsd with h1 | h1
    · left; exact ⟨h1, by omega⟩
    · right; exact ⟨s, h1, by omega⟩
  | step hw hadj hfree ih =>
    rename_i c c' n
    rcases ih with ⟨hc, hg⟩ | ⟨p, hp, hpf⟩
    · obtain ⟨hd, hle⟩ := hexp c hc c' hadj hfree
      rcases hd with hd | hd
      · left; exact ⟨hd, by omega⟩
      · right; exact ⟨c', hd, by omega⟩
    · right
      have := hcons c c' hadj
      exact ⟨p, hp, by omega⟩

theorem indexIn_lt_length {c : Cell} {l : List Cell} (h : c ∈ l) : indexIn c l < l.length := by
  induction l with
  | nil => simp at h
  | cons a l ih =>
    unfold indexIn
    split
    · simp
    · rename_i hne
      rcases List.mem_cons.1 h with h | h
      · exact absurd h.symm hne
      · simpa using ih h

theorem indexIn_append_of_mem {c : Cell} {l l' : List Cell} (h : c ∈ l) :
    indexIn c (l ++ l') = indexIn c l := by
  induction l with
  | nil => simp at h
  | cons a l ih =>
    simp only [List.cons_append, indexIn]
    split
    · rfl
    · rename_i hne
      rcases List.mem_cons.1 h with h | h
      · exact absurd h.symm hne
      · have := ih h
        simp only [List.append_eq] at *
        omega

theorem indexIn_snoc_of_not_mem {c : Cell} {l : List Cell} (h : c ∉ l) :
    indexIn c (l ++ [c]) = l.length := by
  induction l with
  | nil => simp [indexIn]
  | cons a l ih =>
    simp only [List.cons_append, indexIn]
    have h1 : a ≠ c := fun h' => h (by simp [h'])
    have h2 : c ∉ l := fun h' => h (by simp [h'])
    simp [h1, ih h2]

theorem TreeOn.snoc {grid grid' : Grid} {s u : Cell} {order : List Cell}
    (ht : TreeOn grid s order)
    (hsame : ∀ c ∈ order, (grid' c).previousNode = (grid c).previousNode)
    (hu : u ∉ order)
    (hp : u ≠ s → ∃ p, (grid' u).previousNode = some p ∧ p ∈ order ∧ Adjacent p u) :
    TreeOn grid' s (order ++ [u]) := by
  intro c hc hcs
  rcases List.mem_append.1 hc with hc | hc
  · obtain ⟨p, h1, h2, h3, h4⟩ := ht c hc hcs
    refine ⟨p, by rw [hsame c hc]; exact h1, List.mem_append_left _ h2, ?_, h4⟩
    rw [indexIn_append_of_mem h2, indexIn_append_of_mem hc]
    exact h3
  · have hcu : c = u := by simpa using hc
    subst hcu
    obtain ⟨p, h1, h2, h4⟩ := hp hcs
    refine ⟨p, h1, List.mem_append_left _ h2, ?_, h4⟩
    rw [indexIn_append_of_mem h2, indexIn_snoc_of_not_mem hu]
    exact indexIn_lt_length h2

/-- The chain of predecessor pointers from a visited cell: the loop of
`getPath` walks it and stops, and the list it builds runs from the start to
that cell. -/
theorem getPath_chain (grid : Grid) (s : Cell) (order : List Cell)
    (rk : Cell → Nat)
    (hs : (grid s).previousNode = none)
    (htree : ∀ c ∈ order, c ≠ s → ∃ p, (grid c).previousNode = some p ∧ p ∈ order ∧
      rk p < rk c ∧ Adjacent p c) :
    ∀ n e, rk e ≤ n → e ∈ order → s ∈ order → ∃ path : List Cell,
      (∀ acc fuel, path.length < fuel →
        iterate (getPathBody grid) fuel (some e, acc) = some (none, path ++ acc)) ∧
      path.head? = some s ∧ path.getLast? = some e ∧ List.Chain' Adjacent path ∧
      (∀ x ∈ path, x ∈ order ∧ rk x ≤ rk e) ∧ path.Pairwise (fun a b => rk a < rk b) ∧
      (e ≠ s → 2 ≤ path.length) ∧ (e = s → path = [s]) ∧
      ((∀ c ∈ order, ∀ p, (grid c).previousNode = some p → rk c = rk p + 1) →
        path.length = rk e - rk s + 1) := by
  intro n
  induction n with
  | zero =>
    intro e hrk he hso
    by_cases hes : e = s
    · subst hes
      refine ⟨[e], ?_, rfl, rfl, by simp, by simp [he], by simp, by simp, by simp, by simp⟩
      intro acc fuel hf
      match fuel, hf with
      | fuel + 2, _ => simp [iterate, getPathBody, hs]
    · obtain ⟨p, _, _, h3, _⟩ := htree e he hes
      omega
  | succ n ih =>
    intro e hrk he hso
    by_cases hes : e = s
    · subst hes
      refine ⟨[e], ?_, rfl, rfl, by simp, by simp [he], by simp, by simp, by simp, by simp⟩
      intro acc fuel hf
      match fuel, hf with
      | fuel + 2, _ => simp [iterate, getPathBody, hs]
    · obtain ⟨p, hp1, hp2, hp3, hp4⟩ := htree e he hes
      obtain ⟨path, h1, h2, h3, h4, h5, h6, h7, _, h8⟩ := ih p (by omega) hp2 hso
      have hne : path ≠ [] := by
        intro h; rw [h] at h2; simp at h2
      refine ⟨path ++ [e], ?_, ?_, by simp, ?_, ?_, ?_, ?_, fun h => absurd h hes, ?_⟩
      · intro acc fuel hf
        match fuel, hf with
        | fuel + 1, hf =>
          have := h1 (e :: acc) fuel (by simp at hf; omega)
          simp only [iterate, getPathBody, hp1]
          rw [this]; simp
      · cases path with
        | nil => exact absurd rfl hne
        | cons a l => simpa using h2
      · rw [List.chain'_append]
        refine ⟨h4, by simp, ?_⟩
        intro x hx y hy
        have hx' : path.getLast? = some x := by
          simpa using hx
        have hy' : e = y := by simpa using hy
        rw [h3] at hx'
        cases hx'; subst hy'; exact hp4
      · intro x hx
        rcases List.mem_append.1 hx with hx | hx
        · exact ⟨(h5 x hx).1, by have := (h5 x hx).2; omega⟩
        · have : x = e := by simpa using hx
          subst this; exact ⟨he, le_refl _⟩
      · rw [List.pairwise_append]
        refine ⟨h6, by simp, ?_⟩
        intro a ha b hb
        have : b = e := by simpa using hb
        subst this
        have := (h5 a ha).2; omega
      · intro _
        have : 0 < path.length := List.length_pos.2 hne
        simp; omega
      · intro hex
        have h8' := h8 hex
        have hrkp := hex e he p hp1
        have hsp : rk s ≤ rk p := by
          cases path with
          | nil => exact absurd rfl hne
          | cons a l =>
            have ha : a = s := by simpa using h2
            subst ha
            rcases List.eq_or_mem_of_mem_cons (List.mem_of_mem_getLast? h3) with h | h
            · rw [h]
            · exact le_of_lt ((List.pairwise_cons.1 h6).1 p h)
        simp; omega

/-! ## The common postcondition and path reconstruction -/

theorem IsShortest.unique {walls : Cell → Bool} {s e : Cell} {d d' : Nat}
    (h : IsShortest walls s e d) (h' : IsShortest walls s e d') : d = d' :=
  le_antisymm (h.2 d' h'.1) (h'.2 d h.1)

theorem rows_cols_pos : 1 ≤ ROWS * COLS := by decide

theorem getPath_of_post {walls : Cell → Bool} {s e : Cell} {grid' : Grid} {order : List Cell}
    (hp : SearchPost walls s e grid' order) :
    ∃ path, getPath grid' e = some path ∧ List.Chain' Adjacent path ∧
      (∀ c ∈ path, c ∈ order) ∧ path.Nodup ∧
      (path ≠ [] → path.head? = some s ∧ path.getLast? = some e) ∧
      (path ≠ [] ↔ (e ∈ order ∧ e ≠ s)) ∧
      (Levelled walls s grid' order → ∀ d, IsShortest walls s e d → e ≠ s →
        path.length = d + 1) := by
  by_cases he : e ∈ order
  · obtain ⟨path, h1, h2, h3, h4, h5, h6, h7, h8, h9⟩ :=
      getPath_chain grid' s order (fun c => indexIn c order) hp.start_prev hp.tree
        (indexIn e order) e (le_refl _) he hp.start_mem
    have hnd : path.Nodup := by
      refine List.Pairwise.imp ?_ h6
      intro a b hab heq
      subst heq; exact absurd hab (lt_irrefl _)
    have hlen : path.length ≤ ROWS * COLS := by
      apply length_le_of_nodup hnd
      intro c hc
      obtain ⟨n, hw⟩ := hp.walk c (h5 c hc).1
      exact ⟨hw.free.1, hw.free.2.1⟩
    have hrun := h1 [] (ROWS * COLS + 1) (by omega)
    by_cases hes : e = s
    · refine ⟨[], ?_, by simp, by simp, by simp, by simp, by simp [hes], ?_⟩
      · unfold getPath; rw [hrun]; simp [h8 hes]
      · intro _ _ _ h; exact absurd hes h
    · have h2len := h7 hes
      refine ⟨path, ?_, h4, fun c hc => (h5 c hc).1, hnd, fun _ => ⟨h2, h3⟩, ?_, ?_⟩
      · unfold getPath; rw [hrun]
        simp only [List.append_nil, Option.map_some', Option.some.injEq]
        rw [if_pos (by omega)]
      · constructor
        · intro _; exact ⟨he, hes⟩
        · intro _ h; rw [h] at h2len; simp at h2len
      · rintro ⟨lv, hl0, hl1, hl2⟩ d hd _
        obtain ⟨path', g1, g2, g3, _, _, _, _, _, g9⟩ :=
          getPath_chain grid' s order lv hp.start_prev
            (by
              intro c hc hcs
              obtain ⟨p, q1, q2, _, q4⟩ := hp.tree c hc hcs
              exact ⟨p, q1, q2, by have := hl2 c hc p q1; omega, q4⟩)
            (lv e) e (le_refl _) he hp.start_mem
        have hlen' := g9 hl2
        have hd' : d = lv e := hd.unique (hl1 e he)
        have hdet : path' ++ [] = path ++ [] := by
          have e1 := g1 [] (path.length + path'.length + 1) (by omega)
          have e2 := h1 [] (path.length + path'.length + 1) (by omega)
          rw [e1] at e2
          simpa using e2
        simp only [List.append_nil] at hdet
        rw [← hdet, hlen', hl0, hd']
        omega
  · have hprev := hp.end_prev he
    have hes : e ≠ s := fun h => he (h ▸ hp.start_mem)
    refine ⟨[], ?_, by simp, by simp, by simp, by simp, by simp [he], ?_⟩
    · unfold getPath
      have : ∃ k, ROWS * COLS + 1 = k + 2 := ⟨ROWS * COLS - 1, by have := rows_cols_pos; omega⟩
      obtain ⟨k, hk⟩ := this
      rw [hk]
      simp [iterate, getPathBody, hprev]
    · intro _ d hd _
      exact absurd (hp.complete he e d hd.1) he

/-! ## Breadth-first search -/

@[simp] theorem Grid.set_same (grid : Grid) (c : Cell) (n : Node) : grid.set c n c = n := by
  simp [Grid.set]

theorem Grid.set_other (grid : Grid) {c c' : Cell} (n : Node) (h : c' ≠ c) :
    grid.set c n c' = grid c' := by
  simp [Grid.set, h]

/-- The `for` loop of `bfs` in closed form. -/
theorem foldl_bfsVisit (cur : Cell) : ∀ (l : List Cell) (grid : Grid) (queue : List Cell),
    l.Nodup →
    l.foldl (bfsVisit cur) (grid, queue) =
      ((fun c => if c ∈ l ∧ (grid c).isVisited = false then
          { grid c with isVisited := true, previousNode := some cur } else grid c),
        queue ++ l.filter (fun c => !(grid c).isVisited)) := by
  intro l
  induction l with
  | nil => intro grid queue _; simp
  | cons a l ih =>
    intro grid queue hnd
    rw [List.nodup_cons] at hnd
    rw [List.foldl_cons]
    by_cases hv : (grid a).isVisited = true
    · have h1 : bfsVisit cur (grid, queue) a = (grid, queue) := by simp [bfsVisit, hv]
      rw [h1, ih grid queue hnd.2]
      congr 1
      · funext c
        by_cases hca : c = a
        · subst hca; simp [hv]
        · simp [hca]
      · simp [List.filter_cons, hv]
    · have hv' : (grid a).isVisited = false := by simpa using hv
      have h1 : bfsVisit cur (grid, queue) a =
          (grid.set a { grid a with isVisited := true, previousNode := some cur },
            queue ++ [a]) := by simp [bfsVisit, hv']
      rw [h1, ih _ _ hnd.2]
      congr 1
      · funext c
        by_cases hca : c = a
        · subst hca; simp [hv', hnd.1]
        · simp [hca, Grid.set_other _ _ hca]
      · rw [List.filter_cons, if_pos (by simp [hv']), List.append_assoc]
        congr 1
        simp only [List.singleton_append, List.cons.injEq, true_and]
        apply List.filter_congr
        intro c hc
        have hca : c ≠ a := fun h => hnd.1 (h ▸ hc)
        rw [Grid.set_other _ _ hca]

theorem gridCopy_fresh (grid : Grid) : Fresh (gridCopy grid) := by
  intro c; simp [gridCopy, resetNode]

theorem wallsOf_gridCopy (grid : Grid) : wallsOf (gridCopy grid) = wallsOf grid := by
  funext c; simp [wallsOf, gridCopy, resetNode]

theorem wallsOf_eq {walls : Cell → Bool} {grid : Grid} (h : ∀ c, (grid c).isWall = walls c) :
    wallsOf grid = walls := by
  funext c; exact h c

theorem BfsInv.head_le {walls : Cell → Bool} {s e : Cell} {lv : Cell → Nat} {st : BfsState}
    (hI : BfsInv walls s e lv st) {u : Cell} {rest : List Cell} (hq : st.queue = u :: rest) :
    ∀ b ∈ st.queue, lv u ≤ lv b := by
  intro b hb
  have hs := hI.sorted
  rw [hq] at hs hb
  rcases List.mem_cons.1 hb with rfl | hb
  · exact le_refl _
  · exact (List.pairwise_cons.1 hs).1 b hb

theorem BfsInv.head_start {walls : Cell → Bool} {s e : Cell} {lv : Cell → Nat} {st : BfsState}
    (hI : BfsInv walls s e lv st) {u : Cell} {rest : List Cell} (hq : st.queue = u :: rest)
    (hs : s ∈ st.queue) : u = s := by
  by_contra hne
  obtain ⟨p, _, _, h3, _⟩ := hI.pred u (Or.inr (by rw [hq]; simp)) hne
  have := hI.head_le hq s hs
  have := hI.lv_start
  omega

theorem BfsInv.head_optimal {walls : Cell → Bool} {s e : Cell} {lv : Cell → Nat}
    {st : BfsState} (hI : BfsInv walls s e lv st) {u : Cell} {rest : List Cell}
    (hq : st.queue = u :: rest) : ∀ n, Walk walls s u n → lv u ≤ n := by
  intro n hw
  have := frontier_of_walk walls s (fun _ => 0) lv (fun c => c ∈ st.visitedNodesInOrder)
    (fun c => c ∈ st.queue) (by intros; dsimp only; omega) hI.lv_start hI.start_disc hI.expanded hw
  rcases this with ⟨_, h⟩ | ⟨p, hp, hle⟩
  · exact h
  · have := hI.head_le hq p hp
    dsimp only at hle
    omega

theorem BfsInv.bfs_complete {walls : Cell → Bool} {s e : Cell} {lv : Cell → Nat}
    {st : BfsState} (hI : BfsInv walls s e lv st) (hq : st.queue = []) :
    ∀ c n, Walk walls s c n → c ∈ st.visitedNodesInOrder := by
  intro c n hw
  have := frontier_of_walk walls s (fun _ => 0) lv (fun c => c ∈ st.visitedNodesInOrder)
    (fun c => c ∈ st.queue) (by intros; dsimp only; omega) hI.lv_start hI.start_disc hI.expanded hw
  rcases this with ⟨h, _⟩ | ⟨p, hp, _⟩
  · exact h
  · rw [hq] at hp; simp at hp

theorem bfs_init {grid : Grid} {s : Cell} (e : Cell) (hf : Fresh grid)
    (hs : Free (wallsOf grid) s) :
    BfsInv (wallsOf grid) s e (fun _ => 0)
      ⟨grid.set s { grid s with isVisited := true }, [s], []⟩ := by
  have hg : ∀ c, c ≠ s → (grid.set s { grid s with isVisited := true }) c = grid c :=
    fun c hc => Grid.set_other _ _ hc
  refine
    { wallsEq := ?_, nodup := by simp, vis_iff := ?_, lv_start := rfl, start_disc := by simp,
      start_prev := by simp [(hf s).2.2], walk := ?_, sorted := by simp, band := by simp,
      closed_le := by simp, expanded := by simp, optimal := by simp, pred := ?_, undisc := ?_,
      tree := ?_, end_not := by simp }
  · intro c
    by_cases hc : c = s
    · subst hc; simp [wallsOf]
    · dsimp only; rw [hg c hc]; rfl
  · intro c
    by_cases hc : c = s
    · subst hc; simp
    · dsimp only; rw [hg c hc]; simp [hc, (hf c).1]
  · intro c hc
    have : c = s := by simpa using hc
    subst this; exact Walk.start hs
  · intro c hc hne
    have : c = s := by simpa using hc
    exact absurd this hne
  · intro c _ hc
    have hne : c ≠ s := by simpa using hc
    dsimp only; rw [hg c hne]; exact (hf c).2.2
  · intro c hc; simp at hc

/-- Leaving the loop of `bfs` at the end cell. -/
theorem bfs_done_end {walls : Cell → Bool} {s e : Cell} {lv : Cell → Nat} {st : BfsState}
    (hI : BfsInv walls s e lv st) {rest : List Cell} (hq : st.queue = e :: rest) :
    ShortestPost walls s e st.grid (st.visitedNodesInOrder ++ [e]) := by
  have hnd := hI.nodup
  rw [hq] at hnd
  have he : e ∉ st.visitedNodesInOrder := hI.end_not
  have heq : e ∈ st.queue := by rw [hq]; simp
  have hsm : s ∈ st.visitedNodesInOrder ++ [e] := by
    rcases hI.start_disc with h | h
    · exact List.mem_append_left _ h
    · have := hI.head_start hq h
      simp [this]
  have htree : TreeOn st.grid s (st.visitedNodesInOrder ++ [e]) := by
    refine hI.tree.snoc (fun _ _ => rfl) he ?_
    intro hne
    obtain ⟨p, h1, h2, _, h4⟩ := hI.pred e (Or.inr heq) hne
    exact ⟨p, h1, h2, h4⟩
  have hmem : ∀ c ∈ st.visitedNodesInOrder ++ [e],
      c ∈ st.visitedNodesInOrder ∨ c ∈ st.queue := by
    intro c hc
    rcases List.mem_append.1 hc with h | h
    · exact Or.inl h
    · right; have : c = e := by simpa using h
      rw [this]; exact heq
  refine ⟨?_, lv, hI.lv_start, ?_, ?_⟩
  · refine
      { wallsEq := hI.wallsEq, nodup := ?_, walk := ?_, start_mem := hsm,
        start_prev := hI.start_prev, tree := htree, end_last := by simp,
        end_prev := by simp, complete := by simp }
    · have : (st.visitedNodesInOrder ++ [e]).Nodup := by
        rw [List.nodup_append] at hnd ⊢
        refine ⟨hnd.1, by simp, ?_⟩
        intro a ha hb
        have : a = e := by simpa using hb
        subst this; exact he ha
      exact this
    · intro c hc
      exact ⟨lv c, hI.walk c (hmem c hc)⟩
  · intro c hc
    refine ⟨hI.walk c (hmem c hc), ?_⟩
    rcases List.mem_append.1 hc with h | h
    · exact hI.optimal c h
    · have : c = e := by simpa using h
      subst this; exact hI.head_optimal hq
  · intro c hc p hp
    by_cases hcs : c = s
    · subst hcs; rw [hI.start_prev] at hp; cases hp
    · obtain ⟨p', h1, _, h3, _⟩ := hI.pred c (hmem c hc) hcs
      rw [h1] at hp; cases hp; exact h3

/-- Leaving the loop of `bfs` with an empty queue. -/
theorem bfs_done_empty {walls : Cell → Bool} {s e : Cell} {lv : Cell → Nat} {st : BfsState}
    (hI : BfsInv walls s e lv st) (hq : st.queue = []) :
    ShortestPost walls s e st.grid st.visitedNodesInOrder := by
  have hnd := hI.nodup
  rw [hq] at hnd
  have hsm : s ∈ st.visitedNodesInOrder := by
    rcases hI.start_disc with h | h
    · exact h
    · rw [hq] at h; simp at h
  refine ⟨?_, lv, hI.lv_start, ?_, ?_⟩
  · refine
      { wallsEq := hI.wallsEq, nodup := by simpa using hnd, walk := ?_, start_mem := hsm,
        start_prev := hI.start_prev, tree := hI.tree,
        end_last := fun h => absurd h hI.end_not,
        end_prev := ?_, complete := fun _ => hI.bfs_complete hq }
    · intro c hc; exact ⟨lv c, hI.walk c (Or.inl hc)⟩
    · intro h; exact hI.undisc e h (by rw [hq]; simp)
  · intro c hc
    exact ⟨hI.walk c (Or.inl hc), hI.optimal c hc⟩
  · intro c hc p hp
    by_cases hcs : c = s
    · subst hcs; rw [hI.start_prev] at hp; cases hp
    · obtain ⟨p', h1, _, h3, _⟩ := hI.pred c (Or.inl hc) hcs
      rw [h1] at hp; cases hp; exact h3

/-- One full pass of the loop of `bfs` that expands a cell other than the end. -/
theorem bfs_expand {walls : Cell → Bool} {s e : Cell} {lv : Cell → Nat} {st : BfsState}
    (hI : BfsInv walls s e lv st) {u : Cell} {rest : List Cell} (hq : st.queue = u :: rest)
    (hue : u ≠ e) :
    ∃ lv', BfsInv walls s e lv'
      ⟨((getNeighbors u st.grid).foldl (bfsVisit u) (st.grid, rest)).1,
        ((getNeighbors u st.grid).foldl (bfsVisit u) (st.grid, rest)).2,
        st.visitedNodesInOrder ++ [u]⟩ := by
  rw [foldl_bfsVisit u _ _ _ (getNeighbors_nodup u st.grid)]
  have huq : u ∈ st.queue := by rw [hq]; simp
  have hwu : Walk walls s u (lv u) := hI.walk u (Or.inr huq)
  have hub : u.1 < ROWS ∧ u.2 < COLS := ⟨hwu.free.1, hwu.free.2.1⟩
  have hnb : ∀ c, c ∈ getNeighbors u st.grid ↔ Adjacent u c ∧ Free walls c := by
    intro c; rw [mem_getNeighbors_iff hub, wallsOf_eq hI.wallsEq]
  have hnd := hI.nodup
  rw [hq] at hnd
  have hu_not : u ∉ st.visitedNodesInOrder := by
    intro h
    exact (List.nodup_append.1 hnd).2.2 h (by simp)
  have hrest : ∀ c, c ∈ st.queue ↔ c = u ∨ c ∈ rest := by
    intro c; rw [hq]; simp
  have hu_rest : u ∉ rest := by
    have := (List.nodup_append.1 hnd).2.1
    exact (List.nodup_cons.1 this).1
  -- the newly discovered cells
  have hnew : ∀ c, c ∈ (getNeighbors u st.grid).filter (fun c => !(st.grid c).isVisited) ↔
      (Adjacent u c ∧ Free walls c) ∧ c ∉ st.visitedNodesInOrder ∧ c ∉ st.queue := by
    intro c
    rw [List.mem_filter, hnb]
    have := hI.vis_iff c
    constructor
    · rintro ⟨h1, h2⟩
      refine ⟨h1, ?_⟩
      have h3 : ¬ (st.grid c).isVisited = true := by simpa using h2
      rw [this] at h3
      exact not_or.1 h3
    · rintro ⟨h1, h2, h3⟩
      refine ⟨h1, ?_⟩
      have : ¬ (st.grid c).isVisited = true := by
        rw [this]; exact not_or.2 ⟨h2, h3⟩
      simpa using this
  generalize hN : (getNeighbors u st.grid).filter (fun c => !(st.grid c).isVisited) = new
    at hnew
  have hnew_nodup : new.Nodup := by
    rw [← hN]; exact (getNeighbors_nodup u st.grid).filter _
  -- the grid after the loop
  have hgrid_new : ∀ c, c ∈ new →
      (if c ∈ getNeighbors u st.grid ∧ (st.grid c).isVisited = false then
        ({ st.grid c with isVisited := true, previousNode := some u } : Node)
        else st.grid c) = { st.grid c with isVisited := true, previousNode := some u } := by
    intro c hc
    rw [if_pos]
    rw [← hN, List.mem_filter] at hc
    exact ⟨hc.1, by simpa using hc.2⟩
  have hgrid_old : ∀ c, c ∉ new →
      (if c ∈ getNeighbors u st.grid ∧ (st.grid c).isVisited = false then
        ({ st.grid c with isVisited := true, previousNode := some u } : Node)
        else st.grid c) = st.grid c := by
    intro c hc
    rw [if_neg]
    rintro ⟨h1, h2⟩
    apply hc
    rw [← hN, List.mem_filter]
    exact ⟨h1, by simpa using h2⟩
  have hdisc_not_new : ∀ c, c ∈ st.visitedNodesInOrder ∨ c ∈ st.queue → c ∉ new := by
    intro c hc h
    have := (hnew c).1 h
    rcases hc with hc | hc
    · exact this.2.1 hc
    · exact this.2.2 hc
  refine ⟨fun c => if c ∈ new then lv u + 1 else lv c, ?_⟩
  have hlv_old : ∀ c, c ∉ new → (fun c => if c ∈ new then lv u + 1 else lv c) c = lv c := by
    intro c hc; simp [hc]
  have hlv_new : ∀ c, c ∈ new → (fun c => if c ∈ new then lv u + 1 else lv c) c = lv u + 1 := by
    intro c hc; simp [hc]
  generalize (fun c => if c ∈ new then lv u + 1 else lv c) = lv' at hlv_old hlv_new
  have hmem_order : ∀ c, c ∈ st.visitedNodesInOrder ++ [u] ↔
      c ∈ st.visitedNodesInOrder ∨ c = u := by
    intro c; simp
  have hmem_queue : ∀ c, c ∈ rest ++ new ↔ c ∈ rest ∨ c ∈ new := by
    intro c; simp
  have hdisc : ∀ c, (c ∈ st.visitedNodesInOrder ++ [u] ∨ c ∈ rest ++ new) ↔
      ((c ∈ st.visitedNodesInOrder ∨ c ∈ st.queue) ∨ c ∈ new) := by
    intro c; rw [hmem_order, hmem_queue, hrest]; tauto
  have hlv_u : lv' u = lv u := hlv_old u (hdisc_not_new u (Or.inr huq))
  have hlow : ∀ c, c ∈ rest ++ new → lv u ≤ lv' c := by
    intro c hc
    rcases (hmem_queue c).1 hc with h | h
    · rw [hlv_old c (hdisc_not_new c (Or.inr ((hrest c).2 (Or.inr h))))]
      exact hI.head_le hq c ((hrest c).2 (Or.inr h))
    · rw [hlv_new c h]; omega
  have hhigh : ∀ c, c ∈ rest ++ new → lv' c ≤ lv u + 1 := by
    intro c hc
    rcases (hmem_queue c).1 hc with h | h
    · rw [hlv_old c (hdisc_not_new c (Or.inr ((hrest c).2 (Or.inr h))))]
      exact hI.band u huq c ((hrest c).2 (Or.inr h))
    · rw [hlv_new c h]
  have hclosed : ∀ c, c ∈ st.visitedNodesInOrder ++ [u] → lv' c ≤ lv u := by
    intro c hc
    rcases (hmem_order c).1 hc with h | h
    · rw [hlv_old c (hdisc_not_new c (Or.inl h))]
      exact hI.closed_le c h u huq
    · rw [h, hlv_u]
  refine
    { wallsEq := ?_, nodup := ?_, vis_iff := ?_, lv_start := ?_, start_disc := ?_,
      start_prev := ?_, walk := ?_, sorted := ?_, band := ?_, closed_le := ?_,
      expanded := ?_, optimal := ?_, pred := ?_, undisc := ?_, tree := ?_, end_not := ?_ }
  · intro c
    dsimp only
    rw [← hI.wallsEq c]
    split <;> rfl
  · dsimp only
    have : st.visitedNodesInOrder ++ [u] ++ (rest ++ new) =
        (st.visitedNodesInOrder ++ u :: rest) ++ new := by simp
    rw [this, List.nodup_append]
    refine ⟨hnd, hnew_nodup, ?_⟩
    intro c hc hc'
    apply hdisc_not_new c _ hc'
    rcases List.mem_append.1 hc with h | h
    · exact Or.inl h
    · right; rw [hq]; exact h
  · intro c
    dsimp only
    rw [hdisc]
    by_cases hc : c ∈ new
    · rw [hgrid_new c hc]; simp [hc]
    · rw [hgrid_old c hc, hI.vis_iff c]; simp [hc]
  · rw [hlv_old s (hdisc_not_new s hI.start_disc)]; exact hI.lv_start
  · dsimp only; rw [hdisc]; exact Or.inl hI.start_disc
  · dsimp only
    rw [hgrid_old s (hdisc_not_new s hI.start_disc)]; exact hI.start_prev
  · intro c hc
    dsimp only at hc
    rcases (hdisc c).1 hc with h | h
    · rw [hlv_old c (hdisc_not_new c h)]; exact hI.walk c h
    · rw [hlv_new c h]
      have := (hnew c).1 h
      exact Walk.step hwu this.1.1 this.1.2
  · dsimp only
    rw [List.pairwise_append]
    refine ⟨?_, ?_, ?_⟩
    · have hs := hI.sorted
      rw [hq] at hs
      have hs' := (List.pairwise_cons.1 hs).2
      refine List.Pairwise.imp_of_mem ?_ hs'
      intro a b ha hb hab
      rw [hlv_old a (hdisc_not_new a (Or.inr ((hrest a).2 (Or.inr ha)))),
        hlv_old b (hdisc_not_new b (Or.inr ((hrest b).2 (Or.inr hb))))]
      exact hab
    · refine List.Pairwise.imp_of_mem ?_ hnew_nodup
      intro a b ha hb _
      rw [hlv_new a ha, hlv_new b hb]
    · intro a ha b hb
      rw [hlv_new b hb]
      exact hhigh a (List.mem_append_left _ ha)
  · intro a ha b hb
    dsimp only at ha hb
    have := hlow a ha
    have := hhigh b hb
    omega
  · intro a ha b hb
    dsimp only at ha hb
    have := hclosed a ha
    have := hlow b hb
    omega
  · intro c hc c' hadj hfree
    dsimp only at hc ⊢
    rw [hdisc]
    rcases (hmem_order c).1 hc with h | h
    · obtain ⟨h1, h2⟩ := hI.expanded c h c' hadj hfree
      refine ⟨Or.inl h1, ?_⟩
      rw [hlv_old c' (hdisc_not_new c' h1), hlv_old c (hdisc_not_new c (Or.inl h))]
      exact h2
    · subst h
      rw [hlv_u]
      by_cases hd : c' ∈ st.visitedNodesInOrder ∨ c' ∈ st.queue
      · refine ⟨Or.inl hd, ?_⟩
        rw [hlv_old c' (hdisc_not_new c' hd)]
        rcases hd with hd | hd
        · have := hI.closed_le c' hd c huq; omega
        · exact hI.band c huq c' hd
      · have hc'new : c' ∈ new := (hnew c').2 ⟨⟨hadj, hfree⟩, not_or.1 hd⟩
        exact ⟨Or.inr hc'new, by rw [hlv_new c' hc'new]⟩
  · intro c hc n hw
    dsimp only at hc
    rcases (hmem_order c).1 hc with h | h
    · rw [hlv_old c (hdisc_not_new c (Or.inl h))]; exact hI.optimal c h n hw
    · subst h; rw [hlv_u]; exact hI.head_optimal hq n hw
  · intro c hc hcs
    dsimp only at hc ⊢
    rcases (hdisc c).1 hc with h | h
    · obtain ⟨p, h1, h2, h3, h4⟩ := hI.pred c h hcs
      refine ⟨p, ?_, (hmem_order p).2 (Or.inl h2), ?_, h4⟩
      · rw [hgrid_old c (hdisc_not_new c h)]; exact h1
      · rw [hlv_old c (hdisc_not_new c h), hlv_old p (hdisc_not_new p (Or.inl h2))]
        exact h3
    · refine ⟨u, ?_, (hmem_order u).2 (Or.inr rfl), ?_, ((hnew c).1 h).1.1⟩
      · rw [hgrid_new c h]
      · rw [hlv_new c h, hlv_u]
  · intro c hc1 hc2
    dsimp only at hc1 hc2 ⊢
    have hnd' : ¬ (c ∈ st.visitedNodesInOrder ++ [u] ∨ c ∈ rest ++ new) := not_or.2 ⟨hc1, hc2⟩
    rw [hdisc] at hnd'
    obtain ⟨h1, h2⟩ := not_or.1 hnd'
    obtain ⟨h3, h4⟩ := not_or.1 h1
    rw [hgrid_old c h2]
    exact hI.undisc c h3 h4
  · dsimp only
    refine hI.tree.snoc ?_ hu_not ?_
    · intro c hc
      rw [hgrid_old c (hdisc_not_new c (Or.inl hc))]
    · intro hus
      obtain ⟨p, h1, h2, _, h4⟩ := hI.pred u (Or.inr huq) hus
      exact ⟨p, by rw [hgrid_old u (hdisc_not_new u (Or.inr huq))]; exact h1, h2, h4⟩
  · dsimp only
    rw [hmem_order]
    intro h
    rcases h with h | h
    · exact hI.end_not h
    · exact hue h.symm

theorem BfsInv.bfs_order_length {walls : Cell → Bool} {s e : Cell} {lv : Cell → Nat}
    {st : BfsState} (hI : BfsInv walls s e lv st) :
    st.visitedNodesInOrder.length ≤ ROWS * COLS := by
  apply length_le_of_nodup (List.nodup_append.1 hI.nodup).1
  intro c hc
  have := (hI.walk c (Or.inl hc)).free
  exact ⟨this.1, this.2.1⟩

/-- `bfs` on a fresh working copy with a non-wall start returns, and what it
returns satisfies the shortest-path postcondition. -/
theorem bfs_spec {grid : Grid} {s : Cell} (e : Cell) (hf : Fresh grid)
    (hs : Free (wallsOf grid) s) :
    ∃ grid' order, bfs grid s e = some (grid', order) ∧
      ShortestPost (wallsOf grid) s e grid' order := by
  have key := iterate_spec (bfsBody e)
    (fun st => ∃ lv, BfsInv (wallsOf grid) s e lv st)
    (fun st => ShortestPost (wallsOf grid) s e st.grid st.visitedNodesInOrder)
    (fun st => ROWS * COLS - st.visitedNodesInOrder.length)
    (by
      rintro st st' ⟨lv, hI⟩ hb
      unfold bfsBody at hb
      split at hb
      · cases hb
      · rename_i u rest hq
        dsimp only at hb
        split at hb
        · cases hb
        · rename_i hue
          obtain ⟨lv', hI'⟩ := bfs_expand hI hq hue
          have hlen := hI'.bfs_order_length
          injection hb with hb
          subst hb
          refine ⟨⟨lv', hI'⟩, ?_⟩
          dsimp only at hlen ⊢
          simp only [List.length_append, List.length_singleton] at hlen ⊢
          omega)
    (by
      rintro st st' ⟨lv, hI⟩ hb
      unfold bfsBody at hb
      split at hb
      · rename_i hq
        injection hb with hb
        subst hb
        exact bfs_done_empty hI hq
      · rename_i u rest hq
        dsimp only at hb
        split at hb
        · rename_i hue
          injection hb with hb
          subst hb
          subst hue
          exact bfs_done_end hI hq
        · cases hb)
    (ROWS * COLS + 1) _ ⟨_, bfs_init e hf hs⟩ (by dsimp only; simp)
  obtain ⟨r, h1, h2⟩ := key
  refine ⟨r.grid, r.visitedNodesInOrder, ?_, h2⟩
  unfold bfs
  rw [h1]; rfl

/-! ## Cost-based searches: what A* and Dijkstra share -/

theorem numLt_some_iff (a : Nat) (x : Option Nat) :
    numLt (some a) x = true ↔ x = none ∨ ∃ k, x = some k ∧ a < k := by
  cases x <;> simp [numLt]

theorem numLt_some_false (a : Nat) (x : Option Nat) :
    numLt (some a) x = false ↔ ∃ k, x = some k ∧ k ≤ a := by
  cases x <;> simp [numLt]

theorem costOf_eq {grid : Grid} {c : Cell} {k : Nat} (h : (grid c).distance = some k) :
    costOf grid c = k := by
  simp [costOf, h]

theorem visit_distance (grid : Grid) (u c : Cell) :
    ((grid.set u { grid u with isVisited := true }) c).distance = (grid c).distance := by
  by_cases hc : c = u
  · subst hc; simp
  · rw [Grid.set_other _ _ hc]

theorem visit_previousNode (grid : Grid) (u c : Cell) :
    ((grid.set u { grid u with isVisited := true }) c).previousNode =
      (grid c).previousNode := by
  by_cases hc : c = u
  · subst hc; simp
  · rw [Grid.set_other _ _ hc]

theorem visit_isWall (grid : Grid) (u c : Cell) :
    ((grid.set u { grid u with isVisited := true }) c).isWall = (grid c).isWall := by
  by_cases hc : c = u
  · subst hc; simp
  · rw [Grid.set_other _ _ hc]

theorem visit_isVisited (grid : Grid) (u c : Cell) :
    ((grid.set u { grid u with isVisited := true }) c).isVisited = true ↔
      ((grid c).isVisited = true ∨ c = u) := by
  by_cases hc : c = u
  · subst hc; simp
  · rw [Grid.set_other _ _ hc]; simp [hc]

theorem relaxed_of_closed_form (grid : Grid) (u : Cell) (d : Nat) (nb : List Cell) :
    Relaxed grid
      (fun c => if c ∈ nb ∧ numLt (some (d + 1))
          ((grid.set u { grid u with isVisited := true }) c).distance = true then
          relaxNode u d ((grid.set u { grid u with isVisited := true }) c)
        else (grid.set u { grid u with isVisited := true }) c)
      u d (fun c => c ∈ nb ∧ numLt (some (d + 1)) (grid c).distance = true) := by
  have hdist := visit_distance grid u
  have hprev := visit_previousNode grid u
  have hwall := visit_isWall grid u
  have hvis := visit_isVisited grid u
  refine { wall := ?_, vis := ?_, hit := ?_, miss := ?_ }
  · intro c
    dsimp only
    split
    · simp only [relaxNode]; exact hwall c
    · exact hwall c
  · intro c
    dsimp only
    split
    · simp only [relaxNode]; exact hvis c
    · exact hvis c
  · intro c hc
    dsimp only
    rw [hdist c, if_pos hc]
    simp [relaxNode]
  · intro c hc
    dsimp only
    rw [hdist c, if_neg hc]
    exact ⟨hdist c, hprev c⟩

theorem cost_init {grid : Grid} {s : Cell} (e : Cell) (hf : Fresh grid)
    (hs : Free (wallsOf grid) s) :
    CostInv (wallsOf grid) s e (grid.set s { grid s with distance := some 0 }) [] := by
  have hg : ∀ c, c ≠ s → (grid.set s { grid s with distance := some 0 }) c = grid c :=
    fun c hc => Grid.set_other _ _ hc
  refine
    { wallsEq := ?_, nodup := by simp, vis_iff := ?_, closed_disc := by simp,
      start_dist := by simp, start_prev := by simp [(hf s).2.2], walk := ?_,
      expanded := by simp, optimal := by simp, pred := ?_, undisc := ?_, tree := ?_,
      end_not := by simp }
  · intro c
    by_cases hc : c = s
    · subst hc; simp [wallsOf]
    · rw [hg c hc]; rfl
  · intro c
    by_cases hc : c = s
    · subst hc; simp [(hf c).1]
    · rw [hg c hc]; simp [(hf c).1]
  · intro c k hk
    by_cases hc : c = s
    · subst hc
      have : k = 0 := by simpa using hk.symm
      subst this; exact Walk.start hs
    · rw [hg c hc, (hf c).2.1] at hk; cases hk
  · intro c k hk hc
    rw [hg c hc, (hf c).2.1] at hk; cases hk
  · intro c _
    by_cases hc : c = s
    · subst hc; simp [(hf c).2.2]
    · rw [hg c hc]; exact (hf c).2.2
  · intro c hc; simp at hc

/-- The frontier argument for a cost-based search whose open cells are those
satisfying `opened`, ordered with the help of a consistent estimate `h`. -/
theorem CostInv.cost_frontier {walls : Cell → Bool} {s e : Cell} {grid : Grid} {order : List Cell}
    (hC : CostInv walls s e grid order) (h : Cell → Nat)
    (hcons : ∀ a b, Adjacent a b → h a ≤ h b + 1) (opened : Cell → Prop)
    (hopen : ∀ c k, (grid c).distance = some k → c ∈ order ∨ opened c)
    {c : Cell} {n : Nat} (hw : Walk walls s c n) :
    (c ∈ order ∧ costOf grid c ≤ n) ∨ ∃ p, opened p ∧ costOf grid p + h p ≤ n + h c := by
  refine frontier_of_walk walls s h (costOf grid)
    (fun c => c ∈ order) opened hcons (costOf_eq hC.start_dist)
    (hopen s 0 hC.start_dist) ?_ hw
  intro c hc c' hadj hfree
  obtain ⟨k, k', h1, h2, h3⟩ := hC.expanded c hc c' hadj hfree
  refine ⟨hopen c' k' h2, ?_⟩
  rw [costOf_eq h1, costOf_eq h2]; exact h3

/-- Relaxing the neighbours of a cell popped with its shortest distance keeps
the shared invariant, and touches no visited cell. -/
theorem cost_expand {walls : Cell → Bool} {s e : Cell} {grid g' : Grid} {order : List Cell}
    (hC : CostInv walls s e grid order) {u : Cell} {d : Nat}
    (hu_not : u ∉ order) (hd : (grid u).distance = some d)
    (hopt : ∀ n, Walk walls s u n → d ≤ n) (hue : u ≠ e)
    (hrel : Relaxed grid g' u d
      (fun c => c ∈ getNeighbors u grid ∧ numLt (some (d + 1)) (grid c).distance = true)) :
    CostInv walls s e g' (order ++ [u]) ∧
      (∀ c, c ∈ getNeighbors u grid ∧ numLt (some (d + 1)) (grid c).distance = true →
        c ∉ order ∧ c ≠ u) := by
  have hfu : Free walls u := (hC.walk u d hd).free
  have hub : u.1 < ROWS ∧ u.2 < COLS := ⟨hfu.1, hfu.2.1⟩
  have hnb : ∀ c, c ∈ getNeighbors u grid ↔ Adjacent u c ∧ Free walls c := by
    intro c; rw [mem_getNeighbors_iff hub, wallsOf_eq hC.wallsEq]
  have hu_nb : u ∉ getNeighbors u grid := by
    intro h; exact ((hnb u).1 h).1.ne rfl
  have hmem_order : ∀ c, c ∈ order ++ [u] ↔ c ∈ order ∨ c = u := by
    intro c; simp
  have hR_walk : ∀ c, c ∈ getNeighbors u grid → Walk walls s c (d + 1) := by
    intro c hc
    have := (hnb c).1 hc
    exact Walk.step (hC.walk u d hd) this.1 this.2
  have hR_open : ∀ c, (c ∈ getNeighbors u grid ∧
      numLt (some (d + 1)) (grid c).distance = true) → c ∉ order ∧ c ≠ u := by
    rintro c ⟨hc, hlt⟩
    refine ⟨?_, fun h => hu_nb (h ▸ hc)⟩
    intro hco
    obtain ⟨k, hk⟩ := hC.closed_disc c hco
    have := hC.optimal c hco k (d + 1) hk (hR_walk c hc)
    rw [hk] at hlt
    simp [numLt] at hlt
    omega
  have hmiss_closed : ∀ c, c ∈ order ∨ c = u →
      (g' c).distance = (grid c).distance ∧ (g' c).previousNode = (grid c).previousNode := by
    intro c hc
    apply hrel.miss
    intro hR
    have := hR_open c hR
    rcases hc with hc | hc
    · exact this.1 hc
    · exact this.2 hc
  have hnR_start : ¬ (s ∈ getNeighbors u grid ∧
      numLt (some (d + 1)) (grid s).distance = true) := by
    rintro ⟨_, h⟩
    rw [hC.start_dist] at h
    simp [numLt] at h
  refine ⟨?_, hR_open⟩
  refine
    { wallsEq := ?_, nodup := ?_, vis_iff := ?_, closed_disc := ?_, start_dist := ?_,
      start_prev := ?_, walk := ?_, expanded := ?_, optimal := ?_, pred := ?_, undisc := ?_,
      tree := ?_, end_not := ?_ }
  · intro c; rw [hrel.wall c]; exact hC.wallsEq c
  · rw [List.nodup_append]
    refine ⟨hC.nodup, by simp, ?_⟩
    intro a ha hb
    have : a = u := by simpa using hb
    subst this; exact hu_not ha
  · intro c
    rw [hrel.vis c, hC.vis_iff c, hmem_order]
  · intro c hc
    have hcc := (hmem_order c).1 hc
    rw [(hmiss_closed c hcc).1]
    rcases hcc with h | h
    · exact hC.closed_disc c h
    · subst h; exact ⟨d, hd⟩
  · rw [(hrel.miss s hnR_start).1]; exact hC.start_dist
  · rw [(hrel.miss s hnR_start).2]; exact hC.start_prev
  · intro c k hk
    by_cases hR : c ∈ getNeighbors u grid ∧ numLt (some (d + 1)) (grid c).distance = true
    · rw [(hrel.hit c hR).1] at hk
      cases hk
      exact hR_walk c hR.1
    · rw [(hrel.miss c hR).1] at hk
      exact hC.walk c k hk
  · intro c hc c' hadj hfree
    have hcc := (hmem_order c).1 hc
    rw [(hmiss_closed c hcc).1]
    rcases hcc with h | h
    · obtain ⟨k, k', h1, h2, h3⟩ := hC.expanded c h c' hadj hfree
      by_cases hR : c' ∈ getNeighbors u grid ∧
          numLt (some (d + 1)) (grid c').distance = true
      · refine ⟨k, d + 1, h1, (hrel.hit c' hR).1, ?_⟩
        have := hR.2
        rw [h2] at this
        simp [numLt] at this
        omega
      · exact ⟨k, k', h1, by rw [(hrel.miss c' hR).1]; exact h2, h3⟩
    · subst h
      have hc'nb : c' ∈ getNeighbors c grid := (hnb c').2 ⟨hadj, hfree⟩
      by_cases hR : c' ∈ getNeighbors c grid ∧
          numLt (some (d + 1)) (grid c').distance = true
      · exact ⟨d, d + 1, hd, (hrel.hit c' hR).1, le_refl _⟩
      · have hlt : numLt (some (d + 1)) (grid c').distance = false := by
          cases h : numLt (some (d + 1)) (grid c').distance
          · rfl
          · exact absurd ⟨hc'nb, h⟩ hR
        obtain ⟨k', hk', hle⟩ := (numLt_some_false _ _).1 hlt
        exact ⟨d, k', hd, by rw [(hrel.miss c' hR).1]; exact hk', hle⟩
  · intro c hc k n hk hw
    have hcc := (hmem_order c).1 hc
    rw [(hmiss_closed c hcc).1] at hk
    rcases hcc with h | h
    · exact hC.optimal c h k n hk hw
    · subst h
      rw [hd] at hk; cases hk
      exact hopt n hw
  · intro c k hk hcs
    by_cases hR : c ∈ getNeighbors u grid ∧ numLt (some (d + 1)) (grid c).distance = true
    · rw [(hrel.hit c hR).1] at hk
      cases hk
      refine ⟨u, d, (hrel.hit c hR).2, (hmem_order u).2 (Or.inr rfl), ?_, rfl,
        ((hnb c).1 hR.1).1⟩
      rw [(hmiss_closed u (Or.inr rfl)).1]; exact hd
    · rw [(hrel.miss c hR).1] at hk
      obtain ⟨p, kp, h1, h2, h3, h4, h5⟩ := hC.pred c k hk hcs
      refine ⟨p, kp, ?_, (hmem_order p).2 (Or.inl h2), ?_, h4, h5⟩
      · rw [(hrel.miss c hR).2]; exact h1
      · rw [(hmiss_closed p (Or.inl h2)).1]; exact h3
  · intro c hc
    by_cases hR : c ∈ getNeighbors u grid ∧ numLt (some (d + 1)) (grid c).distance = true
    · rw [(hrel.hit c hR).1] at hc; cases hc
    · rw [(hrel.miss c hR).1] at hc
      rw [(hrel.miss c hR).2]; exact hC.undisc c hc
  · refine hC.tree.snoc ?_ hu_not ?_
    · intro c hc
      exact (hmiss_closed c (Or.inl hc)).2
    · intro hus
      obtain ⟨p, kp, h1, h2, _, _, h5⟩ := hC.pred u d hd hus
      exact ⟨p, by rw [(hmiss_closed u (Or.inr rfl)).2]; exact h1, h2, h5⟩
  · rw [hmem_order]
    rintro (h | h)
    · exact hC.end_not h
    · exact hue h.symm

/-- Leaving the loop of a cost-based search at the end cell. -/
theorem cost_done_end {walls : Cell → Bool} {s e : Cell} {grid : Grid} {order : List Cell}
    (hC : CostInv walls s e grid order) {d : Nat}
    (hsf : s ∈ order ∨ s = e) (hd : (grid e).distance = some d)
    (hopt : ∀ n, Walk walls s e n → d ≤ n) :
    ShortestPost walls s e (grid.set e { grid e with isVisited := true }) (order ++ [e]) := by
  have he : e ∉ order := hC.end_not
  have hsm : s ∈ order ++ [e] := by
    rcases hsf with h | h
    · exact List.mem_append_left _ h
    · simp [h]
  have hdisc : ∀ c ∈ order ++ [e], ∃ k, (grid c).distance = some k := by
    intro c hc
    rcases List.mem_append.1 hc with h | h
    · exact hC.closed_disc c h
    · have : c = e := by simpa using h
      subst this; exact ⟨d, hd⟩
  refine ⟨?_, costOf (grid.set e { grid e with isVisited := true }), ?_, ?_, ?_⟩
  · refine
      { wallsEq := fun c => by rw [visit_isWall]; exact hC.wallsEq c, nodup := ?_, walk := ?_,
        start_mem := hsm, start_prev := by rw [visit_previousNode]; exact hC.start_prev,
        tree := ?_, end_last := by simp, end_prev := by simp, complete := by simp }
    · rw [List.nodup_append]
      refine ⟨hC.nodup, by simp, ?_⟩
      intro a ha hb
      have : a = e := by simpa using hb
      subst this; exact he ha
    · intro c hc
      obtain ⟨k, hk⟩ := hdisc c hc
      exact ⟨k, hC.walk c k hk⟩
    · refine hC.tree.snoc (fun c _ => visit_previousNode grid e c) he ?_
      intro hes
      obtain ⟨p, kp, h1, h2, _, _, h5⟩ := hC.pred e d hd hes
      exact ⟨p, by rw [visit_previousNode]; exact h1, h2, h5⟩
  · exact costOf_eq (by rw [visit_distance]; exact hC.start_dist)
  · intro c hc
    obtain ⟨k, hk⟩ := hdisc c hc
    rw [costOf_eq (by rw [visit_distance]; exact hk)]
    refine ⟨hC.walk c k hk, fun n hw => ?_⟩
    rcases List.mem_append.1 hc with h | h
    · exact hC.optimal c h k n hk hw
    · have : c = e := by simpa using h
      subst this
      rw [hd] at hk; cases hk; exact hopt n hw
  · intro c hc p hp
    rw [visit_previousNode] at hp
    obtain ⟨k, hk⟩ := hdisc c hc
    by_cases hcs : c = s
    · subst hcs; rw [hC.start_prev] at hp; cases hp
    · obtain ⟨p', kp, h1, _, h3, h4, _⟩ := hC.pred c k hk hcs
      rw [h1] at hp; cases hp
      rw [costOf_eq (by rw [visit_distance]; exact hk),
        costOf_eq (by rw [visit_distance]; exact h3)]
      exact h4

/-- Leaving the loop of a cost-based search with every reachable cell visited. -/
theorem cost_done_exhausted {walls : Cell → Bool} {s e : Cell} {grid : Grid}
    {order : List Cell} (hC : CostInv walls s e grid order)
    (hcomplete : ∀ c n, Walk walls s c n → c ∈ order) (hfs : Free walls s) :
    ShortestPost walls s e grid order := by
  refine ⟨?_, costOf grid, costOf_eq hC.start_dist, ?_, ?_⟩
  · refine
      { wallsEq := hC.wallsEq, nodup := hC.nodup, walk := ?_,
        start_mem := hcomplete s 0 (Walk.start hfs), start_prev := hC.start_prev,
        tree := hC.tree, end_last := fun h => absurd h hC.end_not, end_prev := ?_,
        complete := fun _ => hcomplete }
    · intro c hc
      obtain ⟨k, hk⟩ := hC.closed_disc c hc
      exact ⟨k, hC.walk c k hk⟩
    · intro he
      apply hC.undisc
      cases hk : (grid e).distance with
      | none => rfl
      | some k => exact absurd (hcomplete e k (hC.walk e k hk)) he
  · intro c hc
    obtain ⟨k, hk⟩ := hC.closed_disc c hc
    rw [costOf_eq hk]
    exact ⟨hC.walk c k hk, fun n hw => hC.optimal c hc k n hk hw⟩
  · intro c hc p hp
    obtain ⟨k, hk⟩ := hC.closed_disc c hc
    by_cases hcs : c = s
    · subst hcs; rw [hC.start_prev] at hp; cases hp
    · obtain ⟨p', kp, h1, _, h3, h4, _⟩ := hC.pred c k hk hcs
      rw [h1] at hp; cases hp
      rw [costOf_eq hk, costOf_eq h3]
      exact h4

theorem CostInv.cost_order_length {walls : Cell → Bool} {s e : Cell} {grid : Grid}
    {order : List Cell} (hC : CostInv walls s e grid order) : order.length ≤ ROWS * COLS := by
  apply length_le_of_nodup hC.nodup
  intro c hc
  obtain ⟨k, hk⟩ := hC.closed_disc c hc
  have := (hC.walk c k hk).free
  exact ⟨this.1, this.2.1⟩

/-! ## A* -/

theorem astarRelax_eq (cur : Cell) (d : Nat) (grid : Grid) (openSet : List Cell) (a : Cell)
    (hd : (grid cur).distance = some d) :
    astarRelax cur (grid, openSet) a =
      if numLt (some (d + 1)) (grid a).distance = true then
        (grid.set a (relaxNode cur d (grid a)), if a ∈ openSet then openSet else openSet ++ [a])
      else (grid, openSet) := by
  simp only [astarRelax, hd, numSucc, relaxNode]
  split
  · split <;> rfl
  · rfl

/-- The `for` loop of `astar` in closed form. -/
theorem foldl_astarRelax (cur : Cell) (d : Nat) :
    ∀ (l : List Cell) (grid : Grid) (openSet : List Cell),
    l.Nodup → cur ∉ l → (grid cur).distance = some d →
    l.foldl (astarRelax cur) (grid, openSet) =
      ((fun c => if c ∈ l ∧ numLt (some (d + 1)) (grid c).distance = true then
          relaxNode cur d (grid c) else grid c),
        openSet ++ l.filter
          (fun c => numLt (some (d + 1)) (grid c).distance && decide (c ∉ openSet))) := by
  intro l
  induction l with
  | nil => intro grid openSet _ _ _; simp
  | cons a l ih =>
    intro grid openSet hnd hcur hd
    rw [List.nodup_cons] at hnd
    have hca : cur ≠ a := fun h => hcur (by simp [h])
    have hcl : cur ∉ l := fun h => hcur (by simp [h])
    rw [List.foldl_cons, astarRelax_eq cur d grid openSet a hd]
    by_cases hr : numLt (some (d + 1)) (grid a).distance = true
    · rw [if_pos hr]
      have hd1 : ((grid.set a (relaxNode cur d (grid a))) cur).distance = some d := by
        rw [Grid.set_other _ _ hca]; exact hd
      rw [ih _ _ hnd.2 hcl hd1]
      congr 1
      · funext c
        by_cases hc : c = a
        · subst hc; simp [hr, hnd.1]
        · simp [hc, Grid.set_other _ _ hc]
      · by_cases hm : a ∈ openSet
        · rw [if_pos hm, List.filter_cons, if_neg (by simp [hm])]
          congr 1
          apply List.filter_congr
          intro c hc
          have hne : c ≠ a := fun h => hnd.1 (h ▸ hc)
          rw [Grid.set_other _ _ hne]
        · rw [if_neg hm, List.filter_cons, if_pos (by simp [hm, hr]), List.append_assoc]
          congr 1
          simp only [List.singleton_append, List.cons.injEq, true_and]
          apply List.filter_congr
          intro c hc
          have hne : c ≠ a := fun h => hnd.1 (h ▸ hc)
          rw [Grid.set_other _ _ hne]
          simp [hne]
    · rw [if_neg hr, ih _ _ hnd.2 hcl hd]
      congr 1
      · funext c
        by_cases hc : c = a
        · subst hc; simp [hr]
        · simp [hc]
      · rw [List.filter_cons, if_neg (by simp [hr])]

theorem astar_init {grid : Grid} {s : Cell} (e : Cell) (hf : Fresh grid)
    (hs : Free (wallsOf grid) s) :
    AstarInv (wallsOf grid) s e
      ⟨grid.set s { grid s with distance := some 0 }, [s], []⟩ := by
  refine
    { cost := cost_init e hf hs, nodup := by simp, disc_iff := ?_,
      start_first := Or.inr rfl }
  intro c
  by_cases hc : c = s
  · subst hc; simp
  · dsimp only; rw [Grid.set_other _ _ hc]; simp [hc, (hf c).2.1]

theorem AstarInv.astar_frontier {walls : Cell → Bool} {s e : Cell} {st : AstarState}
    (hI : AstarInv walls s e st) {c : Cell} {n : Nat} (hw : Walk walls s c n) :
    (c ∈ st.visitedNodesInOrder ∧ costOf st.grid c ≤ n) ∨
      ∃ p, p ∈ st.openSet ∧ costOf st.grid p + heuristic p e ≤ n + heuristic c e :=
  hI.cost.cost_frontier (fun c => heuristic c e) (fun _ _ hab => heuristic_adjacent e hab)
    (fun c => c ∈ st.openSet) (fun c k hk => (hI.disc_iff c).1 ⟨k, hk⟩) hw

theorem AstarInv.astar_complete {walls : Cell → Bool} {s e : Cell} {st : AstarState}
    (hI : AstarInv walls s e st) (hq : st.openSet = []) :
    ∀ c n, Walk walls s c n → c ∈ st.visitedNodesInOrder := by
  intro c n hw
  rcases hI.astar_frontier hw with ⟨h, _⟩ | ⟨p, hp, _⟩
  · exact h
  · rw [hq] at hp; simp at hp

/-- The cell taken from the sorted open set. -/
theorem AstarInv.astar_head {walls : Cell → Bool} {s e : Cell} {st : AstarState}
    (hI : AstarInv walls s e st) {u : Cell} {rest : List Cell}
    (hq : stableSort (fun a b => numLe (fScore st.grid e a) (fScore st.grid e b)) st.openSet
      = u :: rest) :
    (st.openSet.Perm (u :: rest)) ∧ (s ∈ st.visitedNodesInOrder ∨ s = u) ∧
      u ∉ st.visitedNodesInOrder ∧
      ∃ d, (st.grid u).distance = some d ∧
      Free walls u ∧ ∀ n, Walk walls s u n → d ≤ n := by
  have hperm := stableSort_perm (fun a b => numLe (fScore st.grid e a) (fScore st.grid e b))
    st.openSet
  rw [hq] at hperm
  have hu : u ∈ st.openSet := hperm.mem_iff.1 (by simp)
  obtain ⟨d, hd⟩ := (hI.disc_iff u).2 (Or.inr hu)
  have hsf : s ∈ st.visitedNodesInOrder ∨ s = u := by
    rcases hI.start_first with h | h
    · exact Or.inl h
    · right
      rw [h] at hu
      have : u = s := by simpa using hu
      exact this.symm
  have hu_not : u ∉ st.visitedNodesInOrder := by
    intro h; exact (List.nodup_append.1 hI.nodup).2.2 h hu
  refine ⟨hperm.symm, hsf, hu_not, d, hd, (hI.cost.walk u d hd).free, ?_⟩
  intro n hw
  rcases hI.astar_frontier hw with ⟨_, h⟩ | ⟨p, hp, hle⟩
  · rw [costOf_eq hd] at h; exact h
  · obtain ⟨dp, hdp⟩ := (hI.disc_iff p).2 (Or.inr hp)
    have hmin := stableSort_head_le
      (fun a b => numLe (fScore st.grid e a) (fScore st.grid e b))
      (fun a b => numLe_total _ _) (fun a b c => numLe_trans _ _ _) hq p hp
    simp only [fScore, hd, hdp, Option.map_some', numLe, decide_eq_true_eq] at hmin
    rw [costOf_eq hdp] at hle
    omega

/-- One pass of the loop of `astar` that expands a cell other than the end. -/
theorem astar_expand {walls : Cell → Bool} {s e : Cell} {st : AstarState}
    (hI : AstarInv walls s e st) {u : Cell} {rest : List Cell}
    (hq : stableSort (fun a b => numLe (fScore st.grid e a) (fScore st.grid e b)) st.openSet
      = u :: rest)
    (hue : u ≠ e) :
    AstarInv walls s e
      ⟨((getNeighbors u (st.grid.set u { st.grid u with isVisited := true })).foldl
          (astarRelax u) (st.grid.set u { st.grid u with isVisited := true }, rest)).1,
        ((getNeighbors u (st.grid.set u { st.grid u with isVisited := true })).foldl
          (astarRelax u) (st.grid.set u { st.grid u with isVisited := true }, rest)).2,
        st.visitedNodesInOrder ++ [u]⟩ := by
  obtain ⟨hperm, hsf, hu_not, d, hd, hfu, hopt⟩ := hI.astar_head hq
  have hub : u.1 < ROWS ∧ u.2 < COLS := ⟨hfu.1, hfu.2.1⟩
  have hnbeq : getNeighbors u (st.grid.set u { st.grid u with isVisited := true }) =
      getNeighbors u st.grid := getNeighbors_congr (visit_isWall st.grid u) u
  have hnb : ∀ c, c ∈ getNeighbors u st.grid ↔ Adjacent u c ∧ Free walls c := by
    intro c; rw [mem_getNeighbors_iff hub, wallsOf_eq hI.cost.wallsEq]
  have hu_nb : u ∉ getNeighbors u st.grid := by
    intro h; exact ((hnb u).1 h).1.ne rfl
  have hd1 : ((st.grid.set u { st.grid u with isVisited := true }) u).distance = some d := by
    simpa using hd
  rw [hnbeq, foldl_astarRelax u d _ _ _ (getNeighbors_nodup u st.grid) hu_nb hd1]
  have hrel := relaxed_of_closed_form st.grid u d (getNeighbors u st.grid)
  have hfilter : ∀ c, c ∈ (getNeighbors u st.grid).filter
      (fun c => numLt (some (d + 1))
        ((st.grid.set u { st.grid u with isVisited := true }) c).distance &&
        decide (c ∉ rest)) ↔
      (c ∈ getNeighbors u st.grid ∧ numLt (some (d + 1)) (st.grid c).distance = true) ∧
        c ∉ rest := by
    intro c
    rw [List.mem_filter, visit_distance]
    simp
    tauto
  have hnew_nodup : ((getNeighbors u st.grid).filter
      (fun c => numLt (some (d + 1))
        ((st.grid.set u { st.grid u with isVisited := true }) c).distance &&
        decide (c ∉ rest))).Nodup := (getNeighbors_nodup u st.grid).filter _
  generalize (getNeighbors u st.grid).filter
      (fun c => numLt (some (d + 1))
        ((st.grid.set u { st.grid u with isVisited := true }) c).distance &&
        decide (c ∉ rest)) = new at hfilter hnew_nodup
  generalize (fun c => if c ∈ getNeighbors u st.grid ∧ numLt (some (d + 1))
          ((st.grid.set u { st.grid u with isVisited := true }) c).distance = true then
          relaxNode u d ((st.grid.set u { st.grid u with isVisited := true }) c)
        else (st.grid.set u { st.grid u with isVisited := true }) c) = g' at hrel
  obtain ⟨hC', hR_open⟩ := cost_expand hI.cost hu_not hd hopt hue hrel
  have hopen : ∀ c, c ∈ st.openSet ↔ c = u ∨ c ∈ rest := by
    intro c; rw [hperm.mem_iff]; simp
  have hnd : (st.visitedNodesInOrder ++ u :: rest).Nodup :=
    (List.Perm.nodup_iff (List.Perm.append_left _ hperm)).1 hI.nodup
  have hmem_order : ∀ c, c ∈ st.visitedNodesInOrder ++ [u] ↔
      c ∈ st.visitedNodesInOrder ∨ c = u := by
    intro c; simp
  refine
    { cost := hC', nodup := ?_, disc_iff := ?_,
      start_first := Or.inl ((hmem_order s).2 hsf) }
  · dsimp only
    have : st.visitedNodesInOrder ++ [u] ++ (rest ++ new) =
        (st.visitedNodesInOrder ++ u :: rest) ++ new := by simp
    rw [this, List.nodup_append]
    refine ⟨hnd, hnew_nodup, ?_⟩
    intro c hc hc'
    have h1 := (hfilter c).1 hc'
    have h2 := hR_open c h1.1
    rcases List.mem_append.1 hc with h | h
    · exact h2.1 h
    · rcases List.mem_cons.1 h with h | h
      · exact h2.2 h
      · exact h1.2 h
  · intro c; dsimp only
    rw [hmem_order]
    by_cases hR : c ∈ getNeighbors u st.grid ∧ numLt (some (d + 1)) (st.grid c).distance = true
    · rw [(hrel.hit c hR).1]
      simp only [Option.some.injEq, exists_eq', true_iff]
      by_cases hr : c ∈ rest
      · exact Or.inr (List.mem_append_left _ hr)
      · exact Or.inr (List.mem_append_right _ ((hfilter c).2 ⟨hR, hr⟩))
    · rw [(hrel.miss c hR).1, hI.disc_iff c, hopen c]
      constructor
      · rintro (h | h | h)
        · exact Or.inl (Or.inl h)
        · exact Or.inl (Or.inr h)
        · exact Or.inr (List.mem_append_left _ h)
      · rintro ((h | h) | h)
        · exact Or.inl h
        · exact Or.inr (Or.inl h)
        · rcases List.mem_append.1 h with h | h
          · exact Or.inr (Or.inr h)
          · exact absurd ((hfilter c).1 h).1 hR

/-- `astar` on a fresh working copy with a non-wall start returns, and what it
returns satisfies the shortest-path postcondition. -/
theorem astar_spec {grid : Grid} {s : Cell} (e : Cell) (hf : Fresh grid)
    (hs : Free (wallsOf grid) s) :
    ∃ grid' order, astar grid s e = some (grid', order) ∧
      ShortestPost (wallsOf grid) s e grid' order := by
  have key := iterate_spec (astarBody e)
    (fun st => AstarInv (wallsOf grid) s e st)
    (fun st => ShortestPost (wallsOf grid) s e st.grid st.visitedNodesInOrder)
    (fun st => ROWS * COLS - st.visitedNodesInOrder.length)
    (by
      intro st st' hI hb
      unfold astarBody at hb
      split at hb
      · cases hb
      · rename_i u rest hq
        obtain ⟨hperm, hsf, hu_not, d, hd, hfu, hopt⟩ := hI.astar_head hq
        have hw : (st.grid u).isWall = false := by rw [hI.cost.wallsEq]; exact hfu.2.2
        rw [if_neg (by simp [hw]), if_neg (by simp [hd])] at hb
        dsimp only at hb
        split at hb
        · cases hb
        · rename_i hue
          have hI' := astar_expand hI hq hue
          have hlen := hI'.cost.cost_order_length
          injection hb with hb
          subst hb
          refine ⟨hI', ?_⟩
          dsimp only at hlen ⊢
          simp only [List.length_append, List.length_singleton] at hlen ⊢
          omega)
    (by
      intro st st' hI hb
      unfold astarBody at hb
      split at hb
      · rename_i hq
        injection hb with hb
        subst hb
        have hperm := stableSort_perm
          (fun a b => numLe (fScore st.grid e a) (fScore st.grid e b)) st.openSet
        rw [hq] at hperm
        have hopen : st.openSet = [] := List.Perm.eq_nil hperm.symm
        exact cost_done_exhausted hI.cost (hI.astar_complete hopen) hs
      · rename_i u rest hq
        obtain ⟨hperm, hsf, hu_not, d, hd, hfu, hopt⟩ := hI.astar_head hq
        have hw : (st.grid u).isWall = false := by rw [hI.cost.wallsEq]; exact hfu.2.2
        rw [if_neg (by simp [hw]), if_neg (by simp [hd])] at hb
        dsimp only at hb
        split at hb
        · rename_i hue
          injection hb with hb
          subst hb
          subst hue
          exact cost_done_end hI.cost hsf hd hopt
        · cases hb)
    (ROWS * COLS + 1) _ (astar_init e hf hs) (by dsimp only; simp)
  obtain ⟨r, h1, h2⟩ := key
  refine ⟨r.grid, r.visitedNodesInOrder, ?_, h2⟩
  unfold astar
  rw [h1]; rfl

/-! ## Dijkstra -/

theorem mem_flat (c : Cell) : c ∈ flat ↔ c.1 < ROWS ∧ c.2 < COLS := by
  obtain ⟨a, b⟩ := c
  simp [flat, List.mem_flatMap]

theorem flat_nodup : flat.Nodup := by
  unfold flat
  rw [List.nodup_flatMap]
  refine ⟨?_, ?_⟩
  · intro r _
    exact List.Nodup.map (fun a b h => by simpa using h) (List.nodup_range COLS)
  · refine List.Pairwise.imp ?_ (List.nodup_range ROWS)
    intro a b hab
    intro c h1 h2
    simp only [List.mem_map, List.mem_range] at h1 h2
    obtain ⟨_, _, rfl⟩ := h1
    obtain ⟨_, _, h⟩ := h2
    simp only [Prod.mk.injEq] at h
    exact hab h.1.symm

theorem flat_length : flat.length = ROWS * COLS := by
  unfold flat
  simp [List.length_flatMap, Function.comp_def]

theorem dijkstraRelax_eq (cur : Cell) (d : Nat) (grid : Grid) (a : Cell)
    (hd : (grid cur).distance = some d) :
    dijkstraRelax cur grid a =
      if numLt (some (d + 1)) (grid a).distance = true then
        grid.set a (relaxNode cur d (grid a))
      else grid := by
  simp only [dijkstraRelax, hd, numSucc, relaxNode]

/-- The `for` loop of `dijkstra` in closed form. -/
theorem foldl_dijkstraRelax (cur : Cell) (d : Nat) :
    ∀ (l : List Cell) (grid : Grid),
    l.Nodup → cur ∉ l → (grid cur).distance = some d →
    l.foldl (dijkstraRelax cur) grid =
      (fun c => if c ∈ l ∧ numLt (some (d + 1)) (grid c).distance = true then
          relaxNode cur d (grid c) else grid c) := by
  intro l
  induction l with
  | nil => intro grid _ _ _; simp
  | cons a l ih =>
    intro grid hnd hcur hd
    rw [List.nodup_cons] at hnd
    have hca : cur ≠ a := fun h => hcur (by simp [h])
    have hcl : cur ∉ l := fun h => hcur (by simp [h])
    rw [List.foldl_cons, dijkstraRelax_eq cur d grid a hd]
    by_cases hr : numLt (some (d + 1)) (grid a).distance = true
    · rw [if_pos hr]
      have hd1 : ((grid.set a (relaxNode cur d (grid a))) cur).distance = some d := by
        rw [Grid.set_other _ _ hca]; exact hd
      rw [ih _ hnd.2 hcl hd1]
      funext c
      by_cases hc : c = a
      · subst hc; simp [hr, hnd.1]
      · simp [hc, Grid.set_other _ _ hc]
    · rw [if_neg hr, ih _ hnd.2 hcl hd]
      funext c
      by_cases hc : c = a
      · subst hc; simp [hr]
      · simp [hc]

theorem dijkstra_init {grid : Grid} {s : Cell} (e : Cell) (hf : Fresh grid)
    (hs : Free (wallsOf grid) s) :
    DijkstraInv (wallsOf grid) s e
      ⟨grid.set s { grid s with distance := some 0 }, flat, []⟩ := by
  refine
    { cost := cost_init e hf hs, nodup := by simpa using flat_nodup, free_mem := ?_ }
  intro c hc
  exact Or.inr ((mem_flat c).2 ⟨hc.1, hc.2.1⟩)

theorem DijkstraInv.dijkstra_frontier {walls : Cell → Bool} {s e : Cell} {st : DijkstraState}
    (hI : DijkstraInv walls s e st) {c : Cell} {n : Nat} (hw : Walk walls s c n) :
    (c ∈ st.visitedNodesInOrder ∧ costOf st.grid c ≤ n) ∨
      ∃ p, (p ∈ st.unvisitedNodes ∧ ∃ k, (st.grid p).distance = some k) ∧
        costOf st.grid p + 0 ≤ n + 0 := by
  refine hI.cost.cost_frontier (fun _ => 0) (fun _ _ _ => Nat.le_succ 0)
    (fun p => p ∈ st.unvisitedNodes ∧ ∃ k, (st.grid p).distance = some k) ?_ hw
  intro c k hk
  rcases hI.free_mem c (hI.cost.walk c k hk).free with h | h
  · exact Or.inl h
  · exact Or.inr ⟨h, k, hk⟩

/-- The cell taken from the sorted array of unvisited nodes. -/
theorem DijkstraInv.dijkstra_head {walls : Cell → Bool} {s e : Cell} {st : DijkstraState}
    (hI : DijkstraInv walls s e st) {u : Cell} {rest : List Cell}
    (hq : stableSort (fun a b => numLe (st.grid a).distance (st.grid b).distance)
      st.unvisitedNodes = u :: rest) :
    (st.unvisitedNodes.Perm (u :: rest)) ∧ u ∉ st.visitedNodesInOrder ∧
      (st.visitedNodesInOrder ++ rest).Nodup ∧
      (∀ c, Walk walls s c 0 → c ∈ st.visitedNodesInOrder ∨ c = u) ∧
      ((st.grid u).distance = none → ∀ c n, Walk walls s c n → c ∈ st.visitedNodesInOrder) ∧
      (∀ d, (st.grid u).distance = some d → ∀ n, Walk walls s u n → d ≤ n) := by
  have hperm := stableSort_perm (fun a b => numLe (st.grid a).distance (st.grid b).distance)
    st.unvisitedNodes
  rw [hq] at hperm
  have hu : u ∈ st.unvisitedNodes := hperm.mem_iff.1 (by simp)
  have hu_not : u ∉ st.visitedNodesInOrder := by
    intro h; exact (List.nodup_append.1 hI.nodup).2.2 h hu
  have hnd : (st.visitedNodesInOrder ++ u :: rest).Nodup :=
    (List.Perm.nodup_iff (List.Perm.append_left _ hperm.symm)).1 hI.nodup
  have hnd' : (st.visitedNodesInOrder ++ rest).Nodup := by
    rw [List.nodup_append] at hnd ⊢
    refine ⟨hnd.1, (List.nodup_cons.1 hnd.2.1).2, ?_⟩
    intro a ha hb
    exact hnd.2.2 ha (List.mem_cons_of_mem _ hb)
  have hmin : ∀ p ∈ st.unvisitedNodes,
      numLe (st.grid u).distance (st.grid p).distance = true :=
    stableSort_head_le (fun a b => numLe (st.grid a).distance (st.grid b).distance)
      (fun a b => numLe_total _ _) (fun a b c => numLe_trans _ _ _) hq
  refine ⟨hperm.symm, hu_not, hnd', ?_, ?_, ?_⟩
  · intro c hw
    rcases hI.dijkstra_frontier hw with ⟨h, _⟩ | ⟨p, ⟨hp, k, hk⟩, hle⟩
    · exact Or.inl h
    · right
      have hk0 : k = 0 := by rw [costOf_eq hk] at hle; omega
      subst hk0
      have hps : p = s := by
        by_contra hne
        obtain ⟨_, _, _, _, _, h4, _⟩ := hI.cost.pred p 0 hk hne
        omega
      have hcs : c = s := by cases hw; rfl
      subst hps
      by_contra hcu
      have hmu := hmin p hp
      rw [hk] at hmu
      cases hdu : (st.grid u).distance with
      | none => rw [hdu] at hmu; simp [numLe] at hmu
      | some du =>
        rw [hdu] at hmu
        simp only [numLe, decide_eq_true_eq] at hmu
        have hdu0 : du = 0 := by omega
        subst hdu0
        have hus : u = p := by
          by_contra hne
          obtain ⟨_, _, _, _, _, h4, _⟩ := hI.cost.pred u 0 hdu hne
          omega
        exact hcu (hcs.trans hus.symm)
  · intro hnone c n hw
    rcases hI.dijkstra_frontier hw with ⟨h, _⟩ | ⟨p, ⟨hp, k, hk⟩, _⟩
    · exact h
    · have := hmin p hp
      rw [hnone, hk] at this
      simp [numLe] at this
  · intro d hd n hw
    rcases hI.dijkstra_frontier hw with ⟨_, h⟩ | ⟨p, ⟨hp, k, hk⟩, hle⟩
    · rw [costOf_eq hd] at h; exact h
    · have := hmin p hp
      rw [hd, hk] at this
      simp only [numLe, decide_eq_true_eq] at this
      rw [costOf_eq hk] at hle
      omega

/-- `dijkstra` on a fresh working copy with a non-wall start returns, and what
it returns satisfies the shortest-path postcondition. -/
theorem dijkstra_spec {grid : Grid} {s : Cell} (e : Cell) (hf : Fresh grid)
    (hs : Free (wallsOf grid) s) :
    ∃ grid' order, dijkstra grid s e = some (grid', order) ∧
      ShortestPost (wallsOf grid) s e grid' order := by
  have key := iterate_spec (dijkstraBody e)
    (fun st => DijkstraInv (wallsOf grid) s e st)
    (fun st => ShortestPost (wallsOf grid) s e st.grid st.visitedNodesInOrder)
    (fun st => st.unvisitedNodes.length)
    (by
      intro st st' hI hb
      unfold dijkstraBody at hb
      split at hb
      · cases hb
      · rename_i u rest hq
        obtain ⟨hperm, hu_not, hnd', hzero, hnone, hopt⟩ := hI.dijkstra_head hq
        have hlen : st.unvisitedNodes.length = rest.length + 1 := by
          rw [hperm.length_eq]; simp
        have hmem : ∀ c, c ∈ st.unvisitedNodes ↔ c = u ∨ c ∈ rest := by
          intro c; rw [hperm.mem_iff]; simp
        split at hb
        · rename_i hwall
          injection hb with hb
          subst hb
          refine ⟨{ cost := hI.cost, nodup := hnd', free_mem := ?_ }, by dsimp only; omega⟩
          intro c hc
          rcases hI.free_mem c hc with h | h
          · exact Or.inl h
          · rcases (hmem c).1 h with h | h
            · subst h
              have := hc.2.2
              rw [← hI.cost.wallsEq c, hwall] at this
              cases this
            · exact Or.inr h
        · split at hb
          · cases hb
          · rename_i hwall hdist
            dsimp only at hb
            split at hb
            · cases hb
            · rename_i hue
              injection hb with hb
              subst hb
              obtain ⟨d, hd⟩ : ∃ d, (st.grid u).distance = some d := by
                cases h : (st.grid u).distance with
                | none => exact absurd h hdist
                | some d => exact ⟨d, rfl⟩
              have hfu : Free (wallsOf grid) u := (hI.cost.walk u d hd).free
              have hub : u.1 < ROWS ∧ u.2 < COLS := ⟨hfu.1, hfu.2.1⟩
              have hnbeq : getNeighbors u
                  (st.grid.set u { st.grid u with isVisited := true }) =
                  getNeighbors u st.grid := getNeighbors_congr (visit_isWall st.grid u) u
              have hu_nb : u ∉ getNeighbors u st.grid := by
                intro h
                exact ((mem_getNeighbors_iff hub).1 h).1.ne rfl
              have hd1 : ((st.grid.set u { st.grid u with isVisited := true }) u).distance
                  = some d := by simpa using hd
              rw [hnbeq, foldl_dijkstraRelax u d _ _ (getNeighbors_nodup u st.grid) hu_nb hd1]
              have hrel := relaxed_of_closed_form st.grid u d (getNeighbors u st.grid)
              obtain ⟨hC', _⟩ := cost_expand hI.cost hu_not hd (hopt d hd) hue hrel
              refine ⟨{ cost := hC', nodup := ?_, free_mem := ?_ }, by dsimp only; omega⟩
              · dsimp only
                have hnd : (st.visitedNodesInOrder ++ u :: rest).Nodup :=
                  (List.Perm.nodup_iff (List.Perm.append_left _ hperm)).1 hI.nodup
                simpa using hnd
              · intro c hc
                dsimp only
                rcases hI.free_mem c hc with h | h
                · exact Or.inl (List.mem_append_left _ h)
                · rcases (hmem c).1 h with h | h
                  · left; simp [h]
                  · exact Or.inr h)
    (by
      intro st st' hI hb
      unfold dijkstraBody at hb
      split at hb
      · rename_i hq
        injection hb with hb
        subst hb
        have hperm := stableSort_perm
          (fun a b => numLe (st.grid a).distance (st.grid b).distance) st.unvisitedNodes
        rw [hq] at hperm
        have hempty : st.unvisitedNodes = [] := List.Perm.eq_nil hperm.symm
        refine cost_done_exhausted hI.cost ?_ hs
        intro c n hw
        rcases hI.dijkstra_frontier hw with ⟨h, _⟩ | ⟨p, ⟨hp, _⟩, _⟩
        · exact h
        · rw [hempty] at hp; simp at hp
      · rename_i u rest hq
        obtain ⟨hperm, hu_not, hnd', hzero, hnone, hopt⟩ := hI.dijkstra_head hq
        split at hb
        · cases hb
        · split at hb
          · rename_i hwall hdist
            injection hb with hb
            subst hb
            exact cost_done_exhausted hI.cost (hnone hdist) hs
          · rename_i hwall hdist
            dsimp only at hb
            split at hb
            · rename_i hue
              injection hb with hb
              subst hb
              subst hue
              obtain ⟨d, hd⟩ : ∃ d, (st.grid u).distance = some d := by
                cases h : (st.grid u).distance with
                | none => exact absurd h hdist
                | some d => exact ⟨d, rfl⟩
              refine cost_done_end hI.cost ?_ hd (hopt d hd)
              exact hzero s (Walk.start hs)
            · cases hb)
    (ROWS * COLS + 1) _ (dijkstra_init e hf hs) (by dsimp only; rw [flat_length]; omega)
  obtain ⟨r, h1, h2⟩ := key
  refine ⟨r.grid, r.visitedNodesInOrder, ?_, h2⟩
  unfold dijkstra
  rw [h1]; rfl

/-! ## Depth-first search -/

/-- The `for` loop of `dfs` in closed form. -/
theorem foldl_dfsPush (cur : Cell) : ∀ (l : List Cell) (grid : Grid) (stack : List Cell),
    l.Nodup →
    l.foldl (dfsPush cur) (grid, stack) =
      ((fun c => if c ∈ l ∧ (grid c).isVisited = false then
          { grid c with previousNode := some cur } else grid c),
        (l.filter (fun c => !(grid c).isVisited)).reverse ++ stack) := by
  intro l
  induction l with
  | nil => intro grid stack _; simp
  | cons a l ih =>
    intro grid stack hnd
    rw [List.nodup_cons] at hnd
    rw [List.foldl_cons]
    by_cases hv : (grid a).isVisited = true
    · have h1 : dfsPush cur (grid, stack) a = (grid, stack) := by simp [dfsPush, hv]
      rw [h1, ih grid stack hnd.2]
      congr 1
      · funext c
        by_cases hca : c = a
        · subst hca; simp [hv]
        · simp [hca]
      · simp [List.filter_cons, hv]
    · have hv' : (grid a).isVisited = false := by simpa using hv
      have h1 : dfsPush cur (grid, stack) a =
          (grid.set a { grid a with previousNode := some cur }, a :: stack) := by
        simp [dfsPush, hv']
      rw [h1, ih _ _ hnd.2]
      congr 1
      · funext c
        by_cases hca : c = a
        · subst hca; simp [hv', hnd.1]
        · simp [hca, Grid.set_other _ _ hca]
      · rw [List.filter_cons, if_pos (by simp [hv']), List.reverse_cons, List.append_assoc]
        congr 2
        apply List.filter_congr
        intro c hc
        have hca : c ≠ a := fun h => hnd.1 (h ▸ hc)
        rw [Grid.set_other _ _ hca]

theorem dfs_init {grid : Grid} {s : Cell} (e : Cell) (hf : Fresh grid)
    (hs : Free (wallsOf grid) s) : DfsInv (wallsOf grid) s e ⟨grid, [s], []⟩ := by
  refine
    { wallsEq := fun _ => rfl, nodup := by simp, vis_iff := ?_, reach := ?_,
      start_prev := (hf s).2.2, first := Or.inr ⟨rfl, rfl⟩, stack_pred := ?_,
      expanded := by simp, undisc := fun c _ _ => (hf c).2.2, tree := ?_,
      end_not := by simp }
  · intro c; simp [(hf c).1]
  · intro c hc
    have : c = s := by simpa using hc
    subst this; exact ⟨0, Walk.start hs⟩
  · intro c hc _ hne
    have : c = s := by simpa using hc
    exact absurd this hne
  · intro c hc; simp at hc

theorem DfsInv.dfs_order_length {walls : Cell → Bool} {s e : Cell} {st : DfsState}
    (hI : DfsInv walls s e st) : st.visitedNodesInOrder.length ≤ ROWS * COLS := by
  apply length_le_of_nodup hI.nodup
  intro c hc
  obtain ⟨n, hw⟩ := hI.reach c (Or.inl hc)
  exact ⟨hw.free.1, hw.free.2.1⟩

/-- A pass of the loop of `dfs` that skips the popped cell. -/
theorem dfs_skip {walls : Cell → Bool} {s e : Cell} {st : DfsState}
    (hI : DfsInv walls s e st) {u : Cell} {rest : List Cell} (hq : st.stack = u :: rest)
    (hskip : ((st.grid u).isVisited || (st.grid u).isWall) = true) :
    DfsInv walls s e { st with stack := rest } := by
  have hu_stack : u ∈ st.stack := by rw [hq]; simp
  have hmem : ∀ c, c ∈ st.stack ↔ c = u ∨ c ∈ rest := by intro c; rw [hq]; simp
  have hu : u ∈ st.visitedNodesInOrder := by
    rw [Bool.or_eq_true] at hskip
    rcases hskip with h | h
    · exact (hI.vis_iff u).1 h
    · obtain ⟨n, hw⟩ := hI.reach u (Or.inr hu_stack)
      have := hw.free.2.2
      rw [← hI.wallsEq u, h] at this
      cases this
  refine
    { wallsEq := hI.wallsEq, nodup := hI.nodup, vis_iff := hI.vis_iff, reach := ?_,
      start_prev := hI.start_prev, first := ?_, stack_pred := ?_, expanded := ?_,
      undisc := ?_, tree := hI.tree, end_not := hI.end_not }
  · intro c hc
    rcases hc with h | h
    · exact hI.reach c (Or.inl h)
    · exact hI.reach c (Or.inr ((hmem c).2 (Or.inr h)))
  · rcases hI.first with h | ⟨_, h⟩
    · exact Or.inl h
    · rw [h] at hu; simp at hu
  · intro c hc hco hcs
    exact hI.stack_pred c ((hmem c).2 (Or.inr hc)) hco hcs
  · intro c hc c' hadj hfree
    rcases hI.expanded c hc c' hadj hfree with h | h
    · exact Or.inl h
    · rcases (hmem c').1 h with h | h
      · left; rw [h]; exact hu
      · exact Or.inr h
  · intro c hc1 hc2
    apply hI.undisc c hc1
    intro h
    rcases (hmem c).1 h with h | h
    · exact hc1 (h ▸ hu)
    · exact hc2 h

/-- Leaving the loop of `dfs` at the end cell. -/
theorem dfs_done_end {walls : Cell → Bool} {s e : Cell} {st : DfsState}
    (hI : DfsInv walls s e st) {rest : List Cell} (hq : st.stack = e :: rest) :
    SearchPost walls s e (st.grid.set e { st.grid e with isVisited := true })
      (st.visitedNodesInOrder ++ [e]) := by
  have he := hI.end_not
  have he_stack : e ∈ st.stack := by rw [hq]; simp
  have hsm : s ∈ st.visitedNodesInOrder ++ [e] := by
    rcases hI.first with h | ⟨h, _⟩
    · exact List.mem_append_left _ h
    · rw [hq] at h
      have : e = s := by simpa using (List.cons.inj h).1
      simp [this]
  refine
    { wallsEq := fun c => by rw [visit_isWall]; exact hI.wallsEq c, nodup := ?_, walk := ?_,
      start_mem := hsm, start_prev := by rw [visit_previousNode]; exact hI.start_prev,
      tree := ?_, end_last := by simp, end_prev := by simp, complete := by simp }
  · rw [List.nodup_append]
    refine ⟨hI.nodup, by simp, ?_⟩
    intro a ha hb
    have : a = e := by simpa using hb
    subst this; exact he ha
  · intro c hc
    rcases List.mem_append.1 hc with h | h
    · exact hI.reach c (Or.inl h)
    · have : c = e := by simpa using h
      subst this; exact hI.reach c (Or.inr he_stack)
  · refine hI.tree.snoc (fun c _ => visit_previousNode st.grid e c) he ?_
    intro hes
    obtain ⟨p, h1, h2, h3⟩ := hI.stack_pred e he_stack he hes
    exact ⟨p, by rw [visit_previousNode]; exact h1, h2, h3⟩

/-- Leaving the loop of `dfs` with an empty stack. -/
theorem dfs_done_empty {walls : Cell → Bool} {s e : Cell} {st : DfsState}
    (hI : DfsInv walls s e st) (hq : st.stack = []) :
    SearchPost walls s e st.grid st.visitedNodesInOrder := by
  have hsm : s ∈ st.visitedNodesInOrder := by
    rcases hI.first with h | ⟨h, _⟩
    · exact h
    · rw [hq] at h; cases h
  have hcomplete : ∀ c n, Walk walls s c n → c ∈ st.visitedNodesInOrder := by
    intro c n hw
    induction hw with
    | start _ => exact hsm
    | step _ hadj hfree ih =>
      rcases hI.expanded _ ih _ hadj hfree with h | h
      · exact h
      · rw [hq] at h; simp at h
  exact
    { wallsEq := hI.wallsEq, nodup := hI.nodup,
      walk := fun c hc => hI.reach c (Or.inl hc), start_mem := hsm,
      start_prev := hI.start_prev, tree := hI.tree,
      end_last := fun h => absurd h hI.end_not,
      end_prev := fun h => hI.undisc e h (by rw [hq]; simp),
      complete := fun _ => hcomplete }

/-- A pass of the loop of `dfs` that visits a cell other than the end and
pushes its unvisited neighbours. -/
theorem dfs_expand {walls : Cell → Bool} {s e : Cell} {st : DfsState}
    (hI : DfsInv walls s e st) {u : Cell} {rest : List Cell} (hq : st.stack = u :: rest)
    (hskip : ¬ ((st.grid u).isVisited || (st.grid u).isWall) = true) (hue : u ≠ e) :
    DfsInv walls s e
      ⟨((getNeighbors u (st.grid.set u { st.grid u with isVisited := true })).foldl
          (dfsPush u) (st.grid.set u { st.grid u with isVisited := true }, rest)).1,
        ((getNeighbors u (st.grid.set u { st.grid u with isVisited := true })).foldl
          (dfsPush u) (st.grid.set u { st.grid u with isVisited := true }, rest)).2,
        st.visitedNodesInOrder ++ [u]⟩ ∧
      ((getNeighbors u (st.grid.set u { st.grid u with isVisited := true })).foldl
          (dfsPush u) (st.grid.set u { st.grid u with isVisited := true }, rest)).2.length
        ≤ rest.length + 4 := by
  have hu_stack : u ∈ st.stack := by rw [hq]; simp
  have hmem : ∀ c, c ∈ st.stack ↔ c = u ∨ c ∈ rest := by intro c; rw [hq]; simp
  have hu_not : u ∉ st.visitedNodesInOrder := by
    intro h
    apply hskip
    rw [(hI.vis_iff u).2 h]; rfl
  obtain ⟨nu, hwu⟩ := hI.reach u (Or.inr hu_stack)
  have hfu : Free walls u := hwu.free
  have hub : u.1 < ROWS ∧ u.2 < COLS := ⟨hfu.1, hfu.2.1⟩
  have hnbeq : getNeighbors u (st.grid.set u { st.grid u with isVisited := true }) =
      getNeighbors u st.grid := getNeighbors_congr (visit_isWall st.grid u) u
  have hnb : ∀ c, c ∈ getNeighbors u st.grid ↔ Adjacent u c ∧ Free walls c := by
    intro c; rw [mem_getNeighbors_iff hub, wallsOf_eq hI.wallsEq]
  rw [hnbeq, foldl_dfsPush u _ _ _ (getNeighbors_nodup u st.grid)]
  have hmem_order : ∀ c, c ∈ st.visitedNodesInOrder ++ [u] ↔
      c ∈ st.visitedNodesInOrder ∨ c = u := by
    intro c; simp
  have hvis1 : ∀ c, ((st.grid.set u { st.grid u with isVisited := true }) c).isVisited = true ↔
      c ∈ st.visitedNodesInOrder ∨ c = u := by
    intro c; rw [visit_isVisited, hI.vis_iff]
  have hvis1' : ∀ c, ((st.grid.set u { st.grid u with isVisited := true }) c).isVisited = false
      ↔ ¬ (c ∈ st.visitedNodesInOrder ∨ c = u) := by
    intro c; rw [← hvis1 c]; simp
  have hpushed : ∀ c, c ∈ ((getNeighbors u st.grid).filter (fun c =>
      !((st.grid.set u { st.grid u with isVisited := true }) c).isVisited)).reverse ↔
      (Adjacent u c ∧ Free walls c) ∧ ¬ (c ∈ st.visitedNodesInOrder ∨ c = u) := by
    intro c
    rw [List.mem_reverse, List.mem_filter, hnb, ← hvis1' c]
    simp
  have hlen : (((getNeighbors u st.grid).filter (fun c =>
      !((st.grid.set u { st.grid u with isVisited := true }) c).isVisited)).reverse
      ++ rest).length ≤ rest.length + 4 := by
    rw [List.length_append, List.length_reverse]
    have := List.length_filter_le (fun c =>
      !((st.grid.set u { st.grid u with isVisited := true }) c).isVisited)
      (getNeighbors u st.grid)
    have := getNeighbors_length_le u st.grid
    omega
  refine ⟨?_, hlen⟩
  generalize ((getNeighbors u st.grid).filter (fun c =>
      !((st.grid.set u { st.grid u with isVisited := true }) c).isVisited)).reverse = pushed
    at hpushed
  have hgrid_hit : ∀ c, c ∈ pushed →
      (if c ∈ getNeighbors u st.grid ∧
          ((st.grid.set u { st.grid u with isVisited := true }) c).isVisited = false then
        ({ (st.grid.set u { st.grid u with isVisited := true }) c with
          previousNode := some u } : Node)
        else (st.grid.set u { st.grid u with isVisited := true }) c).previousNode
        = some u := by
    intro c hc
    have := (hpushed c).1 hc
    rw [if_pos ⟨(hnb c).2 this.1, (hvis1' c).2 this.2⟩]
  have hgrid_miss : ∀ c, c ∉ pushed →
      (if c ∈ getNeighbors u st.grid ∧
          ((st.grid.set u { st.grid u with isVisited := true }) c).isVisited = false then
        ({ (st.grid.set u { st.grid u with isVisited := true }) c with
          previousNode := some u } : Node)
        else (st.grid.set u { st.grid u with isVisited := true }) c).previousNode
        = (st.grid c).previousNode := by
    intro c hc
    rw [if_neg, visit_previousNode]
    rintro ⟨h1, h2⟩
    exact hc ((hpushed c).2 ⟨(hnb c).1 h1, (hvis1' c).1 h2⟩)
  have hgrid_vis : ∀ c,
      (if c ∈ getNeighbors u st.grid ∧
          ((st.grid.set u { st.grid u with isVisited := true }) c).isVisited = false then
        ({ (st.grid.set u { st.grid u with isVisited := true }) c with
          previousNode := some u } : Node)
        else (st.grid.set u { st.grid u with isVisited := true }) c).isVisited
        = ((st.grid.set u { st.grid u with isVisited := true }) c).isVisited := by
    intro c; split <;> rfl
  have hgrid_wall : ∀ c,
      (if c ∈ getNeighbors u st.grid ∧
          ((st.grid.set u { st.grid u with isVisited := true }) c).isVisited = false then
        ({ (st.grid.set u { st.grid u with isVisited := true }) c with
          previousNode := some u } : Node)
        else (st.grid.set u { st.grid u with isVisited := true }) c).isWall
        = (st.grid c).isWall := by
    intro c; rw [← visit_isWall st.grid u c]; split <;> rfl
  have hclosed_not_pushed : ∀ c, c ∈ st.visitedNodesInOrder ∨ c = u → c ∉ pushed := by
    intro c hc h; exact ((hpushed c).1 h).2 hc
  have hsf : s ∈ st.visitedNodesInOrder ∨ s = u := by
    rcases hI.first with h | ⟨h, _⟩
    · exact Or.inl h
    · rw [hq] at h
      exact Or.inr (List.cons.inj h).1.symm
  refine
    { wallsEq := ?_, nodup := ?_, vis_iff := ?_, reach := ?_, start_prev := ?_, first := ?_,
      stack_pred := ?_, expanded := ?_, undisc := ?_, tree := ?_, end_not := ?_ }
  · intro c; dsimp only; rw [hgrid_wall c]; exact hI.wallsEq c
  · dsimp only
    rw [List.nodup_append]
    refine ⟨hI.nodup, by simp, ?_⟩
    intro a ha hb
    have : a = u := by simpa using hb
    subst this; exact hu_not ha
  · intro c; dsimp only
    rw [hgrid_vis c, hvis1 c, hmem_order]
  · intro c hc
    dsimp only at hc
    rw [hmem_order, List.mem_append] at hc
    rcases hc with (h | h) | h | h
    · exact hI.reach c (Or.inl h)
    · rw [h]; exact ⟨nu, hwu⟩
    · have := (hpushed c).1 h
      exact ⟨nu + 1, Walk.step hwu this.1.1 this.1.2⟩
    · exact hI.reach c (Or.inr ((hmem c).2 (Or.inr h)))
  · dsimp only
    rw [hgrid_miss s (hclosed_not_pushed s hsf)]; exact hI.start_prev
  · dsimp only
    exact Or.inl ((hmem_order s).2 hsf)
  · intro c hc hco hcs
    dsimp only at hc hco ⊢
    rw [hmem_order] at hco
    by_cases hp : c ∈ pushed
    · exact ⟨u, hgrid_hit c hp, (hmem_order u).2 (Or.inr rfl), ((hpushed c).1 hp).1.1⟩
    · have hcr : c ∈ rest := by
        rcases List.mem_append.1 hc with h | h
        · exact absurd h hp
        · exact h
      obtain ⟨p, h1, h2, h3⟩ := hI.stack_pred c ((hmem c).2 (Or.inr hcr))
        (fun h => hco (Or.inl h)) hcs
      exact ⟨p, by rw [hgrid_miss c hp]; exact h1, (hmem_order p).2 (Or.inl h2), h3⟩
  · intro c hc c' hadj hfree
    dsimp only at hc ⊢
    rw [hmem_order, List.mem_append]
    rcases (hmem_order c).1 hc with h | h
    · rcases hI.expanded c h c' hadj hfree with h' | h'
      · exact Or.inl (Or.inl h')
      · rcases (hmem c').1 h' with h' | h'
        · exact Or.inl (Or.inr h')
        · exact Or.inr (Or.inr h')
    · subst h
      by_cases hcl : c' ∈ st.visitedNodesInOrder ∨ c' = c
      · exact Or.inl hcl
      · exact Or.inr (Or.inl ((hpushed c').2 ⟨⟨hadj, hfree⟩, hcl⟩))
  · intro c hc1 hc2
    dsimp only at hc1 hc2 ⊢
    rw [hmem_order] at hc1
    rw [List.mem_append] at hc2
    rw [hgrid_miss c (fun h => hc2 (Or.inl h))]
    apply hI.undisc c (fun h => hc1 (Or.inl h))
    intro h
    rcases (hmem c).1 h with h | h
    · exact hc1 (Or.inr h)
    · exact hc2 (Or.inr h)
  · dsimp only
    refine hI.tree.snoc ?_ hu_not ?_
    · intro c hc
      exact hgrid_miss c (hclosed_not_pushed c (Or.inl hc))
    · intro hus
      obtain ⟨p, h1, h2, h3⟩ := hI.stack_pred u hu_stack hu_not hus
      exact ⟨p, by rw [hgrid_miss u (hclosed_not_pushed u (Or.inr rfl))]; exact h1, h2, h3⟩
  · dsimp only
    rw [hmem_order]
    rintro (h | h)
    · exact hI.end_not h
    · exact hue h.symm

/-- `dfs` on a fresh working copy with a non-wall start returns, and what it
returns satisfies the common postcondition. -/
theorem dfs_spec {grid : Grid} {s : Cell} (e : Cell) (hf : Fresh grid)
    (hs : Free (wallsOf grid) s) :
    ∃ grid' order, dfs grid s e = some (grid', order) ∧
      SearchPost (wallsOf grid) s e grid' order := by
  have key := iterate_spec (dfsBody e)
    (fun st => DfsInv (wallsOf grid) s e st)
    (fun st => SearchPost (wallsOf grid) s e st.grid st.visitedNodesInOrder)
    (fun st => st.stack.length + 4 * (ROWS * COLS - st.visitedNodesInOrder.length))
    (by
      intro st st' hI hb
      unfold dfsBody at hb
      split at hb
      · cases hb
      · rename_i u rest hq
        split at hb
        · rename_i hskip
          injection hb with hb
          subst hb
          refine ⟨dfs_skip hI hq hskip, ?_⟩
          dsimp only
          rw [hq]; simp
        · rename_i hskip
          dsimp only at hb
          split at hb
          · cases hb
          · rename_i hue
            obtain ⟨hI', hlen⟩ := dfs_expand hI hq hskip hue
            have hol := hI'.dfs_order_length
            injection hb with hb
            subst hb
            refine ⟨hI', ?_⟩
            dsimp only at hol hlen ⊢
            rw [hq]
            simp only [List.length_append, List.length_singleton, List.length_cons,
              List.length_nil] at hol hlen ⊢
            omega)
    (by
      intro st st' hI hb
      unfold dfsBody at hb
      split at hb
      · rename_i hq
        injection hb with hb
        subst hb
        exact dfs_done_empty hI hq
      · rename_i u rest hq
        split at hb
        · cases hb
        · dsimp only at hb
          split at hb
          · rename_i hue
            injection hb with hb
            subst hb
            subst hue
            exact dfs_done_end hI hq
          · cases hb)
    (4 * (ROWS * COLS) + 2) _ (dfs_init e hf hs)
    (by
      dsimp only
      simp only [List.length_singleton, List.length_nil, Nat.sub_zero]
      omega)
  obtain ⟨r, h1, h2⟩ := key
  refine ⟨r.grid, r.visitedNodesInOrder, ?_, h2⟩
  unfold dfs
  rw [h1]; rfl

/-! ## The four searches together, and reference distances on concrete grids -/

theorem free_gridCopy {grid : Grid} {c : Cell} (h : Free (wallsOf grid) c) :
    Free (wallsOf (gridCopy grid)) c := by
  rw [wallsOf_gridCopy]; exact h

theorem shortestSearches_post {f : Grid → Cell → Cell → Option (Grid × List Cell)}
    (hf : f ∈ shortestSearches) (grid : Grid) {s : Cell} (e : Cell)
    (hs : Free (wallsOf grid) s) :
    ∃ grid' order, f (gridCopy grid) s e = some (grid', order) ∧
      ShortestPost (wallsOf grid) s e grid' order := by
  have h1 := astar_spec e (gridCopy_fresh grid) (free_gridCopy hs)
  have h2 := dijkstra_spec e (gridCopy_fresh grid) (free_gridCopy hs)
  have h3 := bfs_spec e (gridCopy_fresh grid) (free_gridCopy hs)
  rw [wallsOf_gridCopy] at h1 h2 h3
  simp only [shortestSearches, List.mem_cons, List.mem_singleton, List.not_mem_nil,
    or_false] at hf
  rcases hf with rfl | rfl | rfl
  · exact h1
  · exact h2
  · exact h3

theorem searches_post {f : Grid → Cell → Cell → Option (Grid × List Cell)}
    (hf : f ∈ searches) (grid : Grid) {s : Cell} (e : Cell) (hs : Free (wallsOf grid) s) :
    ∃ grid' order, f (gridCopy grid) s e = some (grid', order) ∧
      SearchPost (wallsOf grid) s e grid' order := by
  simp only [searches, List.mem_cons, List.mem_singleton, List.not_mem_nil,
    or_false] at hf
  rcases hf with rfl | rfl | rfl | rfl
  · obtain ⟨g, o, h1, h2⟩ := shortestSearches_post (f := astar) (by simp [shortestSearches])
      grid e hs
    exact ⟨g, o, h1, h2.1⟩
  · obtain ⟨g, o, h1, h2⟩ := shortestSearches_post (f := dijkstra)
      (by simp [shortestSearches]) grid e hs
    exact ⟨g, o, h1, h2.1⟩
  · obtain ⟨g, o, h1, h2⟩ := shortestSearches_post (f := bfs) (by simp [shortestSearches])
      grid e hs
    exact ⟨g, o, h1, h2.1⟩
  · have h4 := dfs_spec e (gridCopy_fresh grid) (free_gridCopy hs)
    rw [wallsOf_gridCopy] at h4
    exact h4

/-- After a search with the shortest-path postcondition, `getPath` returns a
path whose length is fixed by the reference distance. -/
theorem shortest_path_char {walls : Cell → Bool} {s e : Cell} {grid' : Grid}
    {order : List Cell} (hp : ShortestPost walls s e grid' order) (hse : s ≠ e) :
    ∃ path, getPath grid' e = some path ∧
      (∀ d, IsShortest walls s e d → path.length = d + 1) ∧
      ((∀ n, ¬ Walk walls s e n) → path = []) ∧
      ((∃ n, Walk walls s e n) → ∃ d, IsShortest walls s e d) := by
  obtain ⟨path, h1, _, _, _, _, h6, h7⟩ := getPath_of_post hp.1
  refine ⟨path, h1, fun d hd => h7 hp.2 d hd (Ne.symm hse), ?_, ?_⟩
  · intro hno
    by_contra hne
    obtain ⟨he, _⟩ := h6.1 hne
    obtain ⟨n, hw⟩ := hp.1.walk e he
    exact hno n hw
  · rintro ⟨n, hw⟩
    have he : e ∈ order := by
      by_contra he
      exact he (hp.1.complete he e n hw)
    obtain ⟨lv, _, hl, _⟩ := hp.2
    exact ⟨lv e, hl e he⟩

theorem length_eq_of_char {walls : Cell → Bool} {s e : Cell} {p q : List Cell}
    (hp1 : ∀ d, IsShortest walls s e d → p.length = d + 1)
    (hp2 : (∀ n, ¬ Walk walls s e n) → p = [])
    (hp3 : (∃ n, Walk walls s e n) → ∃ d, IsShortest walls s e d)
    (hq1 : ∀ d, IsShortest walls s e d → q.length = d + 1)
    (hq2 : (∀ n, ¬ Walk walls s e n) → q = []) : p.length = q.length := by
  by_cases h : ∃ n, Walk walls s e n
  · obtain ⟨d, hd⟩ := hp3 h
    rw [hp1 d hd, hq1 d hd]
  · have h' : ∀ n, ¬ Walk walls s e n := fun n hw => h ⟨n, hw⟩
    rw [hp2 h', hq2 h']

theorem heuristic_step {s a b : Cell} (h : Adjacent a b) :
    heuristic s b ≤ heuristic s a + 1 := by
  unfold heuristic; unfold Adjacent at h
  omega

/-- No walk is shorter than the Manhattan distance between its ends. -/
theorem heuristic_le_walk {walls : Cell → Bool} {s c : Cell} {n : Nat}
    (hw : Walk walls s c n) : heuristic s c ≤ n := by
  induction hw with
  | start _ => simp [heuristic]
  | step _ hadj _ ih =>
    have := heuristic_step (s := s) hadj
    omega

theorem walk_right_initializeGrid (k : Nat) (hk : k ≤ 30) :
    Walk (wallsOf initializeGrid) (10, 5) (10, 5 + k) k := by
  induction k with
  | zero => exact Walk.start (by decide)
  | succ k ih =>
    refine Walk.step (ih (by omega)) ?_ ?_
    · unfold Adjacent; simp; omega
    · refine ⟨?_, ?_, rfl⟩
      · show 10 < ROWS
        decide
      · show 5 + (k + 1) < COLS
        unfold COLS; omega

theorem isShortest_initializeGrid :
    IsShortest (wallsOf initializeGrid) START_NODE END_NODE 30 := by
  refine ⟨walk_right_initializeGrid 30 (le_refl _), ?_⟩
  intro n hw
  have := heuristic_le_walk hw
  have h30 : heuristic START_NODE END_NODE = 30 := by decide
  omega

theorem isShortest_adjacent {walls : Cell → Bool} {s e : Cell} (hs : Free walls s)
    (he : Free walls e) (hadj : Adjacent s e) : IsShortest walls s e 1 := by
  refine ⟨Walk.step (Walk.start hs) hadj he, ?_⟩
  intro n hw
  cases hw with
  | start _ => exact absurd rfl hadj.ne
  | step _ _ _ => omega

theorem no_walk_cornerGrid : ∀ n, ¬ Walk (wallsOf cornerGrid) (5, 5) (0, 0) n := by
  intro n hw
  cases hw with
  | @step c _ m hw hadj _ =>
    have hfree := hw.free
    obtain ⟨a, b⟩ := c
    have hc : (a, b) = (1, 0) ∨ (a, b) = ((0 : Nat), (1 : Nat)) := by
      unfold Adjacent at hadj
      simp only [Prod.mk.injEq] at hadj ⊢
      omega
    have hwall : wallsOf cornerGrid (a, b) = true := by
      simp only [wallsOf, cornerGrid, decide_eq_true_eq]
      exact hc
    rw [hfree.2.2] at hwall
    cases hwall

/-- Two distinct members make a list of length at least two. -/
theorem two_le_length_of_mem {l : List Cell} {a b : Cell} (ha : a ∈ l) (hb : b ∈ l)
    (hab : a ≠ b) : 2 ≤ l.length := by
  match l, ha, hb with
  | [x], ha, hb =>
    have h1 : a = x := by simpa using ha
    have h2 : b = x := by simpa using hb
    exact absurd (h1.trans h2.symm) hab
  | _ :: _ :: _, _, _ => simp

/-- A list of length two is its head followed by its last element. -/
theorem eq_pair_of_length_two {l : List Cell} {a b : Cell} (hlen : l.length = 2)
    (hh : l.head? = some a) (hl : l.getLast? = some b) : l = [a, b] := by
  match l, hlen, hh, hl with
  | [x, y], _, hh, hl =>
    have h1 : x = a := by simpa using hh
    have h2 : y = b := by simpa using hl
    rw [h1, h2]

/-! ## Depth-first search towards the right-hand neighbour -/

/-- The right-hand neighbour is the last cell `getNeighbors` returns. -/
theorem getNeighbors_right_last (grid : Grid) (s : Cell) (hc : s.2 < COLS - 1)
    (hw : (grid (s.1, s.2 + 1)).isWall = false) :
    ∃ pre, getNeighbors s grid = pre ++ [(s.1, s.2 + 1)] := by
  unfold getNeighbors
  simp only [List.filter_append, if_pos hc]
  refine ⟨_, congrArg _ ?_⟩
  simp [hw]

/-- When the end cell is the right-hand neighbour of the start, `dfs` pops it
first: it visits the start and the end only, and the end points back to the
start. -/
theorem dfs_right_neighbour {grid : Grid} {s : Cell} (hf : Fresh grid)
    (hs : Free (wallsOf grid) s) (he : Free (wallsOf grid) (s.1, s.2 + 1)) :
    ∃ grid', dfs grid s (s.1, s.2 + 1) = some (grid', [s, (s.1, s.2 + 1)]) ∧
      getPath grid' (s.1, s.2 + 1) = some [s, (s.1, s.2 + 1)] := by
  have hse : s ≠ (s.1, s.2 + 1) := by
    intro h
    have := congrArg Prod.snd h
    simp at this
  have hcol : s.2 < COLS - 1 := by have := he.2.1; simp only at this; omega
  have hsw : (grid s).isWall = false := hs.2.2
  have hew : (grid (s.1, s.2 + 1)).isWall = false := he.2.2
  obtain ⟨pre, hpre⟩ := getNeighbors_right_last grid s hcol hew
  have hnb : getNeighbors s (grid.set s { grid s with isVisited := true }) = pre ++ [(s.1, s.2 + 1)] := by
    rw [getNeighbors_congr (visit_isWall grid s) s]; exact hpre
  have hnd : (pre ++ [(s.1, s.2 + 1)]).Nodup := by
    rw [← hpre]; exact getNeighbors_nodup s grid
  have he_unvis : ((grid.set s { grid s with isVisited := true }) (s.1, s.2 + 1)).isVisited
      = false := by
    rw [Grid.set_other _ _ (Ne.symm hse)]; exact (hf _).1
  -- first pass: the start is visited and its neighbours are pushed
  have hstep1 : dfsBody (s.1, s.2 + 1) ⟨grid, [s], []⟩ =
      Step.next
        ⟨(fun c => if c ∈ pre ++ [(s.1, s.2 + 1)] ∧
            ((grid.set s { grid s with isVisited := true }) c).isVisited = false then
            { (grid.set s { grid s with isVisited := true }) c with previousNode := some s }
            else (grid.set s { grid s with isVisited := true }) c),
          (s.1, s.2 + 1) :: ((pre.filter (fun c =>
            !((grid.set s { grid s with isVisited := true }) c).isVisited)).reverse),
          [s]⟩ := by
    have hcond : ¬ ((grid s).isVisited || (grid s).isWall) = true := by
      rw [(hf s).1, hsw]; simp
    have hstack : ((pre ++ [(s.1, s.2 + 1)]).filter (fun c =>
        !((grid.set s { grid s with isVisited := true }) c).isVisited)).reverse ++ [] =
        (s.1, s.2 + 1) :: ((pre.filter (fun c =>
          !((grid.set s { grid s with isVisited := true }) c).isVisited)).reverse) := by
      rw [List.filter_append, List.reverse_append, List.append_nil]
      simp [he_unvis]
    simp only [dfsBody]
    rw [if_neg hcond, if_neg hse, hnb, foldl_dfsPush s _ _ _ hnd, hstack]
    rfl
  generalize hg1 : (fun c => if c ∈ pre ++ [(s.1, s.2 + 1)] ∧
            ((grid.set s { grid s with isVisited := true }) c).isVisited = false then
            ({ (grid.set s { grid s with isVisited := true }) c with previousNode := some s }
              : Node)
            else (grid.set s { grid s with isVisited := true }) c) = g1 at hstep1
  have hg1e : g1 (s.1, s.2 + 1) =
      { (grid.set s { grid s with isVisited := true }) (s.1, s.2 + 1) with
        previousNode := some s } := by
    rw [← hg1]
    simp only
    rw [if_pos ⟨by simp, he_unvis⟩]
  have hg1s : g1 s = (grid.set s { grid s with isVisited := true }) s := by
    rw [← hg1]
    simp only
    rw [if_neg]
    rintro ⟨_, h⟩
    simp at h
  have hg1e_vis : (g1 (s.1, s.2 + 1)).isVisited = false := by rw [hg1e]; exact he_unvis
  have hg1e_wall : (g1 (s.1, s.2 + 1)).isWall = false := by
    rw [hg1e]
    show ((grid.set s { grid s with isVisited := true }) (s.1, s.2 + 1)).isWall = false
    rw [visit_isWall]; exact hew
  generalize (pre.filter (fun c =>
      !((grid.set s { grid s with isVisited := true }) c).isVisited)).reverse = rest at hstep1
  -- second pass: the end is popped
  have hstep2 : dfsBody (s.1, s.2 + 1) ⟨g1, (s.1, s.2 + 1) :: rest, [s]⟩ =
      Step.done ⟨Grid.set g1 (s.1, s.2 + 1) { g1 (s.1, s.2 + 1) with isVisited := true }, rest,
        [s, (s.1, s.2 + 1)]⟩ := by
    simp [dfsBody, hg1e_vis, hg1e_wall]
  refine ⟨Grid.set g1 (s.1, s.2 + 1) { g1 (s.1, s.2 + 1) with isVisited := true }, ?_, ?_⟩
  · unfold dfs
    have hfuel : 4 * (ROWS * COLS) + 2 = (4 * (ROWS * COLS)) + 1 + 1 := rfl
    rw [hfuel]
    simp only [iterate, hstep1, hstep2, Option.map_some']
  · have hp_e : ((Grid.set g1 (s.1, s.2 + 1) { g1 (s.1, s.2 + 1) with isVisited := true })
        (s.1, s.2 + 1)).previousNode = some s := by
      rw [visit_previousNode, hg1e]
    have hp_s : ((Grid.set g1 (s.1, s.2 + 1) { g1 (s.1, s.2 + 1) with isVisited := true })
        s).previousNode = none := by
      rw [visit_previousNode, hg1s, visit_previousNode]; exact (hf s).2.2
    unfold getPath
    have hfuel : ROWS * COLS + 1 = (ROWS * COLS - 2) + 1 + 1 + 1 := by decide
    rw [hfuel]
    generalize ROWS * COLS - 2 = k
    simp only [iterate, getPathBody, hp_e, hp_s, Option.map_some']
    simp

/-! ## Runs and the claims -/

theorem runSearch_eq {f : Grid → Cell → Cell → Option (Grid × List Cell)} {grid grid' : Grid}
    {s e : Cell} {order path : List Cell} (h1 : f (gridCopy grid) s e = some (grid', order))
    (h2 : getPath grid' e = some path) : runSearch f grid s e = some (grid', order, path) := by
  simp [runSearch, h1, h2]

/-- Every run from a non-wall start returns, with the common postcondition
and the facts about the path that follow from it. -/
theorem runSearch_post {f : Grid → Cell → Cell → Option (Grid × List Cell)}
    (hf : f ∈ searches) (grid : Grid) {s : Cell} (e : Cell) (hs : Free (wallsOf grid) s) :
    ∃ grid' order path, runSearch f grid s e = some (grid', order, path) ∧
      SearchPost (wallsOf grid) s e grid' order ∧
      List.Chain' Adjacent path ∧ (∀ c ∈ path, c ∈ order) ∧ path.Nodup ∧
      (path ≠ [] → path.head? = some s ∧ path.getLast? = some e) ∧
      (path ≠ [] ↔ (e ∈ order ∧ e ≠ s)) := by
  obtain ⟨g', order, h1, hp⟩ := searches_post hf grid e hs
  obtain ⟨path, h2, h3, h4, h5, h6, h7, _⟩ := getPath_of_post hp
  exact ⟨g', order, path, runSearch_eq h1 h2, hp, h3, h4, h5, h6, h7⟩

/-- Every run of a shortest-path search from a non-wall start to another cell
returns a path whose length is fixed by the reference distance. -/
theorem runSearch_shortest {f : Grid → Cell → Cell → Option (Grid × List Cell)}
    (hf : f ∈ shortestSearches) (grid : Grid) {s e : Cell} (hs : Free (wallsOf grid) s)
    (hse : s ≠ e) :
    ∃ grid' order path, runSearch f grid s e = some (grid', order, path) ∧
      ShortestPost (wallsOf grid) s e grid' order ∧
      (∀ d, IsShortest (wallsOf grid) s e d → path.length = d + 1) ∧
      ((∀ n, ¬ Walk (wallsOf grid) s e n) → path = []) ∧
      ((∃ n, Walk (wallsOf grid) s e n) → ∃ d, IsShortest (wallsOf grid) s e d) := by
  obtain ⟨g', order, h1, hp⟩ := shortestSearches_post hf grid e hs
  obtain ⟨path, h2, h3, h4, h5⟩ := shortest_path_char hp hse
  exact ⟨g', order, path, runSearch_eq h1 h2, hp, h3, h4, h5⟩

/-- C1. For every wall configuration and every pair of distinct cells `s`, `e`
of the grid with `s` not a wall (so in particular when neither is a wall),
`astar` on the fresh working copy followed by `getPath(e)` and `bfs` followed
by `getPath(e)` both return, and the two paths have the same length; both are
empty when `e` is unreachable, and when `d` is the shortest distance from `s`
to `e` the A* path has `d + 1` cells: A* returns a shortest path. -/
theorem astar_path_length_eq_bfs (grid : Grid) (s e : Cell) (hs : Free (wallsOf grid) s)
    (hse : s ≠ e) :
    ∃ ga oa pa gb ob pb,
      runSearch astar grid s e = some (ga, oa, pa) ∧
      runSearch bfs grid s e = some (gb, ob, pb) ∧
      pa.length = pb.length ∧
      ((∀ n, ¬ Walk (wallsOf grid) s e n) → pa = [] ∧ pb = []) ∧
      (∀ d, IsShortest (wallsOf grid) s e d → pa.length = d + 1) := by
  obtain ⟨ga, oa, pa, ha, _, a1, a2, a3⟩ :=
    runSearch_shortest (f := astar) (by simp [shortestSearches]) grid hs hse
  obtain ⟨gb, ob, pb, hb, _, b1, b2, _⟩ :=
    runSearch_shortest (f := bfs) (by simp [shortestSearches]) grid hs hse
  exact ⟨ga, oa, pa, gb, ob, pb, ha, hb, length_eq_of_char a1 a2 a3 b1 b2,
    fun h => ⟨a2 h, b2 h⟩, a1⟩

theorem astar_path_length_eq_bfs_witness :
    Free (wallsOf initializeGrid) (10, 5) ∧ ((10, 5) : Cell) ≠ (10, 35) ∧
    ∃ ga oa pa gb ob pb,
      runSearch astar initializeGrid (10, 5) (10, 35) = some (ga, oa, pa) ∧
      runSearch bfs initializeGrid (10, 5) (10, 35) = some (gb, ob, pb) ∧
      pa.length = pb.length ∧
      ((∀ n, ¬ Walk (wallsOf initializeGrid) (10, 5) (10, 35) n) → pa = [] ∧ pb = []) ∧
      (∀ d, IsShortest (wallsOf initializeGrid) (10, 5) (10, 35) d → pa.length = d + 1) :=
  ⟨by decide, by decide,
    astar_path_length_eq_bfs initializeGrid (10, 5) (10, 35) (by decide) (by decide)⟩

/-- C2. For every wall configuration and every pair of distinct non-wall
cells `s`, `e` such that `e` is reachable from `s`, with `d` the minimum
number of edges of a walk from `s` to `e` through 4-adjacent non-wall cells,
`bfs` followed by `getPath(e)` returns a path with exactly `d + 1` cells. -/
theorem bfs_path_length_shortest (grid : Grid) (s e : Cell) (d : Nat)
    (hs : Free (wallsOf grid) s) (hse : s ≠ e) (hd : IsShortest (wallsOf grid) s e d) :
    ∃ grid' order path, runSearch bfs grid s e = some (grid', order, path) ∧
      path.length = d + 1 := by
  obtain ⟨g, o, p, h, _, h1, _, _⟩ :=
    runSearch_shortest (f := bfs) (by simp [shortestSearches]) grid hs hse
  exact ⟨g, o, p, h, h1 d hd⟩

theorem bfs_path_length_shortest_witness :
    Free (wallsOf initializeGrid) START_NODE ∧ START_NODE ≠ END_NODE ∧
    IsShortest (wallsOf initializeGrid) START_NODE END_NODE 30 ∧
    ∃ grid' order path,
      runSearch bfs initializeGrid START_NODE END_NODE = some (grid', order, path) ∧
      path.length = 30 + 1 :=
  ⟨by decide, by decide, isShortest_initializeGrid,
    bfs_path_length_shortest initializeGrid START_NODE END_NODE 30 (by decide) (by decide)
      isShortest_initializeGrid⟩

/-- C3. For every wall configuration and every pair of distinct cells `s`, `e`
with `s` not a wall, the path obtained from `dijkstra` followed by
`getPath(e)` has the same length as the path obtained from `bfs` followed by
`getPath(e)` on the same freshly reset grid. -/
theorem dijkstra_path_length_eq_bfs (grid : Grid) (s e : Cell) (hs : Free (wallsOf grid) s)
    (hse : s ≠ e) :
    ∃ gd od pd gb ob pb,
      runSearch dijkstra grid s e = some (gd, od, pd) ∧
      runSearch bfs grid s e = some (gb, ob, pb) ∧
      pd.length = pb.length := by
  obtain ⟨gd, od, pd, hd, _, a1, a2, a3⟩ :=
    runSearch_shortest (f := dijkstra) (by simp [shortestSearches]) grid hs hse
  obtain ⟨gb, ob, pb, hb, _, b1, b2, _⟩ :=
    runSearch_shortest (f := bfs) (by simp [shortestSearches]) grid hs hse
  exact ⟨gd, od, pd, gb, ob, pb, hd, hb, length_eq_of_char a1 a2 a3 b1 b2⟩

theorem dijkstra_path_length_eq_bfs_witness :
    Free (wallsOf cornerGrid) (5, 5) ∧ ((5, 5) : Cell) ≠ (0, 0) ∧
    ∃ gd od pd gb ob pb,
      runSearch dijkstra cornerGrid (5, 5) (0, 0) = some (gd, od, pd) ∧
      runSearch bfs cornerGrid (5, 5) (0, 0) = some (gb, ob, pb) ∧
      pd.length = pb.length :=
  ⟨by decide, by decide,
    dijkstra_path_length_eq_bfs cornerGrid (5, 5) (0, 0) (by decide) (by decide)⟩

/-- C4. For every wall configuration with a non-wall start and for each of
`astar`, `dijkstra`, `bfs` and `dfs` run on the fresh working copy, every cell
of `getPath(e)` other than the first is one step up, down, left or right of the
cell before it, and no cell of the path has `isWall = true`. -/
theorem path_steps_adjacent_no_wall (grid : Grid) (s e : Cell) (hs : Free (wallsOf grid) s)
    (f : Grid → Cell → Cell → Option (Grid × List Cell)) (hf : f ∈ searches) :
    ∃ grid' order path, runSearch f grid s e = some (grid', order, path) ∧
      List.Chain' Adjacent path ∧ ∀ c ∈ path, (grid' c).isWall = false := by
  obtain ⟨g, o, p, h, hp, h1, h2, _⟩ := runSearch_post hf grid e hs
  refine ⟨g, o, p, h, h1, ?_⟩
  intro c hc
  obtain ⟨n, hw⟩ := hp.walk c (h2 c hc)
  rw [hp.wallsEq c]
  exact hw.free.2.2

theorem path_steps_adjacent_no_wall_witness :
    Free (wallsOf initializeGrid) (19, 38) ∧ dfs ∈ searches ∧
    ∃ grid' order path, runSearch dfs initializeGrid (19, 38) (18, 38)
        = some (grid', order, path) ∧
      List.Chain' Adjacent path ∧ ∀ c ∈ path, (grid' c).isWall = false :=
  ⟨by decide, by simp [searches],
    path_steps_adjacent_no_wall initializeGrid (19, 38) (18, 38) (by decide) dfs
      (by simp [searches])⟩

/-- C5. For each of the four searches run on the fresh working copy with a
non-wall start (in particular with distinct non-wall start and end), whenever
`getPath(e)` is non-empty its first cell is the start cell and its last cell is
the end cell. -/
theorem path_runs_from_start_to_end (grid : Grid) (s e : Cell) (hs : Free (wallsOf grid) s)
    (f : Grid → Cell → Cell → Option (Grid × List Cell)) (hf : f ∈ searches) :
    ∃ grid' order path, runSearch f grid s e = some (grid', order, path) ∧
      (path ≠ [] → path.head? = some s ∧ path.getLast? = some e) := by
  obtain ⟨g, o, p, h, _, _, _, _, h4, _⟩ := runSearch_post hf grid e hs
  exact ⟨g, o, p, h, h4⟩

theorem path_runs_from_start_to_end_witness :
    Free (wallsOf initializeGrid) (10, 5) ∧ astar ∈ searches ∧
    ∃ grid' order path, runSearch astar initializeGrid (10, 5) (10, 35)
        = some (grid', order, path) ∧
      (path ≠ [] → path.head? = some (10, 5) ∧ path.getLast? = some (10, 35)) :=
  ⟨by decide, by simp [searches],
    path_runs_from_start_to_end initializeGrid (10, 5) (10, 35) (by decide) astar
      (by simp [searches])⟩

/-- C6. For every wall configuration with a non-wall start (and any end
cell), the visitation order returned by each of `astar`, `dijkstra`, `bfs` and
`dfs` on the fresh working copy contains no cell twice. -/
theorem visitation_order_nodup (grid : Grid) (s e : Cell) (hs : Free (wallsOf grid) s)
    (f : Grid → Cell → Cell → Option (Grid × List Cell)) (hf : f ∈ searches) :
    ∃ grid' order, f (gridCopy grid) s e = some (grid', order) ∧ order.Nodup := by
  obtain ⟨g, o, h, hp⟩ := searches_post hf grid e hs
  exact ⟨g, o, h, hp.nodup⟩

theorem visitation_order_nodup_witness :
    Free (wallsOf cornerGrid) (5, 5) ∧ astar ∈ searches ∧
    ∃ grid' order, astar (gridCopy cornerGrid) (5, 5) (0, 0) = some (grid', order) ∧
      order.Nodup :=
  ⟨by decide, by simp [searches],
    visitation_order_nodup cornerGrid (5, 5) (0, 0) (by decide) astar (by simp [searches])⟩

/-- C7. For every wall configuration with distinct start and end and a
non-wall start, and for each of the four searches run on the fresh working
copy, the end cell occurs in the returned visitation order if and only if
`getPath(e)` is non-empty. -/
theorem end_visited_iff_path_nonempty (grid : Grid) (s e : Cell)
    (hs : Free (wallsOf grid) s) (hse : s ≠ e)
    (f : Grid → Cell → Cell → Option (Grid × List Cell)) (hf : f ∈ searches) :
    ∃ grid' order path, runSearch f grid s e = some (grid', order, path) ∧
      (e ∈ order ↔ path ≠ []) := by
  obtain ⟨g, o, p, h, _, _, _, _, _, h5⟩ := runSearch_post hf grid e hs
  refine ⟨g, o, p, h, ?_⟩
  rw [h5]
  exact ⟨fun he => ⟨he, Ne.symm hse⟩, fun he => he.1⟩

theorem end_visited_iff_path_nonempty_witness :
    Free (wallsOf cornerGrid) (5, 5) ∧ ((5, 5) : Cell) ≠ (0, 0) ∧ dijkstra ∈ searches ∧
    ∃ grid' order path, runSearch dijkstra cornerGrid (5, 5) (0, 0)
        = some (grid', order, path) ∧
      (((0, 0) : Cell) ∈ order ↔ path ≠ []) :=
  ⟨by decide, by decide, by simp [searches],
    end_visited_iff_path_nonempty cornerGrid (5, 5) (0, 0) (by decide) (by decide) dijkstra
      (by simp [searches])⟩

/-- C8. For every wall configuration in which the end cell is not reachable
from the non-wall start through 4-adjacent non-wall cells, each of the four
searches returns a visitation order that contains every cell reachable from
the start exactly once, contains no other cell and does not contain the end,
and `getPath(e)` is empty. -/
theorem unreachable_end_visits_reachable (grid : Grid) (s e : Cell)
    (hs : Free (wallsOf grid) s) (hno : ∀ n, ¬ Walk (wallsOf grid) s e n)
    (f : Grid → Cell → Cell → Option (Grid × List Cell)) (hf : f ∈ searches) :
    ∃ grid' order path, runSearch f grid s e = some (grid', order, path) ∧
      order.Nodup ∧ (∀ c, c ∈ order ↔ ∃ n, Walk (wallsOf grid) s c n) ∧
      e ∉ order ∧ path = [] := by
  obtain ⟨g, o, p, h, hp, _, _, _, _, h5⟩ := runSearch_post hf grid e hs
  have he : e ∉ o := by
    intro he
    obtain ⟨n, hw⟩ := hp.walk e he
    exact hno n hw
  refine ⟨g, o, p, h, hp.nodup, ?_, he, ?_⟩
  · intro c
    exact ⟨hp.walk c, fun ⟨n, hw⟩ => hp.complete he c n hw⟩
  · by_contra hne
    exact he (h5.1 hne).1

theorem unreachable_end_visits_reachable_witness :
    Free (wallsOf cornerGrid) (5, 5) ∧ (∀ n, ¬ Walk (wallsOf cornerGrid) (5, 5) (0, 0) n) ∧
    dfs ∈ searches ∧
    ∃ grid' order path, runSearch dfs cornerGrid (5, 5) (0, 0) = some (grid', order, path) ∧
      order.Nodup ∧ (∀ c, c ∈ order ↔ ∃ n, Walk (wallsOf cornerGrid) (5, 5) c n) ∧
      ((0, 0) : Cell) ∉ order ∧ path = [] :=
  ⟨by decide, no_walk_cornerGrid, by simp [searches],
    unreachable_end_visits_reachable cornerGrid (5, 5) (0, 0) (by decide) no_walk_cornerGrid
      dfs (by simp [searches])⟩

/-- C9. On the 20x40 grid with no walls, start `(10, 5)` and end `(10, 35)`,
each of `astar`, `dijkstra`, `bfs` and `dfs` followed by `getPath(end)` returns
a path of exactly 31 cells. -/
theorem open_grid_path_length_31 :
    (runSearch astar initializeGrid START_NODE END_NODE).map (fun r => r.2.2.length)
      = some 31 ∧
    (runSearch dijkstra initializeGrid START_NODE END_NODE).map (fun r => r.2.2.length)
      = some 31 ∧
    (runSearch bfs initializeGrid START_NODE END_NODE).map (fun r => r.2.2.length)
      = some 31 ∧
    (runSearch dfs initializeGrid START_NODE END_NODE).map (fun r => r.2.2.length)
      = some 31 := by
  have key : ∀ f ∈ shortestSearches,
      (runSearch f initializeGrid START_NODE END_NODE).map (fun r => r.2.2.length)
        = some 31 := by
    intro f hf
    obtain ⟨g, o, p, h, _, h1, _, _⟩ :=
      runSearch_shortest hf initializeGrid (s := START_NODE) (e := END_NODE) (by decide)
        (by decide)
    rw [h]
    simp [h1 30 isShortest_initializeGrid]
  refine ⟨key astar (by simp [shortestSearches]), key dijkstra (by simp [shortestSearches]),
    key bfs (by simp [shortestSearches]), ?_⟩
  decide

/-- C10, as stated, fails for `dfs`: on the wall-free grid with start
`(19, 38)` and the 4-adjacent end `(18, 38)`, `dfs` followed by `getPath(end)`
returns the four-cell path through `(19, 39)` and `(18, 39)`, not
`[start, end]`. -/
theorem dfs_adjacent_path_not_pair :
    Adjacent (19, 38) (18, 38) ∧
    (runSearch dfs initializeGrid (19, 38) (18, 38)).map (fun r => r.2.2)
      = some [(19, 38), (19, 39), (18, 39), (18, 38)] ∧
    (runSearch dfs initializeGrid (19, 38) (18, 38)).map (fun r => r.2.2)
      ≠ some [(19, 38), (18, 38)] := by
  have h : (runSearch dfs initializeGrid (19, 38) (18, 38)).map (fun r => r.2.2)
      = some [(19, 38), (19, 39), (18, 39), (18, 38)] := by decide
  refine ⟨by decide, h, ?_⟩
  rw [h]
  decide

/-- C10, amended. On the wall-free 20x40 grid, for every pair of in-bounds
4-adjacent cells `s` and `e`: after each of `astar`, `dijkstra` and `bfs`,
`getPath(e)` is exactly `[s, e]`; after `dfs`, `getPath(e)` is a path of at
least two cells that starts at `s`, ends at `e` and moves by single steps, and
it is exactly `[s, e]` when `e` is the right-hand neighbour of `s`; and for
each of the four the returned visitation order has length at least 2. -/
theorem adjacent_path_on_open_grid (s e : Cell) (hs : s.1 < ROWS ∧ s.2 < COLS)
    (he : e.1 < ROWS ∧ e.2 < COLS) (hadj : Adjacent s e) :
    (∀ f ∈ shortestSearches, ∃ grid' order,
      runSearch f initializeGrid s e = some (grid', order, [s, e]) ∧ 2 ≤ order.length) ∧
    ∃ grid' order path, runSearch dfs initializeGrid s e = some (grid', order, path) ∧
      path.head? = some s ∧ path.getLast? = some e ∧ 2 ≤ path.length ∧
      List.Chain' Adjacent path ∧ (e = (s.1, s.2 + 1) → path = [s, e]) ∧
      2 ≤ order.length := by
  have hfs : Free (wallsOf initializeGrid) s := ⟨hs.1, hs.2, rfl⟩
  have hfe : Free (wallsOf initializeGrid) e := ⟨he.1, he.2, rfl⟩
  have hse : s ≠ e := hadj.ne
  have hd := isShortest_adjacent hfs hfe hadj
  refine ⟨?_, ?_⟩
  · intro f hf
    have hf' : f ∈ searches := by
      simp only [shortestSearches, List.mem_cons, List.mem_singleton, List.not_mem_nil,
        or_false] at hf
      rcases hf with rfl | rfl | rfl <;> simp [searches]
    obtain ⟨g, o, p, h, hp, h1, _, _⟩ := runSearch_shortest hf initializeGrid hfs hse
    obtain ⟨g', o', p', h', _, _, _, _, h4, h5⟩ := runSearch_post hf' initializeGrid e hfs
    rw [h] at h'
    cases h'
    have hlen := h1 1 hd
    have hne : p ≠ [] := by
      intro h0; rw [h0] at hlen; simp at hlen
    obtain ⟨hh, hl⟩ := h4 hne
    have hpe := eq_pair_of_length_two hlen hh hl
    subst hpe
    exact ⟨g, o, h, two_le_length_of_mem hp.1.start_mem (h5.1 hne).1 hse⟩
  · obtain ⟨g, o, p, h, hp, h1, _, _, h4, h5⟩ :=
      runSearch_post (f := dfs) (by simp [searches]) initializeGrid e hfs
    have heo : e ∈ o := by
      by_contra hno
      exact hno (hp.complete hno e 1 hd.1)
    have hne : p ≠ [] := h5.2 ⟨heo, Ne.symm hse⟩
    obtain ⟨hh, hl⟩ := h4 hne
    refine ⟨g, o, p, h, hh, hl, ?_, h1, ?_, two_le_length_of_mem hp.start_mem heo hse⟩
    · exact two_le_length_of_mem (List.mem_of_mem_head? hh) (List.mem_of_mem_getLast? hl) hse
    · intro her
      subst her
      obtain ⟨g2, k1, k2⟩ := dfs_right_neighbour (gridCopy_fresh initializeGrid)
        (free_gridCopy hfs) (free_gridCopy hfe)
      rw [runSearch_eq k1 k2] at h
      cases h
      rfl

theorem adjacent_path_on_open_grid_witness :
    ((19, 38) : Cell).1 < ROWS ∧ ((19, 38) : Cell).2 < COLS ∧
    ((18, 38) : Cell).1 < ROWS ∧ ((18, 38) : Cell).2 < COLS ∧
    Adjacent (19, 38) (18, 38) ∧
    ((∀ f ∈ shortestSearches, ∃ grid' order,
      runSearch f initializeGrid (19, 38) (18, 38)
        = some (grid', order, [(19, 38), (18, 38)]) ∧ 2 ≤ order.length) ∧
    ∃ grid' order path,
      runSearch dfs initializeGrid (19, 38) (18, 38) = some (grid', order, path) ∧
      path.head? = some (19, 38) ∧ path.getLast? = some (18, 38) ∧ 2 ≤ path.length ∧
      List.Chain' Adjacent path ∧
      (((18, 38) : Cell) = (((19, 38) : Cell).1, ((19, 38) : Cell).2 + 1) →
        path = [(19, 38), (18, 38)]) ∧
      2 ≤ order.length) :=
  ⟨by decide, by decide, by decide, by decide, by decide,
    adjacent_path_on_open_grid (19, 38) (18, 38) ⟨by decide, by decide⟩
      ⟨by decide, by decide⟩ (by decide)⟩

/-! ## Paths as walks, and the loop of getPath -/

theorem getNeighbors_eq_filter (node : Cell) (grid : Grid) :
    getNeighbors node grid = (neighborCandidates node).filter (fun n => !(grid n).isWall) :=
  rfl

theorem neighborCandidates_inBounds {node c : Cell} (hn : node.1 < ROWS ∧ node.2 < COLS)
    (hc : c ∈ neighborCandidates node) : c.1 < ROWS ∧ c.2 < COLS := by
  unfold neighborCandidates at hc
  simp only [List.mem_append] at hc
  rcases hc with ((h | h) | h) | h <;> split at h <;> simp at h <;> subst h <;>
    simp only <;> omega

/-- A path of free cells that moves by single steps is a walk. -/
theorem walk_of_chain {walls : Cell → Bool} {s : Cell} :
    ∀ (l : List Cell) (a : Cell) (n : Nat), List.Chain' Adjacent (a :: l) →
      (∀ c ∈ a :: l, Free walls c) → Walk walls s a n →
      ∀ c, (a :: l).getLast? = some c → Walk walls s c (n + l.length) := by
  intro l
  induction l with
  | nil =>
    intro a n _ _ hw c hc
    have : a = c := by simpa using hc
    subst this; simpa using hw
  | cons b l ih =>
    intro a n hch hfree hw c hc
    rw [List.chain'_cons] at hch
    have hb : Free walls b := hfree b (by simp)
    have hwb : Walk walls s b (n + 1) := Walk.step hw hch.1 hb
    have := ih b (n + 1) hch.2 (fun x hx => hfree x (List.mem_cons_of_mem _ hx)) hwb c
      (by rw [List.getLast?_cons_cons] at hc; exact hc)
    have hlen : n + (b :: l).length = n + 1 + l.length := by simp; omega
    rw [hlen]; exact this

/-- The list built by the loop of `getPath` is the chain of predecessor
pointers from the cell it starts at back to a cell without predecessor. -/
theorem getPath_loop_linked (grid : Grid) :
    ∀ (fuel : Nat) (cur : Option Cell) (acc : List Cell) (r : Option Cell × List Cell),
      iterate (getPathBody grid) fuel (cur, acc) = some r →
      r.1 = none ∧ ∃ chain, r.2 = chain ++ acc ∧
        List.Chain' (fun a b => (grid b).previousNode = some a) chain ∧
        (∀ c, cur = some c → chain.getLast? = some c) ∧
        (∀ h, chain.head? = some h → (grid h).previousNode = none) ∧
        (cur = none → chain = []) := by
  intro fuel
  induction fuel with
  | zero => intro cur acc r h; simp [iterate] at h
  | succ fuel ih =>
    intro cur acc r h
    cases cur with
    | none =>
      simp only [iterate, getPathBody, Option.some.injEq] at h
      subst h
      exact ⟨rfl, [], by simp, by simp, by simp, by simp, by simp⟩
    | some c =>
      simp only [iterate, getPathBody] at h
      obtain ⟨h1, chain, h2, h3, h4, h5, h6⟩ := ih _ _ _ h
      refine ⟨h1, chain ++ [c], by rw [h2]; simp, ?_, by simp, ?_, by simp⟩
      · rw [List.chain'_append]
        refine ⟨h3, by simp, ?_⟩
        intro x hx y hy
        have hy' : c = y := by simpa using hy
        subst hy'
        cases hp : (grid c).previousNode with
        | none =>
          rw [h6 hp] at hx; simp at hx
        | some p =>
          have := h4 p hp
          have hx' : chain.getLast? = some x := by simpa using hx
          rw [this] at hx'
          cases hx'; rfl
      · intro h hh
        cases hp : (grid c).previousNode with
        | none =>
          rw [h6 hp] at hh
          have : c = h := by simpa using hh
          subst this; exact hp
        | some p =>
          have hne : chain ≠ [] := by
            intro h0
            have := h4 p hp
            rw [h0] at this; simp at this
          apply h5 h
          cases chain with
          | nil => exact absurd rfl hne
          | cons a l => simpa using hh

/-- From every visited cell the predecessor pointers lead back to the start
without repeating a cell. -/
theorem chain_of_post {walls : Cell → Bool} {s e : Cell} {grid' : Grid} {order : List Cell}
    (hp : SearchPost walls s e grid' order) {c : Cell} (hc : c ∈ order) :
    ∃ chain, iterate (getPathBody grid') (ROWS * COLS + 1) (some c, []) = some (none, chain) ∧
      chain.head? = some s ∧ chain.getLast? = some c ∧ chain.Nodup ∧
      chain.length ≤ ROWS * COLS ∧
      List.Chain' (fun a b => (grid' b).previousNode = some a) chain := by
  obtain ⟨path, h1, h2, h3, _, h5, h6, _, _, _⟩ :=
    getPath_chain grid' s order (fun c => indexIn c order) hp.start_prev hp.tree
      (indexIn c order) c (le_refl _) hc hp.start_mem
  have hnd : path.Nodup := by
    refine List.Pairwise.imp ?_ h6
    intro a b hab heq
    subst heq; exact absurd hab (lt_irrefl _)
  have hlen : path.length ≤ ROWS * COLS := by
    apply length_le_of_nodup hnd
    intro x hx
    obtain ⟨n, hw⟩ := hp.walk x (h5 x hx).1
    exact ⟨hw.free.1, hw.free.2.1⟩
  have hrun := h1 [] (ROWS * COLS + 1) (by omega)
  rw [List.append_nil] at hrun
  obtain ⟨_, chain, k2, k3, _, _, _⟩ := getPath_loop_linked grid' _ _ _ _ hrun
  have hcp : chain = path := by simpa using k2.symm
  subst hcp
  exact ⟨chain, hrun, h2, h3, hnd, hlen, k3⟩

/-! ## The pass that visits the end cell leaves the loop -/

/-- In `astar`, a pass that goes back to the loop condition has not appended
the end cell; the pass that appends it leaves the loop, having appended that
cell only and written to no other node. -/
theorem astarBody_end_exit (e : Cell) (st st' : AstarState)
    (he : e ∉ st.visitedNodesInOrder) :
    (astarBody e st = Step.next st' → e ∉ st'.visitedNodesInOrder) ∧
    (astarBody e st = Step.done st' → e ∈ st'.visitedNodesInOrder →
      st'.visitedNodesInOrder = st.visitedNodesInOrder ++ [e] ∧
      ∀ c, c ≠ e → st'.grid c = st.grid c) := by
  unfold astarBody
  split
  · refine ⟨fun h => (by cases h), fun h hin => ?_⟩
    cases h; exact absurd hin he
  · rename_i current rest _
    by_cases hw : (st.grid current).isWall = true
    · rw [if_pos hw]
      refine ⟨fun h => (by cases h; exact he), fun h => (by cases h)⟩
    · rw [if_neg hw]
      by_cases hd : (st.grid current).distance = none
      · rw [if_pos hd]
        refine ⟨fun h => (by cases h), fun h hin => ?_⟩
        cases h; exact absurd hin he
      · rw [if_neg hd]
        by_cases hc : current = e
        · dsimp only
          rw [if_pos hc]
          refine ⟨fun h => (by cases h), fun h _ => ?_⟩
          cases h
          subst hc
          exact ⟨rfl, fun c hne => Grid.set_other _ _ hne⟩
        · dsimp only
          rw [if_neg hc]
          refine ⟨fun h => ?_, fun h => by cases h⟩
          cases h
          simp only [List.mem_append, List.mem_singleton, not_or]
          exact ⟨he, fun h => hc h.symm⟩

/-- The same for `dijkstra`. -/
theorem dijkstraBody_end_exit (e : Cell) (st st' : DijkstraState)
    (he : e ∉ st.visitedNodesInOrder) :
    (dijkstraBody e st = Step.next st' → e ∉ st'.visitedNodesInOrder) ∧
    (dijkstraBody e st = Step.done st' → e ∈ st'.visitedNodesInOrder →
      st'.visitedNodesInOrder = st.visitedNodesInOrder ++ [e] ∧
      ∀ c, c ≠ e → st'.grid c = st.grid c) := by
  unfold dijkstraBody
  split
  · refine ⟨fun h => (by cases h), fun h hin => ?_⟩
    cases h; exact absurd hin he
  · rename_i current rest _
    by_cases hw : (st.grid current).isWall = true
    · rw [if_pos hw]
      refine ⟨fun h => (by cases h; exact he), fun h => (by cases h)⟩
    · rw [if_neg hw]
      by_cases hd : (st.grid current).distance = none
      · rw [if_pos hd]
        refine ⟨fun h => (by cases h), fun h hin => ?_⟩
        cases h; exact absurd hin he
      · rw [if_neg hd]
        by_cases hc : current = e
        · dsimp only
          rw [if_pos hc]
          refine ⟨fun h => (by cases h), fun h _ => ?_⟩
          cases h
          subst hc
          exact ⟨rfl, fun c hne => Grid.set_other _ _ hne⟩
        · dsimp only
          rw [if_neg hc]
          refine ⟨fun h => ?_, fun h => by cases h⟩
          cases h
          simp only [List.mem_append, List.mem_singleton, not_or]
          exact ⟨he, fun h => hc h.symm⟩

/-- The same for `bfs`, where the pass that appends the end cell writes to
no node at all. -/
theorem bfsBody_end_exit (e : Cell) (st st' : BfsState)
    (he : e ∉ st.visitedNodesInOrder) :
    (bfsBody e st = Step.next st' → e ∉ st'.visitedNodesInOrder) ∧
    (bfsBody e st = Step.done st' → e ∈ st'.visitedNodesInOrder →
      st'.visitedNodesInOrder = st.visitedNodesInOrder ++ [e] ∧
      ∀ c, c ≠ e → st'.grid c = st.grid c) := by
  unfold bfsBody
  split
  · refine ⟨fun h => (by cases h), fun h hin => ?_⟩
    cases h; exact absurd hin he
  · rename_i current rest _
    by_cases hc : current = e
    · dsimp only
      rw [if_pos hc]
      refine ⟨fun h => (by cases h), fun h _ => ?_⟩
      cases h
      subst hc
      exact ⟨rfl, fun c _ => rfl⟩
    · dsimp only
      rw [if_neg hc]
      refine ⟨fun h => ?_, fun h => by cases h⟩
      cases h
      simp only [List.mem_append, List.mem_singleton, not_or]
      exact ⟨he, fun h => hc h.symm⟩

/-- The same for `dfs`. -/
theorem dfsBody_end_exit (e : Cell) (st st' : DfsState)
    (he : e ∉ st.visitedNodesInOrder) :
    (dfsBody e st = Step.next st' → e ∉ st'.visitedNodesInOrder) ∧
    (dfsBody e st = Step.done st' → e ∈ st'.visitedNodesInOrder →
      st'.visitedNodesInOrder = st.visitedNodesInOrder ++ [e] ∧
      ∀ c, c ≠ e → st'.grid c = st.grid c) := by
  unfold dfsBody
  split
  · refine ⟨fun h => (by cases h), fun h hin => ?_⟩
    cases h; exact absurd hin he
  · rename_i current rest _
    by_cases hw : ((st.grid current).isVisited || (st.grid current).isWall) = true
    · rw [if_pos hw]
      refine ⟨fun h => (by cases h; exact he), fun h => (by cases h)⟩
    · rw [if_neg hw]
      by_cases hc : current = e
      · dsimp only
        rw [if_pos hc]
        refine ⟨fun h => (by cases h), fun h _ => ?_⟩
        cases h
        subst hc
        exact ⟨rfl, fun c hne => Grid.set_other _ _ hne⟩
      · dsimp only
        rw [if_neg hc]
        refine ⟨fun h => ?_, fun h => by cases h⟩
        cases h
        simp only [List.mem_append, List.mem_singleton, not_or]
        exact ⟨he, fun h => hc h.symm⟩

/-- In a list without repetition whose last element is `e`, nothing follows
an occurrence of `e`. -/
theorem nothing_after_last {l pre post : List Cell} {e : Cell} (hnd : l.Nodup)
    (hlast : l.getLast? = some e) (h : l = pre ++ e :: post) : post = [] ∧ e ∉ pre := by
  subst h
  rw [List.nodup_append] at hnd
  obtain ⟨_, h2, h3⟩ := hnd
  refine ⟨?_, fun hp => h3 hp (by simp)⟩
  cases post with
  | nil => rfl
  | cons x xs =>
    exfalso
    rw [List.getLast?_append, List.getLast?_cons_cons] at hlast
    have hx : (x :: xs).getLast? = some e := by
      cases hl : (x :: xs).getLast? with
      | none => simp at hl
      | some y => rw [hl] at hlast; simpa using hlast
    have := List.mem_of_getLast?_eq_some hx
    exact (List.nodup_cons.1 h2).1 this

/-! ## Neighbours, by the words of the specification -/

theorem neighborCandidates_eq_spec (row col : Nat) (hr : row < ROWS) (hc : col < COLS) :
    neighborCandidates (row, col) =
      ([((row : Int) - 1, (col : Int)), ((row : Int) + 1, (col : Int)),
        ((row : Int), (col : Int) - 1), ((row : Int), (col : Int) + 1)].filter
        (fun p => decide (0 ≤ p.1 ∧ p.1 < (ROWS : Int) ∧ 0 ≤ p.2 ∧ p.2 < (COLS : Int)))).map
        (fun p => (p.1.toNat, p.2.toNat)) := by
  have hR : ROWS = 20 := rfl
  have hC : COLS = 40 := rfl
  rw [hR] at hr
  rw [hC] at hc
  have e1 : ((row : Int) - 1).toNat = row - 1 := by omega
  have e2 : ((row : Int) + 1).toNat = row + 1 := by omega
  have e3 : ((col : Int) - 1).toNat = col - 1 := by omega
  have e4 : ((col : Int) + 1).toNat = col + 1 := by omega
  have e5 : (row : Int).toNat = row := by omega
  have e6 : (col : Int).toNat = col := by omega
  unfold neighborCandidates
  simp only [hR, hC, List.filter_cons, List.filter_nil]
  by_cases h1 : row > 0 <;> by_cases h2 : row < 20 - 1 <;> by_cases h3 : col > 0 <;>
    by_cases h4 : col < 40 - 1 <;>
    simp only [h1, h2, h3, h4, if_true, if_false] <;>
    (have d1 : decide (0 ≤ (row : Int) - 1 ∧ (row : Int) - 1 < ((20 : Nat) : Int) ∧
        0 ≤ (col : Int) ∧ (col : Int) < ((40 : Nat) : Int)) = decide (row > 0) := by
      apply decide_eq_decide.2; omega
     have d2 : decide (0 ≤ (row : Int) + 1 ∧ (row : Int) + 1 < ((20 : Nat) : Int) ∧
        0 ≤ (col : Int) ∧ (col : Int) < ((40 : Nat) : Int)) = decide (row < 20 - 1) := by
      apply decide_eq_decide.2; omega
     have d3 : decide (0 ≤ (row : Int) ∧ (row : Int) < ((20 : Nat) : Int) ∧
        0 ≤ (col : Int) - 1 ∧ (col : Int) - 1 < ((40 : Nat) : Int)) = decide (col > 0) := by
      apply decide_eq_decide.2; omega
     have d4 : decide (0 ≤ (row : Int) ∧ (row : Int) < ((20 : Nat) : Int) ∧
        0 ≤ (col : Int) + 1 ∧ (col : Int) + 1 < ((40 : Nat) : Int)) = decide (col < 40 - 1) := by
      apply decide_eq_decide.2; omega
     simp only [d1, d2, d3, d4, h1, h2, h3, h4, decide_True, decide_False, if_true, if_false,
       List.map_cons, List.map_nil, e1, e2, e3, e4, e5, e6, List.nil_append, List.cons_append,
       List.append_nil, Bool.false_eq_true])

/-- On in-bounds cells `getNeighbors` computes what the specification
describes. -/
theorem getNeighbors_eq_spec (grid : Grid) (row col : Nat) (hr : row < ROWS) (hc : col < COLS) :
    getNeighbors (row, col) grid = neighborsSpec (wallsOf grid) row col := by
  rw [getNeighbors_eq_filter, neighborCandidates_eq_spec row col hr hc]
  rfl

/-- The result of `getNeighbors` at an in-bounds cell depends on the nodes
stored at in-bounds coordinates only. -/
theorem getNeighbors_inBounds_only (grid grid' : Grid) (node : Cell)
    (hn : node.1 < ROWS ∧ node.2 < COLS)
    (h : ∀ c : Cell, c.1 < ROWS → c.2 < COLS → (grid c).isWall = (grid' c).isWall) :
    getNeighbors node grid = getNeighbors node grid' := by
  rw [getNeighbors_eq_filter, getNeighbors_eq_filter]
  apply List.filter_congr
  intro c hc
  have := neighborCandidates_inBounds hn hc
  rw [h c this.1 this.2]

/-! ## Grid states reachable by editing, and runs with an unknown algorithm -/

/-- The editing operations keep the start and end flags where
`initializeGrid` puts them, and never put a wall there. -/
theorem Reachable.flags {grid : Grid} (h : Reachable grid) :
    (grid START_NODE).isStart = true ∧ (grid END_NODE).isEnd = true ∧
    (grid START_NODE).isWall = false ∧ (grid END_NODE).isWall = false := by
  induction h with
  | init => decide
  | @toggle g v row col _ ih =>
    obtain ⟨h1, h2, h3, h4⟩ := ih
    unfold toggleWall
    by_cases hv : v = true
    · rw [if_pos hv]; exact ⟨h1, h2, h3, h4⟩
    · rw [if_neg hv]
      by_cases hf : ((g (row, col)).isStart || (g (row, col)).isEnd) = true
      · rw [if_pos hf]; exact ⟨h1, h2, h3, h4⟩
      · rw [if_neg hf]
        have hs : START_NODE ≠ (row, col) := by
          intro heq; rw [← heq, h1] at hf; simp at hf
        have he : END_NODE ≠ (row, col) := by
          intro heq; rw [← heq, h2] at hf; simp at hf
        rw [Grid.set_other _ _ hs, Grid.set_other _ _ he]
        exact ⟨h1, h2, h3, h4⟩
  | @maze g random _ ih =>
    obtain ⟨h1, h2, h3, h4⟩ := ih
    simp [generateMaze, h1, h2]
  | @clear g _ ih =>
    obtain ⟨h1, h2, h3, h4⟩ := ih
    simp [clearPath, h1, h2, h3, h4]

theorem toggleWall_of_flag (isVisualizing : Bool) (grid : Grid) (row col : Nat)
    (h : (grid (row, col)).isStart = true ∨ (grid (row, col)).isEnd = true) :
    toggleWall isVisualizing grid row col = grid := by
  unfold toggleWall
  rcases h with h | h <;> simp [h]

/-- On a fresh working copy `getPath` returns the empty path. -/
theorem getPath_gridCopy (grid : Grid) (e : Cell) : getPath (gridCopy grid) e = some [] := by
  have h : ROWS * COLS + 1 = 799 + 1 + 1 := by decide
  unfold getPath
  rw [h]
  simp [iterate, getPathBody, gridCopy, resetNode]

/-- With an algorithm string that matches no `case`, `visualize` goes on
with the empty `visitedNodesInOrder`. -/
theorem visualize_other (algorithm : String) (grid : Grid) (h1 : algorithm ≠ "astar")
    (h2 : algorithm ≠ "dijkstra") (h3 : algorithm ≠ "bfs") (h4 : algorithm ≠ "dfs") :
    visualize algorithm grid = some ⟨clearPath grid, gridCopy grid, [], []⟩ := by
  unfold visualize
  simp only [if_neg h1, if_neg h2, if_neg h3, if_neg h4, Option.some_bind, getPath_gridCopy,
    Option.map_some']

/-! ## Depth-first search: which predecessor pointer survives -/

/-- The predecessor pointers after the `for` loop of `dfs`. -/
theorem dfs_expand_prev {walls : Cell → Bool} {s e : Cell} {st : DfsState}
    (hI : DfsInv walls s e st) {u : Cell} {rest : List Cell} (hq : st.stack = u :: rest)
    (c : Cell) :
    ((((getNeighbors u (st.grid.set u { st.grid u with isVisited := true })).foldl
          (dfsPush u) (st.grid.set u { st.grid u with isVisited := true }, rest)).1) c
        ).previousNode =
      if Adjacent u c ∧ Free walls c ∧ c ∉ st.visitedNodesInOrder then some u
      else (st.grid c).previousNode := by
  have hu_stack : u ∈ st.stack := by rw [hq]; simp
  obtain ⟨nu, hwu⟩ := hI.reach u (Or.inr hu_stack)
  have hub : u.1 < ROWS ∧ u.2 < COLS := ⟨hwu.free.1, hwu.free.2.1⟩
  have hnbeq : getNeighbors u (st.grid.set u { st.grid u with isVisited := true }) =
      getNeighbors u st.grid := getNeighbors_congr (visit_isWall st.grid u) u
  have hnb : c ∈ getNeighbors u st.grid ↔ Adjacent u c ∧ Free walls c := by
    rw [mem_getNeighbors_iff hub, wallsOf_eq hI.wallsEq]
  have hvis : ((st.grid.set u { st.grid u with isVisited := true }) c).isVisited = false ↔
      ¬ (c ∈ st.visitedNodesInOrder ∨ c = u) := by
    rw [← hI.vis_iff c, ← visit_isVisited]; simp
  rw [hnbeq, foldl_dfsPush u _ _ _ (getNeighbors_nodup u st.grid)]
  dsimp only
  by_cases hc : Adjacent u c ∧ Free walls c ∧ c ∉ st.visitedNodesInOrder
  · rw [if_pos hc, if_pos]
    refine ⟨hnb.2 ⟨hc.1, hc.2.1⟩, hvis.2 ?_⟩
    rintro (h | h)
    · exact hc.2.2 h
    · exact hc.1.ne h.symm
  · rw [if_neg hc, if_neg, visit_previousNode]
    rintro ⟨h1, h2⟩
    have h1' := hnb.1 h1
    have h2' := hvis.1 h2
    exact hc ⟨h1'.1, h1'.2, fun h => h2' (Or.inl h)⟩

/-- Appending a cell to the visitation order keeps the pointers of the
visited cells the latest ones. -/
theorem LatestPredecessors.latest_snoc {walls : Cell → Bool} {grid grid' : Grid} {s u : Cell}
    {order : List Cell} (hv : LatestPredecessors grid s order)
    (hp : PendingPredecessors walls grid order) (hu : u ∉ order) (hfu : Free walls u)
    (hpred : u ≠ s → ∃ p, p ∈ order ∧ Adjacent p u)
    (hsame : ∀ c, c ∈ order ∨ c = u → (grid' c).previousNode = (grid c).previousNode) :
    LatestPredecessors grid' s (order ++ [u]) := by
  intro c hc0 hcs
  rcases List.mem_append.1 hc0 with hc | hc
  · obtain ⟨p, h1, h2, h3, h4, h5⟩ := hv c hc hcs
    have hcl : indexIn c order < order.length := indexIn_lt_length hc
    refine ⟨p, by rw [hsame c (Or.inl hc)]; exact h1, List.mem_append_left _ h2, ?_, h4, ?_⟩
    · rw [indexIn_append_of_mem h2, indexIn_append_of_mem hc]; exact h3
    · intro q hq0 hadj hlt
      rw [indexIn_append_of_mem hc] at hlt
      rcases List.mem_append.1 hq0 with hq | hq
      · rw [indexIn_append_of_mem hq] at hlt ⊢
        rw [indexIn_append_of_mem h2]
        exact h5 q hq hadj hlt
      · have hqu : q = u := by simpa using hq
        rw [hqu, indexIn_snoc_of_not_mem hu] at hlt
        exact absurd hlt (by omega)
  · have hcu : c = u := by simpa using hc
    subst hcu
    obtain ⟨q0, hq0, hadj0⟩ := hpred hcs
    obtain ⟨p, h1, h2, h3, _⟩ := hp c hu hfu q0 hq0 hadj0
    refine ⟨p, by rw [hsame c (Or.inr rfl)]; exact h1, List.mem_append_left _ h2, ?_, h3, ?_⟩
    · rw [indexIn_append_of_mem h2, indexIn_snoc_of_not_mem hu]
      exact indexIn_lt_length h2
    · intro q hq1 hadj _
      rcases List.mem_append.1 hq1 with hq | hq
      · obtain ⟨p', k1, k2, _, k4⟩ := hp c hu hfu q hq hadj
        rw [h1] at k1
        cases k1
        rw [indexIn_append_of_mem hq, indexIn_append_of_mem h2]
        exact k4
      · have hqc : q = c := by simpa using hq
        exact absurd hqc hadj.ne

/-- Expanding a cell makes it the predecessor of its unvisited free
neighbours and leaves the other pending pointers alone. -/
theorem PendingPredecessors.pending_snoc {walls : Cell → Bool} {grid grid' : Grid} {u : Cell}
    {order : List Cell} (hp : PendingPredecessors walls grid order) (hu : u ∉ order)
    (hprev : ∀ c, (grid' c).previousNode =
      if Adjacent u c ∧ Free walls c ∧ c ∉ order then some u else (grid c).previousNode) :
    PendingPredecessors walls grid' (order ++ [u]) := by
  intro c hc hfc q hq hadj
  have hc1 : c ∉ order := fun h => hc (List.mem_append_left _ h)
  have hqle : indexIn q (order ++ [u]) ≤ order.length := by
    rcases List.mem_append.1 hq with hq | hq
    · rw [indexIn_append_of_mem hq]; exact (indexIn_lt_length hq).le
    · have : q = u := by simpa using hq
      subst this
      rw [indexIn_snoc_of_not_mem hu]
  by_cases hau : Adjacent u c
  · refine ⟨u, by rw [hprev c, if_pos ⟨hau, hfc, hc1⟩], by simp, hau, ?_⟩
    rw [indexIn_snoc_of_not_mem hu]; exact hqle
  · have hq1 : q ∈ order := by
      rcases List.mem_append.1 hq with hq | hq
      · exact hq
      · have : q = u := by simpa using hq
        subst this; exact absurd hadj hau
    obtain ⟨p, h1, h2, h3, h4⟩ := hp c hc1 hfc q hq1 hadj
    refine ⟨p, ?_, List.mem_append_left _ h2, h3, ?_⟩
    · rw [hprev c, if_neg (fun h => hau h.1)]; exact h1
    · rw [indexIn_append_of_mem hq1, indexIn_append_of_mem h2]; exact h4

/-- No pass of the loop of `dfs` writes the predecessor pointer of a cell
that is marked visited when the pass ends: the pointer a cell has when it is
popped is final. -/
theorem dfsBody_previousNode_visited (e : Cell) (st : DfsState) (c : Cell)
    (hv : ((dfsBody e st).state.grid c).isVisited = true) :
    ((dfsBody e st).state.grid c).previousNode = (st.grid c).previousNode := by
  unfold dfsBody at hv ⊢
  split
  · rfl
  · rename_i u rest hq
    simp only [hq] at hv
    by_cases hskip : ((st.grid u).isVisited || (st.grid u).isWall) = true
    · rw [if_pos hskip]; rfl
    · rw [if_neg hskip] at hv ⊢
      dsimp only at hv ⊢
      by_cases hue : u = e
      · rw [if_pos hue]
        exact visit_previousNode st.grid u c
      · rw [if_neg hue] at hv ⊢
        simp only [Step.state] at hv ⊢
        rw [foldl_dfsPush u _ _ _ (getNeighbors_nodup u _)] at hv ⊢
        dsimp only at hv ⊢
        split at hv
        · rename_i h
          rw [if_pos h]
          have h2 := h.2
          dsimp only at hv
          rw [h2] at hv
          cases hv
        · rename_i h
          rw [if_neg h]
          exact visit_previousNode st.grid u c

/-- A pass of the loop of `dfs` that goes on keeps the invariants and lowers
the measure `stack.length + 4 * (ROWS * COLS - visitedNodesInOrder.length)`. -/
theorem dfs_latest_next {walls : Cell → Bool} {s e : Cell} (st st' : DfsState)
    (h : DfsInv walls s e st ∧ LatestPredecessors st.grid s st.visitedNodesInOrder ∧
      PendingPredecessors walls st.grid st.visitedNodesInOrder)
    (hb : dfsBody e st = Step.next st') :
    (DfsInv walls s e st' ∧ LatestPredecessors st'.grid s st'.visitedNodesInOrder ∧
      PendingPredecessors walls st'.grid st'.visitedNodesInOrder) ∧
      st'.stack.length + 4 * (ROWS * COLS - st'.visitedNodesInOrder.length) <
        st.stack.length + 4 * (ROWS * COLS - st.visitedNodesInOrder.length) := by
  obtain ⟨hI, hL, hP⟩ := h
  unfold dfsBody at hb
  split at hb
  · cases hb
  · rename_i u rest hq
    split at hb
    · rename_i hskip
      injection hb with hb
      subst hb
      refine ⟨⟨dfs_skip hI hq hskip, hL, hP⟩, ?_⟩
      dsimp only
      rw [hq]; simp
    · rename_i hskip
      dsimp only at hb
      split at hb
      · cases hb
      · rename_i hue
        obtain ⟨hI', hlen⟩ := dfs_expand hI hq hskip hue
        have hol := hI'.dfs_order_length
        have hu_stack : u ∈ st.stack := by rw [hq]; simp
        have hu_not : u ∉ st.visitedNodesInOrder := by
          intro h
          apply hskip
          rw [(hI.vis_iff u).2 h]; rfl
        obtain ⟨nu, hwu⟩ := hI.reach u (Or.inr hu_stack)
        have hprev := dfs_expand_prev hI hq
        injection hb with hb
        subst hb
        refine ⟨⟨hI', ?_, ?_⟩, ?_⟩
        · refine hL.latest_snoc hP hu_not hwu.free ?_ ?_
          · intro hus
            obtain ⟨p, _, h2, h3⟩ := hI.stack_pred u hu_stack hu_not hus
            exact ⟨p, h2, h3⟩
          · intro c hc
            dsimp only
            rw [hprev c, if_neg]
            rintro ⟨h1, _, h3⟩
            rcases hc with hc | hc
            · exact h3 hc
            · exact h1.ne hc.symm
        · exact hP.pending_snoc hu_not hprev
        · dsimp only at hol hlen ⊢
          rw [hq]
          simp only [List.length_append, List.length_singleton, List.length_cons,
            List.length_nil] at hol hlen ⊢
          omega

/-- `dfs` on a fresh working copy with a non-wall start returns, and every
visited cell points to the latest of the cells visited before it next to it. -/
theorem dfs_spec_latest {grid : Grid} {s : Cell} (e : Cell) (hf : Fresh grid)
    (hs : Free (wallsOf grid) s) :
    ∃ grid' order, dfs grid s e = some (grid', order) ∧
      SearchPost (wallsOf grid) s e grid' order ∧ LatestPredecessors grid' s order := by
  have key := iterate_spec (dfsBody e)
    (fun st => DfsInv (wallsOf grid) s e st ∧
      LatestPredecessors st.grid s st.visitedNodesInOrder ∧
      PendingPredecessors (wallsOf grid) st.grid st.visitedNodesInOrder)
    (fun st => SearchPost (wallsOf grid) s e st.grid st.visitedNodesInOrder ∧
      LatestPredecessors st.grid s st.visitedNodesInOrder)
    (fun st => st.stack.length + 4 * (ROWS * COLS - st.visitedNodesInOrder.length))
    dfs_latest_next
    (by
      rintro st st' ⟨hI, hL, hP⟩ hb
      unfold dfsBody at hb
      split at hb
      · rename_i hq
        injection hb with hb
        subst hb
        exact ⟨dfs_done_empty hI hq, hL⟩
      · rename_i u rest hq
        split at hb
        · cases hb
        · rename_i hskip
          dsimp only at hb
          split at hb
          · rename_i hue
            injection hb with hb
            subst hb
            subst hue
            have hu_stack : u ∈ st.stack := by rw [hq]; simp
            obtain ⟨nu, hwu⟩ := hI.reach u (Or.inr hu_stack)
            refine ⟨dfs_done_end hI hq, ?_⟩
            refine hL.latest_snoc hP hI.end_not hwu.free ?_ ?_
            · intro hus
              obtain ⟨p, _, h2, h3⟩ := hI.stack_pred u hu_stack hI.end_not hus
              exact ⟨p, h2, h3⟩
            · intro c _
              exact visit_previousNode st.grid u c
          · cases hb)
    (4 * (ROWS * COLS) + 2) _
    ⟨dfs_init e hf hs, by intro c hc; simp at hc, by intro c _ _ q hq; simp at hq⟩
    (by
      dsimp only
      simp only [List.length_singleton, List.length_nil, Nat.sub_zero]
      omega)
  obtain ⟨r, h1, h2⟩ := key
  refine ⟨r.grid, r.visitedNodesInOrder, ?_, h2⟩
  unfold dfs
  rw [h1]; rfl

/-! ## Dijkstra: the visitation order goes level by level -/

theorem Mono.mono_snoc {grid g' : Grid} {order : List Cell} {u : Cell} {d : Nat}
    (hM : Mono grid order) (hu : u ∉ order) (hd : (grid u).distance = some d)
    (hsame : ∀ c, c ∈ order ∨ c = u → (g' c).distance = (grid c).distance)
    (hge : ∀ c k, c ∉ order → c ≠ u → (g' c).distance = some k → d ≤ k) :
    Mono g' (order ++ [u]) := by
  have hcost : ∀ c, c ∈ order ∨ c = u → costOf g' c = costOf grid c := by
    intro c hc; unfold costOf; rw [hsame c hc]
  have hcu : costOf grid u = d := costOf_eq hd
  constructor
  · rw [List.pairwise_append]
    refine ⟨?_, by simp, ?_⟩
    · refine List.Pairwise.imp_of_mem ?_ hM.pw
      intro a b ha hb hab
      rw [hcost a (Or.inl ha), hcost b (Or.inl hb)]; exact hab
    · intro a ha b hb
      have hbu : b = u := by simpa using hb
      rw [hbu, hcost a (Or.inl ha), hcost u (Or.inr rfl), hcu]
      exact hM.below a ha u d hu hd
  · intro a ha c k hc hk
    have hc1 : c ∉ order := fun h => hc (List.mem_append_left _ h)
    have hc2 : c ≠ u := fun h => hc (by simp [h])
    have hdk := hge c k hc1 hc2 hk
    rcases List.mem_append.1 ha with ha | ha
    · rw [hcost a (Or.inl ha)]
      exact le_trans (hM.below a ha u d hu hd) hdk
    · have hau : a = u := by simpa using ha
      rw [hau, hcost u (Or.inr rfl), hcu]; exact hdk

/-- What the invariants give once the loop of `dijkstra` is left. -/
theorem levelOrder_of_mono {walls : Cell → Bool} {s : Cell} {grid : Grid} {order : List Cell}
    (hM : Mono grid order)
    (hdist : ∀ c ∈ order, ∃ k, (grid c).distance = some k ∧ IsShortest walls s c k) :
    LevelOrder walls s grid order := by
  refine ⟨hdist, List.Pairwise.imp_of_mem ?_ hM.pw⟩
  intro a b ha hb hab
  obtain ⟨ka, h1, _⟩ := hdist a ha
  obtain ⟨kb, h2, _⟩ := hdist b hb
  rw [costOf_eq h1, costOf_eq h2] at hab
  exact ⟨ka, kb, h1, h2, hab⟩

theorem CostInv.shortest {walls : Cell → Bool} {s e : Cell} {grid : Grid} {order : List Cell}
    (hC : CostInv walls s e grid order) :
    ∀ c ∈ order, ∃ k, (grid c).distance = some k ∧ IsShortest walls s c k := by
  intro c hc
  obtain ⟨k, hk⟩ := hC.closed_disc c hc
  exact ⟨k, hk, hC.walk c k hk, fun n hw => hC.optimal c hc k n hk hw⟩

/-- The cell taken from the sorted array has the least recorded distance
among the cells not yet visited. -/
theorem DijkstraInv.head_least {walls : Cell → Bool} {s e : Cell} {st : DijkstraState}
    (hI : DijkstraInv walls s e st) {u : Cell} {rest : List Cell}
    (hq : stableSort (fun a b => numLe (st.grid a).distance (st.grid b).distance)
      st.unvisitedNodes = u :: rest) {d : Nat} (hd : (st.grid u).distance = some d) :
    ∀ c k, c ∉ st.visitedNodesInOrder → (st.grid c).distance = some k → d ≤ k := by
  intro c k hc hk
  have hmin := stableSort_head_le (fun a b => numLe (st.grid a).distance (st.grid b).distance)
    (fun a b => numLe_total _ _) (fun a b c => numLe_trans _ _ _) hq
  have hfree := (hI.cost.walk c k hk).free
  rcases hI.free_mem c hfree with h | h
  · exact absurd h hc
  · have := hmin c h
    dsimp only at this
    rw [hd, hk] at this
    simpa [numLe] using this

/-- A pass of the loop of `dijkstra` that goes on keeps the invariants and
shortens the array of unvisited nodes. -/
theorem dijkstra_levels_next {walls : Cell → Bool} {s e : Cell} (st st' : DijkstraState)
    (h : DijkstraInv walls s e st ∧ Mono st.grid st.visitedNodesInOrder)
    (hb : dijkstraBody e st = Step.next st') :
    (DijkstraInv walls s e st' ∧ Mono st'.grid st'.visitedNodesInOrder) ∧
      st'.unvisitedNodes.length < st.unvisitedNodes.length := by
  obtain ⟨hI, hM⟩ := h
  unfold dijkstraBody at hb
  split at hb
  · cases hb
  · rename_i u rest hq
    obtain ⟨hperm, hu_not, hnd', hzero, hnone, hopt⟩ := hI.dijkstra_head hq
    have hleast := fun d hd => hI.head_least hq (d := d) hd
    have hlen : st.unvisitedNodes.length = rest.length + 1 := by
      rw [hperm.length_eq]; simp
    have hmem : ∀ c, c ∈ st.unvisitedNodes ↔ c = u ∨ c ∈ rest := by
      intro c; rw [hperm.mem_iff]; simp
    split at hb
    · rename_i hwall
      injection hb with hb
      subst hb
      refine ⟨⟨{ cost := hI.cost, nodup := hnd', free_mem := ?_ }, hM⟩,
        by dsimp only; omega⟩
      intro c hc
      rcases hI.free_mem c hc with h | h
      · exact Or.inl h
      · rcases (hmem c).1 h with h | h
        · subst h
          have := hc.2.2
          rw [← hI.cost.wallsEq c, hwall] at this
          cases this
        · exact Or.inr h
    · split at hb
      · cases hb
      · rename_i hwall hdist
        dsimp only at hb
        split at hb
        · cases hb
        · rename_i hue
          injection hb with hb
          subst hb
          obtain ⟨d, hd⟩ : ∃ d, (st.grid u).distance = some d := by
            cases h : (st.grid u).distance with
            | none => exact absurd h hdist
            | some d => exact ⟨d, rfl⟩
          have hfu : Free (walls) u := (hI.cost.walk u d hd).free
          have hub : u.1 < ROWS ∧ u.2 < COLS := ⟨hfu.1, hfu.2.1⟩
          have hnbeq : getNeighbors u
              (st.grid.set u { st.grid u with isVisited := true }) =
              getNeighbors u st.grid := getNeighbors_congr (visit_isWall st.grid u) u
          have hu_nb : u ∉ getNeighbors u st.grid := by
            intro h
            exact ((mem_getNeighbors_iff hub).1 h).1.ne rfl
          have hd1 : ((st.grid.set u { st.grid u with isVisited := true }) u).distance
              = some d := by simpa using hd
          rw [hnbeq, foldl_dijkstraRelax u d _ _ (getNeighbors_nodup u st.grid) hu_nb hd1]
          have hrel := relaxed_of_closed_form st.grid u d (getNeighbors u st.grid)
          obtain ⟨hC', hR⟩ := cost_expand hI.cost hu_not hd (hopt d hd) hue hrel
          refine ⟨⟨{ cost := hC', nodup := ?_, free_mem := ?_ }, ?_⟩,
            by dsimp only; omega⟩
          · dsimp only
            have hnd : (st.visitedNodesInOrder ++ u :: rest).Nodup :=
              (List.Perm.nodup_iff (List.Perm.append_left _ hperm)).1 hI.nodup
            simpa using hnd
          · intro c hc
            dsimp only
            rcases hI.free_mem c hc with h | h
            · exact Or.inl (List.mem_append_left _ h)
            · rcases (hmem c).1 h with h | h
              · left; simp [h]
              · exact Or.inr h
          · dsimp only
            refine hM.mono_snoc hu_not hd ?_ ?_
            · intro c hc
              refine (hrel.miss c ?_).1
              intro hRc
              have := hR c hRc
              rcases hc with hc | hc
              · exact this.1 hc
              · exact this.2 hc
            · intro c k hc1 _ hk
              by_cases hRc : c ∈ getNeighbors u st.grid ∧
                  numLt (some (d + 1)) (st.grid c).distance = true
              · have := (hrel.hit c hRc).1
                rw [this] at hk
                cases hk; omega
              · have := (hrel.miss c hRc).1
                rw [this] at hk
                exact hleast d hd c k hc1 hk

/-- `dijkstra` on a fresh working copy with a non-wall start returns; the
distances it leaves on the visited cells are their shortest distances, and the
visitation order goes by non-decreasing distance. -/
theorem dijkstra_spec_levels {grid : Grid} {s : Cell} (e : Cell) (hf : Fresh grid)
    (hs : Free (wallsOf grid) s) :
    ∃ grid' order, dijkstra grid s e = some (grid', order) ∧
      LevelOrder (wallsOf grid) s grid' order := by
  have key := iterate_spec (dijkstraBody e)
    (fun st => DijkstraInv (wallsOf grid) s e st ∧ Mono st.grid st.visitedNodesInOrder)
    (fun st => LevelOrder (wallsOf grid) s st.grid st.visitedNodesInOrder)
    (fun st => st.unvisitedNodes.length)
    dijkstra_levels_next
    (by
      rintro st st' ⟨hI, hM⟩ hb
      unfold dijkstraBody at hb
      split at hb
      · injection hb with hb
        subst hb
        exact levelOrder_of_mono hM hI.cost.shortest
      · rename_i u rest hq
        obtain ⟨hperm, hu_not, hnd', hzero, hnone, hopt⟩ := hI.dijkstra_head hq
        have hleast := fun d hd => hI.head_least hq (d := d) hd
        split at hb
        · cases hb
        · split at hb
          · injection hb with hb
            subst hb
            exact levelOrder_of_mono hM hI.cost.shortest
          · rename_i hwall hdist
            dsimp only at hb
            split at hb
            · rename_i hue
              injection hb with hb
              subst hb
              subst hue
              obtain ⟨d, hd⟩ : ∃ d, (st.grid u).distance = some d := by
                cases h : (st.grid u).distance with
                | none => exact absurd h hdist
                | some d => exact ⟨d, rfl⟩
              dsimp only
              refine levelOrder_of_mono
                (hM.mono_snoc hu_not hd (fun c _ => visit_distance st.grid u c) ?_) ?_
              · intro c k hc1 _ hk
                rw [visit_distance] at hk
                exact hleast d hd c k hc1 hk
              · intro c hc
                rw [visit_distance]
                rcases List.mem_append.1 hc with hc | hc
                · exact hI.cost.shortest c hc
                · have hcu : c = u := by simpa using hc
                  rw [hcu]
                  exact ⟨d, hd, hI.cost.walk u d hd, hopt d hd⟩
            · cases hb)
    (ROWS * COLS + 1) _
    ⟨dijkstra_init e hf hs, ⟨by simp, by intro a ha; simp at ha⟩⟩
    (by dsimp only; rw [flat_length]; omega)
  obtain ⟨r, h1, h2⟩ := key
  refine ⟨r.grid, r.visitedNodesInOrder, ?_, h2⟩
  unfold dijkstra
  rw [h1]; rfl

/-! ## Counting the passes through the main loops -/

/-- A loop that keeps an invariant and lowers a measure at each pass that goes
on makes at most as many passes as the measure allows. -/
theorem countPasses_spec {σ : Type} (cond : σ → Bool) (body : σ → Step σ) (Inv : σ → Prop)
    (μ : σ → Nat)
    (hnext : ∀ s s', Inv s → body s = Step.next s' → Inv s' ∧ μ s' < μ s)
    (hdone : ∀ s s', Inv s → body s = Step.done s' → cond s = true → 1 ≤ μ s) :
    ∀ fuel s, Inv s → μ s < fuel → ∃ k, countPasses cond body fuel s = some k ∧ k ≤ μ s := by
  intro fuel
  induction fuel with
  | zero => intro s _ h; omega
  | succ fuel ih =>
    intro s hs hμ
    unfold countPasses
    cases hb : body s with
    | done s' =>
      by_cases hc : cond s = true
      · exact ⟨1, by simp [hc], hdone s s' hs hb hc⟩
      · exact ⟨0, by simp [hc], Nat.zero_le _⟩
    | next s' =>
      obtain ⟨h1, h2⟩ := hnext s s' hs hb
      obtain ⟨k, hk, hle⟩ := ih s' h1 (by omega)
      exact ⟨k + 1, by simp [hk], by omega⟩

theorem iterate_advance {σ : Type} (body : σ → Step σ) :
    ∀ (n : Nat) (s s' : σ) (fuel : Nat), advance body n s = some s' →
      iterate body (n + fuel) s = iterate body fuel s' := by
  intro n
  induction n with
  | zero =>
    intro s s' fuel h
    simp only [advance, Option.some.injEq] at h
    subst h; simp
  | succ n ih =>
    intro s s' fuel h
    have hf : n + 1 + fuel = (n + fuel) + 1 := by omega
    rw [hf]
    unfold advance at h
    cases hb : body s with
    | done t => rw [hb] at h; cases h
    | next t =>
      rw [hb] at h
      rw [iterate, hb]
      exact ih t s' fuel h

theorem countPasses_advance {σ : Type} (cond : σ → Bool) (body : σ → Step σ) :
    ∀ (n : Nat) (s s' : σ) (fuel : Nat), advance body n s = some s' →
      countPasses cond body (n + fuel) s =
        (countPasses cond body fuel s').map (fun k => k + n) := by
  intro n
  induction n with
  | zero =>
    intro s s' fuel h
    simp only [advance, Option.some.injEq] at h
    subst h; simp
  | succ n ih =>
    intro s s' fuel h
    have hf : n + 1 + fuel = (n + fuel) + 1 := by omega
    rw [hf]
    unfold advance at h
    cases hb : body s with
    | done t => rw [hb] at h; cases h
    | next t =>
      rw [hb] at h
      rw [countPasses, hb]
      dsimp only
      rw [ih t s' fuel h, Option.map_map]
      rfl

theorem post_length_le {walls : Cell → Bool} {s e : Cell} {grid' : Grid} {order : List Cell}
    (hp : SearchPost walls s e grid' order) : order.length ≤ ROWS * COLS := by
  apply length_le_of_nodup hp.nodup
  intro c hc
  obtain ⟨n, hw⟩ := hp.walk c hc
  exact ⟨hw.free.1, hw.free.2.1⟩

/-- The loop of `bfs` makes at most `ROWS * COLS` passes. -/
theorem bfs_passes_le {grid : Grid} {s : Cell} (e : Cell) (hf : Fresh grid)
    (hs : Free (wallsOf grid) s) :
    ∃ k, bfsPasses grid s e = some k ∧ k ≤ ROWS * COLS := by
  have key := countPasses_spec (fun st : BfsState => !st.queue.isEmpty) (bfsBody e)
    (fun st => ∃ lv, BfsInv (wallsOf grid) s e lv st)
    (fun st => ROWS * COLS - st.visitedNodesInOrder.length)
    (by
      rintro st st' ⟨lv, hI⟩ hb
      unfold bfsBody at hb
      split at hb
      · cases hb
      · rename_i u rest hq
        dsimp only at hb
        split at hb
        · cases hb
        · rename_i hue
          obtain ⟨lv', hI'⟩ := bfs_expand hI hq hue
          have hlen := hI'.bfs_order_length
          injection hb with hb
          subst hb
          refine ⟨⟨lv', hI'⟩, ?_⟩
          dsimp only at hlen ⊢
          simp only [List.length_append, List.length_singleton] at hlen ⊢
          omega)
    (by
      rintro st st' ⟨lv, hI⟩ hb hc
      dsimp only at hc ⊢
      unfold bfsBody at hb
      split at hb
      · rename_i hq
        rw [hq] at hc; simp at hc
      · rename_i u rest hq
        dsimp only at hb
        split at hb
        · rename_i hue
          subst hue
          have := post_length_le (bfs_done_end hI hq).1
          simp only [List.length_append, List.length_singleton] at this
          omega
        · cases hb)
    (ROWS * COLS + 1) _ ⟨_, bfs_init e hf hs⟩ (by dsimp only; simp)
  obtain ⟨k, h1, h2⟩ := key
  exact ⟨k, h1, by simpa using h2⟩

/-- The loop of `astar` makes at most `ROWS * COLS` passes. -/
theorem astar_passes_le {grid : Grid} {s : Cell} (e : Cell) (hf : Fresh grid)
    (hs : Free (wallsOf grid) s) :
    ∃ k, astarPasses grid s e = some k ∧ k ≤ ROWS * COLS := by
  have key := countPasses_spec (fun st : AstarState => !st.openSet.isEmpty) (astarBody e)
    (fun st => AstarInv (wallsOf grid) s e st)
    (fun st => ROWS * COLS - st.visitedNodesInOrder.length)
    (by
      intro st st' hI hb
      unfold astarBody at hb
      split at hb
      · cases hb
      · rename_i u rest hq
        obtain ⟨hperm, hsf, hu_not, d, hd, hfu, hopt⟩ := hI.astar_head hq
        have hw : (st.grid u).isWall = false := by rw [hI.cost.wallsEq]; exact hfu.2.2
        rw [if_neg (by simp [hw]), if_neg (by simp [hd])] at hb
        dsimp only at hb
        split at hb
        · cases hb
        · rename_i hue
          have hI' := astar_expand hI hq hue
          have hlen := hI'.cost.cost_order_length
          injection hb with hb
          subst hb
          refine ⟨hI', ?_⟩
          dsimp only at hlen ⊢
          simp only [List.length_append, List.length_singleton] at hlen ⊢
          omega)
    (by
      intro st st' hI hb hc
      dsimp only at hc ⊢
      unfold astarBody at hb
      split at hb
      · rename_i hq
        have hperm := stableSort_perm
          (fun a b => numLe (fScore st.grid e a) (fScore st.grid e b)) st.openSet
        rw [hq] at hperm
        have hopen : st.openSet = [] := List.Perm.eq_nil hperm.symm
        rw [hopen] at hc; simp at hc
      · rename_i u rest hq
        obtain ⟨hperm, hsf, hu_not, d, hd, hfu, hopt⟩ := hI.astar_head hq
        have hw : (st.grid u).isWall = false := by rw [hI.cost.wallsEq]; exact hfu.2.2
        rw [if_neg (by simp [hw]), if_neg (by simp [hd])] at hb
        dsimp only at hb
        split at hb
        · rename_i hue
          subst hue
          have := post_length_le (cost_done_end hI.cost hsf hd hopt).1
          simp only [List.length_append, List.length_singleton] at this
          omega
        · cases hb)
    (ROWS * COLS + 1) _ (astar_init e hf hs) (by dsimp only; simp)
  obtain ⟨k, h1, h2⟩ := key
  exact ⟨k, h1, by simpa using h2⟩

/-- The loop of `dijkstra` makes at most `ROWS * COLS` passes. -/
theorem dijkstra_passes_le {grid : Grid} {s : Cell} (e : Cell) (hf : Fresh grid)
    (hs : Free (wallsOf grid) s) :
    ∃ k, dijkstraPasses grid s e = some k ∧ k ≤ ROWS * COLS := by
  have key := countPasses_spec (fun st : DijkstraState => !st.unvisitedNodes.isEmpty)
    (dijkstraBody e)
    (fun st => DijkstraInv (wallsOf grid) s e st ∧ Mono st.grid st.visitedNodesInOrder)
    (fun st => st.unvisitedNodes.length)
    dijkstra_levels_next
    (by
      intro st st' _ _ hc
      dsimp only at hc ⊢
      cases h : st.unvisitedNodes with
      | nil => rw [h] at hc; simp at hc
      | cons a l => simp)
    (ROWS * COLS + 1) _
    ⟨dijkstra_init e hf hs, ⟨by simp, by intro a ha; simp at ha⟩⟩
    (by dsimp only; rw [flat_length]; omega)
  obtain ⟨k, h1, h2⟩ := key
  refine ⟨k, h1, ?_⟩
  dsimp only at h2
  rw [flat_length] at h2
  exact h2

/-- The loop of `dfs` makes at most `4 * (ROWS * COLS) + 1` passes. -/
theorem dfs_passes_le {grid : Grid} {s : Cell} (e : Cell) (hf : Fresh grid)
    (hs : Free (wallsOf grid) s) :
    ∃ k, dfsPasses grid s e = some k ∧ k ≤ 4 * (ROWS * COLS) + 1 := by
  have key := countPasses_spec (fun st : DfsState => !st.stack.isEmpty) (dfsBody e)
    (fun st => DfsInv (wallsOf grid) s e st ∧
      LatestPredecessors st.grid s st.visitedNodesInOrder ∧
      PendingPredecessors (wallsOf grid) st.grid st.visitedNodesInOrder)
    (fun st => st.stack.length + 4 * (ROWS * COLS - st.visitedNodesInOrder.length))
    dfs_latest_next
    (by
      intro st st' _ _ hc
      dsimp only at hc ⊢
      cases h : st.stack with
      | nil => rw [h] at hc; simp at hc
      | cons a l => simp only [List.length_cons]; omega)
    (4 * (ROWS * COLS) + 2) _
    ⟨dfs_init e hf hs, by intro c hc; simp at hc, by intro c _ _ q hq; simp at hq⟩
    (by
      dsimp only
      simp only [List.length_singleton, List.length_nil, Nat.sub_zero]
      omega)
  obtain ⟨k, h1, h2⟩ := key
  refine ⟨k, h1, ?_⟩
  dsimp only at h2
  simp only [List.length_singleton, List.length_nil, Nat.sub_zero] at h2
  omega

/-! ## Depth-first search pops more often than there are cells -/

theorem dfsBody_nil (e : Cell) {st : DfsState} (hq : st.stack = []) :
    dfsBody e st = Step.done st := by
  unfold dfsBody
  split
  · rfl
  · rename_i h; rw [hq] at h; cases h

theorem dfsBody_skip (e : Cell) {st : DfsState} {u : Cell} {rest : List Cell}
    (hq : st.stack = u :: rest)
    (hskip : ((st.grid u).isVisited || (st.grid u).isWall) = true) :
    dfsBody e st = Step.next { st with stack := rest } := by
  unfold dfsBody
  split
  · rename_i h; rw [hq] at h; cases h
  · rename_i h
    rw [hq] at h
    cases h
    rw [if_pos hskip]

theorem dfsBody_end {e : Cell} {st : DfsState} {rest : List Cell}
    (hq : st.stack = e :: rest)
    (hskip : ¬ ((st.grid e).isVisited || (st.grid e).isWall) = true) :
    dfsBody e st = Step.done ⟨st.grid.set e { st.grid e with isVisited := true }, rest,
      st.visitedNodesInOrder ++ [e]⟩ := by
  unfold dfsBody
  split
  · rename_i h; rw [hq] at h; cases h
  · rename_i h
    rw [hq] at h
    cases h
    rw [if_neg hskip]
    simp

theorem dfsBody_expand {e : Cell} {st : DfsState} {u : Cell} {rest : List Cell}
    (hq : st.stack = u :: rest)
    (hskip : ¬ ((st.grid u).isVisited || (st.grid u).isWall) = true) (hue : u ≠ e) :
    ∃ (g' : Grid) (pushed : List Cell),
      dfsBody e st = Step.next ⟨g', pushed ++ rest, st.visitedNodesInOrder ++ [u]⟩ ∧
      (∀ c, (g' c).isVisited = true ↔ ((st.grid c).isVisited = true ∨ c = u)) := by
  refine ⟨fun c =>
      if c ∈ getNeighbors u (st.grid.set u { st.grid u with isVisited := true }) ∧
          ((st.grid.set u { st.grid u with isVisited := true }) c).isVisited = false then
        { (st.grid.set u { st.grid u with isVisited := true }) c with previousNode := some u }
      else (st.grid.set u { st.grid u with isVisited := true }) c,
    ((getNeighbors u (st.grid.set u { st.grid u with isVisited := true })).filter
      (fun c => !((st.grid.set u { st.grid u with isVisited := true }) c).isVisited)).reverse,
    ?_, ?_⟩
  · unfold dfsBody
    split
    · rename_i h; rw [hq] at h; cases h
    · rename_i h
      rw [hq] at h
      cases h
      rw [if_neg hskip]
      dsimp only
      rw [if_neg hue, foldl_dfsPush u _ _ _ (getNeighbors_nodup u _)]
  · intro c
    dsimp only
    rw [← visit_isVisited]
    split <;> rfl

theorem pendingCount_eq (st : DfsState) :
    pendingCount st = (st.stack.filter (fun c => !(st.grid c).isVisited)).toFinset.card := by
  rw [List.card_toFinset]; rfl

/-- While the end cell is not reached, every entry of the stack costs a pass
of its own, and so does every cell visited later that is not on the stack
yet. -/
theorem dfs_passes_ge (e : Cell) :
    ∀ (fuel : Nat) (st r : DfsState) (k : Nat),
      iterate (dfsBody e) fuel st = some r →
      countPasses (fun st => !st.stack.isEmpty) (dfsBody e) fuel st = some k →
      e ∉ r.visitedNodesInOrder →
      r.visitedNodesInOrder.length + st.stack.length ≤
        k + st.visitedNodesInOrder.length + pendingCount st := by
  intro fuel
  induction fuel with
  | zero => intro st r k h; simp [iterate] at h
  | succ fuel ih =>
    intro st r k hi hk he
    rw [iterate] at hi
    rw [countPasses] at hk
    cases hq : st.stack with
    | nil =>
      rw [dfsBody_nil e hq] at hi hk
      simp only [Option.some.injEq] at hi
      subst hi
      simp only [List.length_nil]
      omega
    | cons u rest =>
      by_cases hskip : ((st.grid u).isVisited || (st.grid u).isWall) = true
      · rw [dfsBody_skip e hq hskip] at hi hk
        dsimp only at hi hk
        cases hk' : countPasses (fun st => !st.stack.isEmpty) (dfsBody e) fuel
            { st with stack := rest } with
        | none => rw [hk'] at hk; simp at hk
        | some k' =>
          rw [hk'] at hk
          simp only [Option.map_some', Option.some.injEq] at hk
          have := ih _ r k' hi hk' he
          dsimp only at this
          have hle : pendingCount { st with stack := rest } ≤ pendingCount st := by
            rw [pendingCount_eq, pendingCount_eq]
            apply Finset.card_le_card
            intro c hc
            simp only [List.mem_toFinset, List.mem_filter] at hc ⊢
            rw [hq]
            exact ⟨List.mem_cons_of_mem _ hc.1, hc.2⟩
          simp only [List.length_cons]
          omega
      · by_cases hue : u = e
        · subst hue
          rw [dfsBody_end hq hskip] at hi
          simp only [Option.some.injEq] at hi
          subst hi
          exact absurd (by simp) he
        · obtain ⟨g', pushed, hbody, hvis⟩ := dfsBody_expand hq hskip hue
          rw [hbody] at hi hk
          dsimp only at hi hk
          cases hk' : countPasses (fun st => !st.stack.isEmpty) (dfsBody e) fuel
              ⟨g', pushed ++ rest, st.visitedNodesInOrder ++ [u]⟩ with
          | none => rw [hk'] at hk; simp at hk
          | some k' =>
            rw [hk'] at hk
            simp only [Option.map_some', Option.some.injEq] at hk
            have := ih _ r k' hi hk' he
            dsimp only at this
            have hu_unv : (st.grid u).isVisited = false := by
              cases h : (st.grid u).isVisited with
              | false => rfl
              | true => rw [h] at hskip; simp at hskip
            have hu_mem : u ∈ (st.stack.filter (fun c => !(st.grid c).isVisited)).toFinset := by
              simp only [List.mem_toFinset, List.mem_filter]
              rw [hq]
              exact ⟨by simp, by simp [hu_unv]⟩
            have hsub : ((pushed ++ rest).filter (fun c => !(g' c).isVisited)).toFinset ⊆
                pushed.toFinset ∪
                  ((st.stack.filter (fun c => !(st.grid c).isVisited)).toFinset).erase u := by
              intro c hc
              simp only [List.mem_toFinset, List.mem_filter, List.mem_append] at hc
              have hnv : ¬ ((st.grid c).isVisited = true ∨ c = u) := by
                rw [← hvis c]
                intro h; rw [h] at hc; simp at hc
              rw [Finset.mem_union]
              rcases hc.1 with h | h
              · exact Or.inl (List.mem_toFinset.2 h)
              · right
                rw [Finset.mem_erase]
                refine ⟨fun h' => hnv (Or.inr h'), ?_⟩
                simp only [List.mem_toFinset, List.mem_filter]
                rw [hq]
                refine ⟨List.mem_cons_of_mem _ h, ?_⟩
                cases hv : (st.grid c).isVisited with
                | false => rfl
                | true => exact absurd (Or.inl hv) hnv
            have hcard : pendingCount ⟨g', pushed ++ rest, st.visitedNodesInOrder ++ [u]⟩ + 1 ≤
                pushed.length + pendingCount st := by
              rw [pendingCount_eq, pendingCount_eq]
              dsimp only
              have h1 := Finset.card_le_card hsub
              have h2 := Finset.card_union_le pushed.toFinset
                (((st.stack.filter (fun c => !(st.grid c).isVisited)).toFinset).erase u)
              have h3 := List.toFinset_card_le pushed
              have h4 := Finset.card_erase_of_mem hu_mem
              have h5 := Finset.card_pos.2 ⟨u, hu_mem⟩
              omega
            simp only [List.length_append, List.length_cons, List.length_singleton,
              List.length_nil] at this ⊢
            omega

/-! ## Walks on the grid with the end cell walled in -/

theorem walk_down {walls : Cell → Bool} {s : Cell} (r c : Nat) :
    ∀ (k n : Nat), Walk walls s (r, c) n →
      (∀ j, 1 ≤ j → j ≤ k → Free walls (r + j, c)) → Walk walls s (r + k, c) (n + k) := by
  intro k
  induction k with
  | zero => intro n hw _; exact hw
  | succ k ih =>
    intro n hw hfree
    have h1 := ih n hw (fun j hj1 hj2 => hfree j hj1 (by omega))
    refine Walk.step h1 ?_ (hfree (k + 1) (by omega) (le_refl _))
    unfold Adjacent; dsimp only; omega

theorem walk_up {walls : Cell → Bool} {s : Cell} (r c : Nat) :
    ∀ (k n : Nat), Walk walls s (r + k, c) n →
      (∀ j, j < k → Free walls (r + j, c)) → Walk walls s (r, c) (n + k) := by
  intro k
  induction k with
  | zero => intro n hw _; exact hw
  | succ k ih =>
    intro n hw hfree
    have h1 : Walk walls s (r + k, c) (n + 1) := by
      refine Walk.step hw ?_ (hfree k (by omega))
      unfold Adjacent; dsimp only; omega
    have h2 := ih (n + 1) h1 (fun j hj => hfree j (by omega))
    have hn : n + (k + 1) = n + 1 + k := by omega
    rw [hn]; exact h2

theorem walk_right {walls : Cell → Bool} {s : Cell} (r c : Nat) :
    ∀ (k n : Nat), Walk walls s (r, c) n →
      (∀ j, 1 ≤ j → j ≤ k → Free walls (r, c + j)) → Walk walls s (r, c + k) (n + k) := by
  intro k
  induction k with
  | zero => intro n hw _; exact hw
  | succ k ih =>
    intro n hw hfree
    have h1 := ih n hw (fun j hj1 hj2 => hfree j hj1 (by omega))
    refine Walk.step h1 ?_ (hfree (k + 1) (by omega) (le_refl _))
    unfold Adjacent; dsimp only; omega

theorem walk_left {walls : Cell → Bool} {s : Cell} (r c : Nat) :
    ∀ (k n : Nat), Walk walls s (r, c + k) n →
      (∀ j, j < k → Free walls (r, c + j)) → Walk walls s (r, c) (n + k) := by
  intro k
  induction k with
  | zero => intro n hw _; exact hw
  | succ k ih =>
    intro n hw hfree
    have h1 : Walk walls s (r, c + k) (n + 1) := by
      refine Walk.step hw ?_ (hfree k (by omega))
      unfold Adjacent; dsimp only; omega
    have h2 := ih (n + 1) h1 (fun j hj => hfree j (by omega))
    have hn : n + (k + 1) = n + 1 + k := by omega
    rw [hn]; exact h2

theorem free_enclosedGrid (a b : Nat) :
    Free (wallsOf enclosedGrid) (a, b) ↔
      a < 20 ∧ b < 40 ∧ ¬ (a = 9 ∧ b = 35) ∧ ¬ (a = 11 ∧ b = 35) ∧ ¬ (a = 10 ∧ b = 34) ∧
        ¬ (a = 10 ∧ b = 36) := by
  simp only [Free, wallsOf, enclosedGrid, ROWS, COLS, decide_eq_false_iff_not, Prod.mk.injEq,
    not_or]

/-- A cell is reached from the start when the part of its row between column
5 and the cell is free. -/
theorem walk_enclosed_row (a b : Nat) (ha : a < 20)
    (hrow : ∀ j, (5 ≤ j ∧ j ≤ b) ∨ (b ≤ j ∧ j ≤ 5) → Free (wallsOf enclosedGrid) (a, j)) :
    ∃ n, Walk (wallsOf enclosedGrid) START_NODE (a, b) n := by
  have hstart : Walk (wallsOf enclosedGrid) START_NODE (10, 5) 0 :=
    Walk.start (by decide)
  have hcol : ∀ r, r < 20 → Free (wallsOf enclosedGrid) (r, 5) := by
    intro r hr; rw [free_enclosedGrid]; omega
  have h5 : ∃ n, Walk (wallsOf enclosedGrid) START_NODE (a, 5) n := by
    by_cases h : 10 ≤ a
    · obtain ⟨k, hk⟩ := Nat.exists_eq_add_of_le h
      subst hk
      exact ⟨_, walk_down 10 5 k 0 hstart (fun j _ _ => hcol _ (by omega))⟩
    · obtain ⟨k, hk⟩ := Nat.exists_eq_add_of_le (Nat.le_of_not_le h)
      have hs' : Walk (wallsOf enclosedGrid) START_NODE (a + k, 5) 0 := by
        rw [← hk]; exact hstart
      exact ⟨_, walk_up a 5 k 0 hs' (fun j _ => hcol _ (by omega))⟩
  obtain ⟨n, hn⟩ := h5
  by_cases h : 5 ≤ b
  · obtain ⟨k, hk⟩ := Nat.exists_eq_add_of_le h
    subst hk
    exact ⟨_, walk_right a 5 k n hn (fun j _ _ => hrow _ (by omega))⟩
  · obtain ⟨k, hk⟩ := Nat.exists_eq_add_of_le (Nat.le_of_not_le h)
    have hn' : Walk (wallsOf enclosedGrid) START_NODE (a, b + k) n := by
      rw [← hk]; exact hn
    exact ⟨_, walk_left a b k n hn' (fun j _ => hrow _ (by omega))⟩

/-- Every free cell other than the end cell is reached from the start. -/
theorem walk_enclosedGrid (a b : Nat) (hf : Free (wallsOf enclosedGrid) (a, b))
    (hne : (a, b) ≠ END_NODE) : ∃ n, Walk (wallsOf enclosedGrid) START_NODE (a, b) n := by
  have hf' := (free_enclosedGrid a b).1 hf
  have hne' : ¬ (a = 10 ∧ b = 35) := by
    intro h; apply hne; rw [h.1, h.2]; rfl
  by_cases h1 : (a = 9 ∨ a = 10 ∨ a = 11) ∧ 35 ≤ b
  · have habove : ∃ n, Walk (wallsOf enclosedGrid) START_NODE (8, b) n :=
      walk_enclosed_row 8 b (by omega) (fun j hj => by rw [free_enclosedGrid]; omega)
    have hbelow : ∃ n, Walk (wallsOf enclosedGrid) START_NODE (12, b) n :=
      walk_enclosed_row 12 b (by omega) (fun j hj => by rw [free_enclosedGrid]; omega)
    have h9 : ∃ n, Walk (wallsOf enclosedGrid) START_NODE (9, b) n := by
      obtain ⟨n, hn⟩ := habove
      refine ⟨n + 1, Walk.step hn ?_ ((free_enclosedGrid 9 b).2 (by omega))⟩
      unfold Adjacent; dsimp only; omega
    rcases h1.1 with h | h | h
    · subst h; exact h9
    · subst h
      obtain ⟨n, hn⟩ := h9
      refine ⟨n + 1, Walk.step hn ?_ hf⟩
      unfold Adjacent; dsimp only; omega
    · subst h
      obtain ⟨n, hn⟩ := hbelow
      refine ⟨n + 1, Walk.step hn ?_ hf⟩
      unfold Adjacent; dsimp only; omega
  · exact walk_enclosed_row a b hf'.1 (fun j hj => by rw [free_enclosedGrid]; omega)

theorem no_walk_enclosedGrid : ∀ n, ¬ Walk (wallsOf enclosedGrid) START_NODE END_NODE n := by
  intro n hw
  change Walk (wallsOf enclosedGrid) (10, 5) (10, 35) n at hw
  cases hw with
  | @step c _ m hwc hadj _ =>
    have hfree := hwc.free
    obtain ⟨a, b⟩ := c
    rw [free_enclosedGrid] at hfree
    unfold Adjacent at hadj
    dsimp only at hadj
    omega

set_option maxRecDepth 100000 in
theorem enclosed_free_count :
    (flat.filter (fun c => !(wallsOf enclosedGrid c) && decide (c ≠ END_NODE))).length = 795 := by
  decide

set_option maxRecDepth 100000 in
set_option maxHeartbeats 4000000 in
theorem enclosed_prefix :
    (match advance (dfsBody END_NODE) 41 ⟨gridCopy enclosedGrid, [START_NODE], []⟩ with
      | some st => decide (st.visitedNodesInOrder.length + pendingCount st + 6 ≤
          41 + st.stack.length)
      | none => false) = true := by
  decide

/-- On the grid with the end cell walled in, the loop of `dfs` makes more
than `ROWS * COLS` passes. -/
theorem dfs_passes_enclosedGrid :
    ∃ k, dfsPasses (gridCopy enclosedGrid) START_NODE END_NODE = some k ∧ 800 < k := by
  have hs : Free (wallsOf (gridCopy enclosedGrid)) START_NODE := by decide
  obtain ⟨g', fin, hdfs, hpost⟩ := dfs_spec END_NODE (gridCopy_fresh enclosedGrid) hs
  obtain ⟨k, hk, _⟩ := dfs_passes_le END_NODE (gridCopy_fresh enclosedGrid) hs
  rw [wallsOf_gridCopy] at hpost
  have he : END_NODE ∉ fin := by
    intro h
    obtain ⟨n, hw⟩ := hpost.walk _ h
    exact no_walk_enclosedGrid n hw
  have hfin : 795 ≤ fin.length := by
    rw [← enclosed_free_count]
    apply (List.Nodup.subperm (flat_nodup.filter _) ?_).length_le
    intro c hc
    rw [List.mem_filter, mem_flat] at hc
    obtain ⟨⟨h1, h2⟩, h3⟩ := hc
    simp only [Bool.and_eq_true, Bool.not_eq_eq_eq_not, Bool.not_true, decide_eq_true_eq] at h3
    obtain ⟨a, b⟩ := c
    obtain ⟨n, hw⟩ := walk_enclosedGrid a b ⟨h1, h2, h3.1⟩ h3.2
    exact hpost.complete he _ n hw
  refine ⟨k, hk, ?_⟩
  have hfuel : 4 * (ROWS * COLS) + 2 = 41 + 3161 := by decide
  unfold dfs at hdfs
  unfold dfsPasses at hk
  rw [hfuel] at hdfs hk
  have hpre := enclosed_prefix
  cases hadv : advance (dfsBody END_NODE) 41 ⟨gridCopy enclosedGrid, [START_NODE], []⟩ with
  | none => rw [hadv] at hpre; cases hpre
  | some st =>
    rw [hadv] at hpre
    simp only [decide_eq_true_eq] at hpre
    rw [iterate_advance _ 41 _ _ 3161 hadv] at hdfs
    rw [countPasses_advance _ _ 41 _ _ 3161 hadv] at hk
    cases hit : iterate (dfsBody END_NODE) 3161 st with
    | none => rw [hit] at hdfs; cases hdfs
    | some r =>
      rw [hit] at hdfs
      simp only [Option.map_some', Option.some.injEq, Prod.mk.injEq] at hdfs
      cases hk' : countPasses (fun st => !st.stack.isEmpty) (dfsBody END_NODE) 3161 st with
      | none => rw [hk'] at hk; cases hk
      | some k' =>
        rw [hk'] at hk
        simp only [Option.map_some', Option.some.injEq] at hk
        have hge := dfs_passes_ge END_NODE 3161 st r k' hit hk' (by rw [hdfs.2]; exact he)
        rw [hdfs.2] at hge
        omega

/-! ## The searches read walls and their own marks only -/

theorem strip_set (grid : Grid) (c : Cell) (n : Node) :
    strip (grid.set c n) = (strip grid).set c (stripNode n) := by
  funext c'
  simp only [strip, Grid.set]
  split <;> rfl

theorem strip_gridCopy {g1 g2 : Grid} (h : ∀ c, (g1 c).isWall = (g2 c).isWall) :
    strip (gridCopy g1) = strip (gridCopy g2) := by
  funext c
  simp only [strip, stripNode, gridCopy, resetNode, h c]

theorem getNeighbors_strip (c : Cell) (grid : Grid) :
    getNeighbors c (strip grid) = getNeighbors c grid :=
  getNeighbors_congr (fun _ => rfl) c

/-- A loop whose body commutes with a map of the state commutes with it as a
whole. -/
theorem iterate_map {σ τ : Type} (F : σ → τ) (body : σ → Step σ) (body' : τ → Step τ)
    (h : ∀ s, body' (F s) = (body s).map F) :
    ∀ fuel s, iterate body' fuel (F s) = (iterate body fuel s).map F := by
  intro fuel
  induction fuel with
  | zero => intro s; rfl
  | succ fuel ih =>
    intro s
    rw [iterate, iterate, h s]
    cases body s with
    | done s' => rfl
    | next s' => exact ih s'

theorem foldl_map_state {α β : Type} (S : α → α) (f : α → β → α)
    (h : ∀ a x, f (S a) x = S (f a x)) :
    ∀ (l : List β) (a : α), l.foldl f (S a) = S (l.foldl f a) := by
  intro l
  induction l with
  | nil => intro a; rfl
  | cons x l ih => intro a; rw [List.foldl_cons, List.foldl_cons, h, ih]

theorem getPath_strip (grid : Grid) (e : Cell) : getPath (strip grid) e = getPath grid e := by
  have h : getPathBody (strip grid) = getPathBody grid := by
    funext st
    unfold getPathBody
    cases st.1 <;> rfl
  unfold getPath
  rw [h]

theorem astarRelax_strip (cur : Cell) (acc : Grid × List Cell) (nb : Cell) :
    astarRelax cur (stripResult acc) nb = stripResult (astarRelax cur acc nb) := by
  obtain ⟨g, l⟩ := acc
  simp only [astarRelax, stripResult]
  have h1 : (strip g cur).distance = (g cur).distance := rfl
  have h2 : (strip g nb).distance = (g nb).distance := rfl
  rw [h1, h2]
  by_cases hc : numLt (numSucc (g cur).distance) (g nb).distance = true
  · rw [if_pos hc, if_pos hc]
    by_cases hm : nb ∈ l
    · rw [if_pos hm, if_pos hm, strip_set]; rfl
    · rw [if_neg hm, if_neg hm, strip_set]; rfl
  · rw [if_neg hc, if_neg hc]

theorem dijkstraRelax_strip (cur : Cell) (grid : Grid) (nb : Cell) :
    dijkstraRelax cur (strip grid) nb = strip (dijkstraRelax cur grid nb) := by
  simp only [dijkstraRelax]
  have h1 : (strip grid cur).distance = (grid cur).distance := rfl
  have h2 : (strip grid nb).distance = (grid nb).distance := rfl
  rw [h1, h2]
  by_cases hc : numLt (numSucc (grid cur).distance) (grid nb).distance = true
  · rw [if_pos hc, if_pos hc, strip_set]; rfl
  · rw [if_neg hc, if_neg hc]

theorem bfsVisit_strip (cur : Cell) (acc : Grid × List Cell) (nb : Cell) :
    bfsVisit cur (stripResult acc) nb = stripResult (bfsVisit cur acc nb) := by
  obtain ⟨g, l⟩ := acc
  simp only [bfsVisit, stripResult]
  have h1 : (strip g nb).isVisited = (g nb).isVisited := rfl
  rw [h1]
  by_cases hc : (!(g nb).isVisited) = true
  · rw [if_pos hc, if_pos hc, strip_set]; rfl
  · rw [if_neg hc, if_neg hc]

theorem dfsPush_strip (cur : Cell) (acc : Grid × List Cell) (nb : Cell) :
    dfsPush cur (stripResult acc) nb = stripResult (dfsPush cur acc nb) := by
  obtain ⟨g, l⟩ := acc
  simp only [dfsPush, stripResult]
  have h1 : (strip g nb).isVisited = (g nb).isVisited := rfl
  rw [h1]
  by_cases hc : (!(g nb).isVisited) = true
  · rw [if_pos hc, if_pos hc, strip_set]; rfl
  · rw [if_neg hc, if_neg hc]

theorem strip_visit (grid : Grid) (c : Cell) :
    (strip grid).set c
        { isStart := (strip grid c).isStart, isEnd := (strip grid c).isEnd,
          isWall := (strip grid c).isWall, isVisited := true, isPath := (strip grid c).isPath,
          distance := (strip grid c).distance, previousNode := (strip grid c).previousNode } =
      strip (grid.set c
        { isStart := (grid c).isStart, isEnd := (grid c).isEnd, isWall := (grid c).isWall,
          isVisited := true, isPath := (grid c).isPath, distance := (grid c).distance,
          previousNode := (grid c).previousNode }) := by
  rw [strip_set]; rfl

theorem bfsBody_strip (e : Cell) (st : BfsState) :
    bfsBody e (stripBfs st) = (bfsBody e st).map stripBfs := by
  obtain ⟨g, q, o⟩ := st
  cases q with
  | nil => rfl
  | cons u rest =>
    simp only [bfsBody, stripBfs]
    by_cases hue : u = e
    · rw [if_pos hue, if_pos hue]; rfl
    · rw [if_neg hue, if_neg hue, getNeighbors_strip]
      have := foldl_map_state stripResult (bfsVisit u) (bfsVisit_strip u)
        (getNeighbors u g) (g, rest)
      simp only [stripResult] at this
      rw [this]; rfl

theorem dfsBody_strip (e : Cell) (st : DfsState) :
    dfsBody e (stripDfs st) = (dfsBody e st).map stripDfs := by
  obtain ⟨g, q, o⟩ := st
  cases q with
  | nil => rfl
  | cons u rest =>
    simp only [dfsBody, stripDfs]
    by_cases hskip : ((g u).isVisited || (g u).isWall) = true
    · rw [if_pos (show ((strip g u).isVisited || (strip g u).isWall) = true from hskip),
        if_pos hskip]
      rfl
    · rw [if_neg (show ¬ ((strip g u).isVisited || (strip g u).isWall) = true from hskip),
        if_neg hskip]
      by_cases hue : u = e
      · rw [if_pos hue, if_pos hue, strip_visit]; rfl
      · rw [if_neg hue, if_neg hue, strip_visit, getNeighbors_strip]
        have := foldl_map_state stripResult (dfsPush u) (dfsPush_strip u)
          (getNeighbors u (g.set u { g u with isVisited := true }))
          (g.set u { g u with isVisited := true }, rest)
        simp only [stripResult] at this
        rw [this]; rfl

theorem dijkstraBody_strip (e : Cell) (st : DijkstraState) :
    dijkstraBody e (stripDijkstra st) = (dijkstraBody e st).map stripDijkstra := by
  obtain ⟨g, q, o⟩ := st
  simp only [dijkstraBody, stripDijkstra]
  have hs : stableSort (fun a b => numLe (strip g a).distance (strip g b).distance) q =
      stableSort (fun a b => numLe (g a).distance (g b).distance) q := rfl
  rw [hs]
  generalize stableSort (fun a b => numLe (g a).distance (g b).distance) q = sorted
  cases sorted with
  | nil => rfl
  | cons u rest =>
    dsimp only
    by_cases hw : (g u).isWall = true
    · rw [if_pos (show (strip g u).isWall = true from hw), if_pos hw]; rfl
    · rw [if_neg (show ¬ (strip g u).isWall = true from hw), if_neg hw]
      by_cases hd : (g u).distance = none
      · rw [if_pos (show (strip g u).distance = none from hd), if_pos hd]; rfl
      · rw [if_neg (show ¬ (strip g u).distance = none from hd), if_neg hd]
        by_cases hue : u = e
        · rw [if_pos hue, if_pos hue, strip_visit]; rfl
        · rw [if_neg hue, if_neg hue, strip_visit, getNeighbors_strip,
            foldl_map_state strip (dijkstraRelax u) (dijkstraRelax_strip u)]
          rfl

theorem astarBody_strip (e : Cell) (st : AstarState) :
    astarBody e (stripAstar st) = (astarBody e st).map stripAstar := by
  obtain ⟨g, q, o⟩ := st
  simp only [astarBody, stripAstar]
  have hs : stableSort (fun a b => numLe (fScore (strip g) e a) (fScore (strip g) e b)) q =
      stableSort (fun a b => numLe (fScore g e a) (fScore g e b)) q := rfl
  rw [hs]
  generalize stableSort (fun a b => numLe (fScore g e a) (fScore g e b)) q = sorted
  cases sorted with
  | nil => rfl
  | cons u rest =>
    dsimp only
    by_cases hw : (g u).isWall = true
    · rw [if_pos (show (strip g u).isWall = true from hw), if_pos hw]; rfl
    · rw [if_neg (show ¬ (strip g u).isWall = true from hw), if_neg hw]
      by_cases hd : (g u).distance = none
      · rw [if_pos (show (strip g u).distance = none from hd), if_pos hd]; rfl
      · rw [if_neg (show ¬ (strip g u).distance = none from hd), if_neg hd]
        by_cases hue : u = e
        · rw [if_pos hue, if_pos hue, strip_visit]; rfl
        · rw [if_neg hue, if_neg hue, strip_visit, getNeighbors_strip]
          have := foldl_map_state stripResult (astarRelax u) (astarRelax_strip u)
            (getNeighbors u (g.set u { g u with isVisited := true }))
            (g.set u { g u with isVisited := true }, rest)
          simp only [stripResult] at this
          rw [this]; rfl

theorem astar_strip (grid : Grid) (s e : Cell) :
    astar (strip grid) s e = (astar grid s e).map stripResult := by
  unfold astar
  have h0 : (⟨(strip grid).set s { strip grid s with distance := some 0 }, [s], []⟩ :
      AstarState) = stripAstar ⟨grid.set s { grid s with distance := some 0 }, [s], []⟩ := by
    simp only [stripAstar, strip_set]; rfl
  rw [h0, iterate_map stripAstar (astarBody e) (astarBody e) (astarBody_strip e),
    Option.map_map, Option.map_map]
  rfl

theorem dijkstra_strip (grid : Grid) (s e : Cell) :
    dijkstra (strip grid) s e = (dijkstra grid s e).map stripResult := by
  unfold dijkstra
  have h0 : (⟨(strip grid).set s { strip grid s with distance := some 0 }, flat, []⟩ :
      DijkstraState) =
      stripDijkstra ⟨grid.set s { grid s with distance := some 0 }, flat, []⟩ := by
    simp only [stripDijkstra, strip_set]; rfl
  rw [h0, iterate_map stripDijkstra (dijkstraBody e) (dijkstraBody e) (dijkstraBody_strip e),
    Option.map_map, Option.map_map]
  rfl

theorem bfs_strip (grid : Grid) (s e : Cell) :
    bfs (strip grid) s e = (bfs grid s e).map stripResult := by
  unfold bfs
  have h0 : (⟨(strip grid).set s { strip grid s with isVisited := true }, [s], []⟩ :
      BfsState) = stripBfs ⟨grid.set s { grid s with isVisited := true }, [s], []⟩ := by
    simp only [stripBfs, strip_set]; rfl
  rw [h0, iterate_map stripBfs (bfsBody e) (bfsBody e) (bfsBody_strip e),
    Option.map_map, Option.map_map]
  rfl

theorem dfs_strip (grid : Grid) (s e : Cell) :
    dfs (strip grid) s e = (dfs grid s e).map stripResult := by
  unfold dfs
  have h0 : (⟨strip grid, [s], []⟩ : DfsState) = stripDfs ⟨grid, [s], []⟩ := rfl
  rw [h0, iterate_map stripDfs (dfsBody e) (dfsBody e) (dfsBody_strip e),
    Option.map_map, Option.map_map]
  rfl

/-- For a search that reads none of the forgotten fields, order and path do
not depend on them. -/
theorem runOutput_strip {f : Grid → Cell → Cell → Option (Grid × List Cell)}
    (hf : ∀ grid s e, f (strip grid) s e = (f grid s e).map stripResult) (copy : Grid)
    (s e : Cell) : runOutput f (strip copy) s e = runOutput f copy s e := by
  unfold runOutput
  rw [hf]
  cases f copy s e with
  | none => rfl
  | some r => simp only [Option.map_some', Option.some_bind, stripResult, getPath_strip]

theorem runOutput_walls_only {f : Grid → Cell → Cell → Option (Grid × List Cell)}
    (hf : ∀ grid s e, f (strip grid) s e = (f grid s e).map stripResult) {g1 g2 : Grid}
    (hw : ∀ c, (g1 c).isWall = (g2 c).isWall) (s e : Cell) :
    runOutput f (gridCopy g1) s e = runOutput f (gridCopy g2) s e := by
  rw [← runOutput_strip hf (gridCopy g1), ← runOutput_strip hf (gridCopy g2), strip_gridCopy hw]

theorem output_of_result (x : Option (Grid × List Cell)) (cleared : Grid) (e : Cell) :
    (x.bind (fun r => (getPath r.1 e).map
      (fun path => (⟨cleared, r.1, r.2, path⟩ : RunResult)))).map
      (fun r => (r.visitedNodesInOrder, r.path)) =
    x.bind (fun r => (getPath r.1 e).map (fun path => (r.2, path))) := by
  cases x with
  | none => rfl
  | some r =>
    simp only [Option.some_bind, Option.map_map]
    rfl

/-- Order and path computed by `visualize`, by algorithm string. -/
theorem visualize_output (algorithm : String) (grid : Grid) :
    (visualize algorithm grid).map (fun r => (r.visitedNodesInOrder, r.path)) =
      runOutput
        (if algorithm = "astar" then astar
          else if algorithm = "dijkstra" then dijkstra
          else if algorithm = "bfs" then bfs
          else if algorithm = "dfs" then dfs
          else fun copy _ _ => some (copy, []))
        (gridCopy grid) START_NODE END_NODE := by
  unfold visualize runOutput
  dsimp only
  rw [output_of_result]
  by_cases h1 : algorithm = "astar"
  · simp only [if_pos h1]
  · simp only [if_neg h1]
    by_cases h2 : algorithm = "dijkstra"
    · simp only [if_pos h2]
    · simp only [if_neg h2]
      by_cases h3 : algorithm = "bfs"
      · simp only [if_pos h3]
      · simp only [if_neg h3]
        by_cases h4 : algorithm = "dfs"
        · simp only [if_pos h4]
        · simp only [if_neg h4]

theorem dispatch_strip (algorithm : String) :
    ∀ grid s e,
      (if algorithm = "astar" then astar
        else if algorithm = "dijkstra" then dijkstra
        else if algorithm = "bfs" then bfs
        else if algorithm = "dfs" then dfs
        else fun copy _ _ => some (copy, [])) (strip grid) s e =
      ((if algorithm = "astar" then astar
        else if algorithm = "dijkstra" then dijkstra
        else if algorithm = "bfs" then bfs
        else if algorithm = "dfs" then dfs
        else fun copy _ _ => some (copy, [])) grid s e).map stripResult := by
  intro grid s e
  by_cases h1 : algorithm = "astar"
  · simp only [if_pos h1]; exact astar_strip grid s e
  · simp only [if_neg h1]
    by_cases h2 : algorithm = "dijkstra"
    · simp only [if_pos h2]; exact dijkstra_strip grid s e
    · simp only [if_neg h2]
      by_cases h3 : algorithm = "bfs"
      · simp only [if_pos h3]; exact bfs_strip grid s e
      · simp only [if_neg h3]
        by_cases h4 : algorithm = "dfs"
        · simp only [if_pos h4]; exact dfs_strip grid s e
        · simp only [if_neg h4]; rfl

/-- With a non-wall start, `visualize` returns whatever the algorithm
string. -/
theorem visualize_returns (algorithm : String) (grid : Grid)
    (hs : Free (wallsOf grid) START_NODE) : ∃ r, visualize algorithm grid = some r := by
  have hrun : ∀ f, f ∈ searches →
      ∃ r, ((f (gridCopy grid) START_NODE END_NODE).bind (fun r => (getPath r.1 END_NODE).map
        (fun path => (⟨clearPath grid, r.1, r.2, path⟩ : RunResult)))) = some r := by
    intro f hf
    obtain ⟨g', order, h1, hp⟩ := searches_post hf grid END_NODE hs
    obtain ⟨path, h2, _⟩ := getPath_of_post hp
    exact ⟨_, by rw [h1, Option.some_bind, h2]; rfl⟩
  unfold visualize
  dsimp only
  by_cases h1 : algorithm = "astar"
  · simp only [if_pos h1]; exact hrun astar (by simp [searches])
  · simp only [if_neg h1]
    by_cases h2 : algorithm = "dijkstra"
    · simp only [if_pos h2]; exact hrun dijkstra (by simp [searches])
    · simp only [if_neg h2]
      by_cases h3 : algorithm = "bfs"
      · simp only [if_pos h3]; exact hrun bfs (by simp [searches])
      · simp only [if_neg h3]
        by_cases h4 : algorithm = "dfs"
        · simp only [if_pos h4]; exact hrun dfs (by simp [searches])
        · simp only [if_neg h4, Option.some_bind, getPath_gridCopy]
          exact ⟨_, rfl⟩

/-! ## Runs from a start cell that is a wall -/

/-- From a start cell that is a wall, `dfs` pops it, skips it and stops. -/
theorem dfs_wall_start (grid : Grid) (s e : Cell) (hw : (grid s).isWall = true) :
    dfs grid s e = some (grid, []) ∧ dfsPasses grid s e = some 1 := by
  have hfuel : 4 * (ROWS * COLS) + 2 = 3200 + 1 + 1 := by decide
  have hskip : ((grid s).isVisited || (grid s).isWall) = true := by rw [hw]; simp
  have h1 : dfsBody e ⟨grid, [s], []⟩ = Step.next ⟨grid, [], []⟩ :=
    @dfsBody_skip e ⟨grid, [s], []⟩ s [] rfl hskip
  have h2 : dfsBody e ⟨grid, [], []⟩ = Step.done ⟨grid, [], []⟩ :=
    @dfsBody_nil e ⟨grid, [], []⟩ rfl
  constructor
  · unfold dfs
    rw [hfuel, iterate, h1]
    dsimp only
    rw [iterate, h2]
    rfl
  · unfold dfsPasses
    rw [hfuel, countPasses, h1]
    dsimp only
    rw [countPasses, h2]
    rfl

/-- `dfs` on a fresh working copy returns from every start cell of the grid,
and every visited cell points to the latest of the cells visited before it
next to it. -/
theorem dfs_latest_of_inBounds (grid : Grid) (s e : Cell) (hs : s.1 < ROWS ∧ s.2 < COLS) :
    ∃ grid' order, dfs (gridCopy grid) s e = some (grid', order) ∧
      LatestPredecessors grid' s order := by
  by_cases hw : (gridCopy grid s).isWall = true
  · exact ⟨gridCopy grid, [], (dfs_wall_start (gridCopy grid) s e hw).1,
      by intro c hc; simp at hc⟩
  · have hfree : Free (wallsOf (gridCopy grid)) s := by
      refine ⟨hs.1, hs.2, ?_⟩
      simpa [wallsOf] using hw
    obtain ⟨g', order, h1, _, h2⟩ := dfs_spec_latest e (gridCopy_fresh grid) hfree
    exact ⟨g', order, h1, h2⟩

/-! ## The cells that carry the visited mark when a search returns -/

/-- The state a loop returns is handed on by a pass that leaves the loop
from a state in which the invariant holds. -/
theorem iterate_exit {σ : Type} (body : σ → Step σ) (Inv : σ → Prop)
    (hnext : ∀ s s', Inv s → body s = Step.next s' → Inv s') :
    ∀ fuel s r, Inv s → iterate body fuel s = some r →
      ∃ st, Inv st ∧ body st = Step.done r := by
  intro fuel
  induction fuel with
  | zero => intro s r _ h; simp [iterate] at h
  | succ fuel ih =>
    intro s r hs h
    rw [iterate] at h
    cases hb : body s with
    | done s' =>
      rw [hb] at h
      simp only [Option.some.injEq] at h
      subst h
      exact ⟨s, hs, hb⟩
    | next s' =>
      rw [hb] at h
      exact ih s' r (hnext s s' hs hb) h

theorem bfs_inv_next {walls : Cell → Bool} {s e : Cell} (st st' : BfsState)
    (h : ∃ lv, BfsInv walls s e lv st) (hb : bfsBody e st = Step.next st') :
    ∃ lv, BfsInv walls s e lv st' := by
  obtain ⟨lv, hI⟩ := h
  unfold bfsBody at hb
  split at hb
  · cases hb
  · rename_i u rest hq
    dsimp only at hb
    split at hb
    · cases hb
    · rename_i hue
      obtain ⟨lv', hI'⟩ := bfs_expand hI hq hue
      injection hb with hb
      subst hb
      exact ⟨lv', hI'⟩

theorem astar_inv_next {walls : Cell → Bool} {s e : Cell} (st st' : AstarState)
    (hI : AstarInv walls s e st) (hb : astarBody e st = Step.next st') :
    AstarInv walls s e st' := by
  unfold astarBody at hb
  split at hb
  · cases hb
  · rename_i u rest hq
    obtain ⟨hperm, hsf, hu_not, d, hd, hfu, hopt⟩ := hI.astar_head hq
    have hw : (st.grid u).isWall = false := by rw [hI.cost.wallsEq]; exact hfu.2.2
    rw [if_neg (by simp [hw]), if_neg (by simp [hd])] at hb
    dsimp only at hb
    split at hb
    · cases hb
    · rename_i hue
      have hI' := astar_expand hI hq hue
      injection hb with hb
      subst hb
      exact hI'

/-- After `bfs`, the marked cells are those of the visitation order and the
cells left in the queue. -/
theorem bfs_visited {grid : Grid} {s : Cell} (e : Cell) (hf : Fresh grid)
    (hs : Free (wallsOf grid) s) (grid' : Grid) (order : List Cell)
    (h : bfs grid s e = some (grid', order)) : VisitedPost (wallsOf grid) grid' order := by
  unfold bfs at h
  cases hit : iterate (bfsBody e) (ROWS * COLS + 1)
      ⟨grid.set s { grid s with isVisited := true }, [s], []⟩ with
  | none => rw [hit] at h; cases h
  | some r =>
    rw [hit] at h
    simp only [Option.map_some', Option.some.injEq, Prod.mk.injEq] at h
    obtain ⟨st, ⟨lv, hI⟩, hb⟩ := iterate_exit (bfsBody e)
      (fun st => ∃ lv, BfsInv (wallsOf grid) s e lv st) bfs_inv_next _ _ r
      ⟨_, bfs_init e hf hs⟩ hit
    rw [← h.1, ← h.2]
    unfold bfsBody at hb
    split at hb
    · rename_i hq
      injection hb with hb
      subst hb
      intro c hc
      rcases (hI.vis_iff c).1 hc with h1 | h1
      · exact Or.inl h1
      · rw [hq] at h1; simp at h1
    · rename_i u rest hq
      dsimp only at hb
      split at hb
      · injection hb with hb
        subst hb
        intro c hc
        dsimp only at hc ⊢
        rcases (hI.vis_iff c).1 hc with h1 | h1
        · exact Or.inl (List.mem_append_left _ h1)
        · by_cases hcu : c = u
          · left; simp [hcu]
          · right
            have hcs : c ≠ s := by
              intro hcs
              subst hcs
              exact hcu (hI.head_start hq h1).symm
            obtain ⟨p, h2, h3, _⟩ := hI.pred c (Or.inr h1) hcs
            exact ⟨(hI.walk c (Or.inr h1)).free, p, h2, List.mem_append_left _ h3⟩
      · cases hb

/-- After `astar`, the marked cells are those of the visitation order. -/
theorem astar_visited {grid : Grid} {s : Cell} (e : Cell) (hf : Fresh grid)
    (hs : Free (wallsOf grid) s) (grid' : Grid) (order : List Cell)
    (h : astar grid s e = some (grid', order)) : VisitedPost (wallsOf grid) grid' order := by
  unfold astar at h
  cases hit : iterate (astarBody e) (ROWS * COLS + 1)
      ⟨grid.set s { grid s with distance := some 0 }, [s], []⟩ with
  | none => rw [hit] at h; cases h
  | some r =>
    rw [hit] at h
    simp only [Option.map_some', Option.some.injEq, Prod.mk.injEq] at h
    obtain ⟨st, hI, hb⟩ := iterate_exit (astarBody e)
      (fun st => AstarInv (wallsOf grid) s e st) astar_inv_next _ _ r
      (astar_init e hf hs) hit
    rw [← h.1, ← h.2]
    unfold astarBody at hb
    split at hb
    · injection hb with hb
      subst hb
      intro c hc
      exact Or.inl ((hI.cost.vis_iff c).1 hc)
    · rename_i u rest hq
      split at hb
      · cases hb
      · split at hb
        · injection hb with hb
          subst hb
          intro c hc
          exact Or.inl ((hI.cost.vis_iff c).1 hc)
        · dsimp only at hb
          split at hb
          · injection hb with hb
            subst hb
            intro c hc
            dsimp only at hc ⊢
            left
            rcases (visit_isVisited st.grid u c).1 hc with h1 | h1
            · exact List.mem_append_left _ ((hI.cost.vis_iff c).1 h1)
            · simp [h1]
          · cases hb

/-- After `dijkstra`, the marked cells are those of the visitation order. -/
theorem dijkstra_visited {grid : Grid} {s : Cell} (e : Cell) (hf : Fresh grid)
    (hs : Free (wallsOf grid) s) (grid' : Grid) (order : List Cell)
    (h : dijkstra grid s e = some (grid', order)) : VisitedPost (wallsOf grid) grid' order := by
  unfold dijkstra at h
  cases hit : iterate (dijkstraBody e) (ROWS * COLS + 1)
      ⟨grid.set s { grid s with distance := some 0 }, flat, []⟩ with
  | none => rw [hit] at h; cases h
  | some r =>
    rw [hit] at h
    simp only [Option.map_some', Option.some.injEq, Prod.mk.injEq] at h
    obtain ⟨st, ⟨hI, _⟩, hb⟩ := iterate_exit (dijkstraBody e)
      (fun st => DijkstraInv (wallsOf grid) s e st ∧ Mono st.grid st.visitedNodesInOrder)
      (fun st st' hi hb => (dijkstra_levels_next st st' hi hb).1) _ _ r
      ⟨dijkstra_init e hf hs, ⟨by simp, by intro a ha; simp at ha⟩⟩ hit
    rw [← h.1, ← h.2]
    unfold dijkstraBody at hb
    split at hb
    · injection hb with hb
      subst hb
      intro c hc
      exact Or.inl ((hI.cost.vis_iff c).1 hc)
    · rename_i u rest hq
      split at hb
      · cases hb
      · split at hb
        · injection hb with hb
          subst hb
          intro c hc
          exact Or.inl ((hI.cost.vis_iff c).1 hc)
        · dsimp only at hb
          split at hb
          · injection hb with hb
            subst hb
            intro c hc
            dsimp only at hc ⊢
            left
            rcases (visit_isVisited st.grid u c).1 hc with h1 | h1
            · exact List.mem_append_left _ ((hI.cost.vis_iff c).1 h1)
            · simp [h1]
          · cases hb

/-- After `dfs`, the marked cells are those of the visitation order. -/
theorem dfs_visited {grid : Grid} {s : Cell} (e : Cell) (hf : Fresh grid)
    (hs : Free (wallsOf grid) s) (grid' : Grid) (order : List Cell)
    (h : dfs grid s e = some (grid', order)) : VisitedPost (wallsOf grid) grid' order := by
  unfold dfs at h
  cases hit : iterate (dfsBody e) (4 * (ROWS * COLS) + 2) ⟨grid, [s], []⟩ with
  | none => rw [hit] at h; cases h
  | some r =>
    rw [hit] at h
    simp only [Option.map_some', Option.some.injEq, Prod.mk.injEq] at h
    obtain ⟨st, ⟨hI, _⟩, hb⟩ := iterate_exit (dfsBody e)
      (fun st => DfsInv (wallsOf grid) s e st ∧
        LatestPredecessors st.grid s st.visitedNodesInOrder ∧
        PendingPredecessors (wallsOf grid) st.grid st.visitedNodesInOrder)
      (fun st st' hi hb => (dfs_latest_next st st' hi hb).1) _ _ r
      ⟨dfs_init e hf hs, by intro c hc; simp at hc, by intro c _ _ q hq; simp at hq⟩ hit
    rw [← h.1, ← h.2]
    unfold dfsBody at hb
    split at hb
    · injection hb with hb
      subst hb
      intro c hc
      exact Or.inl ((hI.vis_iff c).1 hc)
    · rename_i u rest hq
      split at hb
      · cases hb
      · dsimp only at hb
        split at hb
        · injection hb with hb
          subst hb
          intro c hc
          dsimp only at hc ⊢
          left
          rcases (visit_isVisited st.grid u c).1 hc with h1 | h1
          · exact List.mem_append_left _ ((hI.vis_iff c).1 h1)
          · simp [h1]
        · cases hb

/-- From a marked cell outside the visitation order whose predecessor is in
it, the predecessor pointers lead back to the start without repeating a cell. -/
theorem chain_of_pending {walls : Cell → Bool} {s e : Cell} {grid' : Grid} {order : List Cell}
    (hp : SearchPost walls s e grid' order) {c p : Cell} (hc : c ∉ order)
    (hfc : Free walls c) (hprev : (grid' c).previousNode = some p) (hpo : p ∈ order) :
    ∃ chain, iterate (getPathBody grid') (ROWS * COLS + 1) (some c, []) = some (none, chain) ∧
      chain.head? = some s ∧ chain.getLast? = some c ∧ chain.Nodup ∧
      chain.length ≤ ROWS * COLS ∧
      List.Chain' (fun a b => (grid' b).previousNode = some a) chain := by
  obtain ⟨path, h1, h2, _, _, h5, h6, _, _, _⟩ :=
    getPath_chain grid' s order (fun c => indexIn c order) hp.start_prev hp.tree
      (indexIn p order) p (le_refl _) hpo hp.start_mem
  have hnd : path.Nodup := by
    refine List.Pairwise.imp ?_ h6
    intro a b hab heq
    subst heq; exact absurd hab (lt_irrefl _)
  have hcp : c ∉ path := fun h => hc (h5 c h).1
  have hnd' : (path ++ [c]).Nodup := by
    rw [List.nodup_append]
    refine ⟨hnd, by simp, ?_⟩
    intro a ha hb
    have hac : a = c := by simpa using hb
    exact hcp (hac ▸ ha)
  have hlen : (path ++ [c]).length ≤ ROWS * COLS := by
    apply length_le_of_nodup hnd'
    intro x hx
    rcases List.mem_append.1 hx with hx | hx
    · obtain ⟨n, hw⟩ := hp.walk x (h5 x hx).1
      exact ⟨hw.free.1, hw.free.2.1⟩
    · have hxc : x = c := by simpa using hx
      rw [hxc]; exact ⟨hfc.1, hfc.2.1⟩
  have hlen' : path.length < ROWS * COLS := by
    simp only [List.length_append, List.length_singleton] at hlen
    omega
  have hrun : iterate (getPathBody grid') (ROWS * COLS + 1) (some c, []) =
      some (none, path ++ [c]) := by
    rw [iterate]
    simp only [getPathBody, hprev]
    exact h1 [c] (ROWS * COLS) hlen'
  obtain ⟨_, chain, k2, k3, _, _, _⟩ := getPath_loop_linked grid' _ _ _ _ hrun
  have hcc : chain = path ++ [c] := by simpa using k2.symm
  subst hcc
  refine ⟨path ++ [c], hrun, ?_, List.getLast?_concat _, hnd', hlen, k3⟩
  cases path with
  | nil => simp at h2
  | cons a l => simpa using h2

/-- Each of the four searches returns on a fresh working copy with a non-wall
start, with the common postcondition and the account of the marked cells. -/
theorem searches_visited {f : Grid → Cell → Cell → Option (Grid × List Cell)}
    (hf : f ∈ searches) (grid : Grid) {s : Cell} (e : Cell) (hs : Free (wallsOf grid) s) :
    ∃ grid' order, f (gridCopy grid) s e = some (grid', order) ∧
      SearchPost (wallsOf grid) s e grid' order ∧ VisitedPost (wallsOf grid) grid' order := by
  obtain ⟨g', order, h1, hp⟩ := searches_post hf grid e hs
  refine ⟨g', order, h1, hp, ?_⟩
  have hfresh := gridCopy_fresh grid
  have hs' := free_gridCopy hs
  simp only [searches, List.mem_cons, List.mem_singleton, List.not_mem_nil, or_false] at hf
  have key : VisitedPost (wallsOf (gridCopy grid)) g' order := by
    rcases hf with h | h | h | h <;> subst h
    · exact astar_visited e hfresh hs' g' order h1
    · exact dijkstra_visited e hfresh hs' g' order h1
    · exact bfs_visited e hfresh hs' g' order h1
    · exact dfs_visited e hfresh hs' g' order h1
  rw [wallsOf_gridCopy] at key
  exact key

/-! ## The claims on depth-first paths, neighbours and predecessor chains -/

/-- C11. For every wall configuration and every pair of distinct cells `s`,
`e` with `s` not a wall, `dfs` followed by `getPath(e)` and `bfs` followed by
`getPath(e)`, each on the freshly reset working copy, both return, and the
path found by `dfs` has at least as many cells as the path found by `bfs`. -/
theorem dfs_path_length_ge_bfs (grid : Grid) (s e : Cell) (hs : Free (wallsOf grid) s)
    (hse : s ≠ e) :
    ∃ gd od pd gb ob pb,
      runSearch dfs grid s e = some (gd, od, pd) ∧
      runSearch bfs grid s e = some (gb, ob, pb) ∧
      pb.length ≤ pd.length := by
  obtain ⟨gd, od, pd, hd, hp, d1, d2, _, d4, d5⟩ :=
    runSearch_post (f := dfs) (by simp [searches]) grid e hs
  obtain ⟨gb, ob, pb, hb, _, b1, b2, b3⟩ :=
    runSearch_shortest (f := bfs) (by simp [shortestSearches]) grid hs hse
  refine ⟨gd, od, pd, gb, ob, pb, hd, hb, ?_⟩
  by_cases hnil : pd = []
  · have he : e ∉ od := fun h => (d5.2 ⟨h, fun h' => hse h'.symm⟩) hnil
    have hno : ∀ n, ¬ Walk (wallsOf grid) s e n := fun n hw => he (hp.complete he e n hw)
    rw [b2 hno]; exact Nat.zero_le _
  · obtain ⟨hhead, hlast⟩ := d4 hnil
    cases pd with
    | nil => exact absurd rfl hnil
    | cons a l =>
      have ha : a = s := by simpa using hhead
      subst ha
      have hfree : ∀ c ∈ a :: l, Free (wallsOf grid) c := by
        intro c hc
        obtain ⟨n, hw⟩ := hp.walk c (d2 c hc)
        exact hw.free
      have hw := walk_of_chain l a 0 d1 hfree (Walk.start hs) e hlast
      obtain ⟨d, hd'⟩ := b3 ⟨_, hw⟩
      have := hd'.2 _ hw
      rw [b1 d hd']
      simp only [List.length_cons]
      omega

theorem dfs_path_length_ge_bfs_witness :
    Free (wallsOf initializeGrid) (10, 5) ∧ ((10, 5) : Cell) ≠ (10, 35) ∧
    ∃ gd od pd gb ob pb,
      runSearch dfs initializeGrid (10, 5) (10, 35) = some (gd, od, pd) ∧
      runSearch bfs initializeGrid (10, 5) (10, 35) = some (gb, ob, pb) ∧
      pb.length ≤ pd.length :=
  ⟨by decide, by decide,
    dfs_path_length_ge_bfs initializeGrid (10, 5) (10, 35) (by decide) (by decide)⟩

/-- C12. For every grid and every in-bounds cell `(row, col)`, `getNeighbors`
returns exactly the cells among `(row-1, col)`, `(row+1, col)`, `(row, col-1)`,
`(row, col+1)`, in that order, that lie within the bounds and are not walls
(`neighborsSpec`, written from the specification over integer coordinates).
The only nodes it reads are those of `neighborCandidates`, which are all
within the bounds, so that its result does not depend on anything stored
outside them; it returns a list and writes to no node. -/
theorem getNeighbors_matches_spec (grid : Grid) (row col : Nat) (hr : row < ROWS)
    (hc : col < COLS) :
    getNeighbors (row, col) grid = neighborsSpec (wallsOf grid) row col ∧
    getNeighbors (row, col) grid =
      (neighborCandidates (row, col)).filter (fun n => !(grid n).isWall) ∧
    (∀ c ∈ neighborCandidates (row, col), c.1 < ROWS ∧ c.2 < COLS) ∧
    (∀ grid' : Grid,
      (∀ c : Cell, c.1 < ROWS → c.2 < COLS → (grid c).isWall = (grid' c).isWall) →
      getNeighbors (row, col) grid = getNeighbors (row, col) grid') :=
  ⟨getNeighbors_eq_spec grid row col hr hc, getNeighbors_eq_filter (row, col) grid,
    fun _ h => neighborCandidates_inBounds ⟨hr, hc⟩ h,
    fun grid' h => getNeighbors_inBounds_only grid grid' (row, col) ⟨hr, hc⟩ h⟩

theorem getNeighbors_matches_spec_witness :
    0 < ROWS ∧ 39 < COLS ∧
    getNeighbors (0, 39) cornerGrid = neighborsSpec (wallsOf cornerGrid) 0 39 ∧
    getNeighbors (0, 39) cornerGrid =
      (neighborCandidates (0, 39)).filter (fun n => !(cornerGrid n).isWall) ∧
    (∀ c ∈ neighborCandidates (0, 39), c.1 < ROWS ∧ c.2 < COLS) ∧
    (∀ grid' : Grid,
      (∀ c : Cell, c.1 < ROWS → c.2 < COLS → (cornerGrid c).isWall = (grid' c).isWall) →
      getNeighbors (0, 39) cornerGrid = getNeighbors (0, 39) grid') :=
  ⟨by decide, by decide, getNeighbors_matches_spec cornerGrid 0 39 (by decide) (by decide)⟩

/-- C13. After any of the four searches on a freshly reset grid with a
non-wall start `s`, the start has no predecessor, and from every cell `c` that
is marked visited (after `bfs`, which marks at enqueue, also the cells still in
the queue when the loop exits) or is in the visitation order, the loop of
`getPath` returns the chain of `previousNode` pointers from `c`: it begins at
`s`, ends at `c`, links each cell to its predecessor, repeats no cell and has
at most `ROWS * COLS` = 800 cells; and `getPath` returns on the end cell. -/
theorem previousNode_chain_reaches_start
    (f : Grid → Cell → Cell → Option (Grid × List Cell)) (hf : f ∈ searches) (grid : Grid)
    (s e : Cell) (hs : Free (wallsOf grid) s) :
    ∃ grid' order, f (gridCopy grid) s e = some (grid', order) ∧
      (grid' s).previousNode = none ∧
      (∀ c, (grid' c).isVisited = true ∨ c ∈ order → ∃ chain,
        iterate (getPathBody grid') (ROWS * COLS + 1) (some c, []) = some (none, chain) ∧
        chain.head? = some s ∧ chain.getLast? = some c ∧ chain.Nodup ∧
        chain.length ≤ ROWS * COLS ∧
        List.Chain' (fun a b => (grid' b).previousNode = some a) chain) ∧
      ∃ path, getPath grid' e = some path := by
  obtain ⟨g', order, h1, hp, hv⟩ := searches_visited hf grid e hs
  obtain ⟨path, h2, _⟩ := getPath_of_post hp
  refine ⟨g', order, h1, hp.start_prev, ?_, path, h2⟩
  intro c hc
  by_cases hco : c ∈ order
  · exact chain_of_post hp hco
  · rcases hc with hc | hc
    · rcases hv c hc with h | ⟨hfc, p, hprev, hpo⟩
      · exact absurd h hco
      · exact chain_of_pending hp hco hfc hprev hpo
    · exact absurd hc hco

theorem previousNode_chain_reaches_start_witness :
    bfs ∈ searches ∧ Free (wallsOf cornerGrid) (5, 5) ∧
    ∃ grid' order, bfs (gridCopy cornerGrid) (5, 5) (0, 0) = some (grid', order) ∧
      (grid' (5, 5)).previousNode = none ∧
      (∀ c, (grid' c).isVisited = true ∨ c ∈ order → ∃ chain,
        iterate (getPathBody grid') (ROWS * COLS + 1) (some c, []) = some (none, chain) ∧
        chain.head? = some (5, 5) ∧ chain.getLast? = some c ∧ chain.Nodup ∧
        chain.length ≤ ROWS * COLS ∧
        List.Chain' (fun a b => (grid' b).previousNode = some a) chain) ∧
      ∃ path, getPath grid' (0, 0) = some path :=
  ⟨by simp [searches], by decide,
    previousNode_chain_reaches_start bfs (by simp [searches]) cornerGrid (5, 5) (0, 0)
      (by decide)⟩

/-- C14. Each of the four searches, run on a freshly reset grid with a
non-wall start, returns a visitation order in which the end cell, if it
occurs, is the last element, and nothing comes after an occurrence of it.  In each of the four loops a pass
that goes back to the loop condition has not appended the end cell, and the
pass that appends it leaves the loop having appended nothing else and written
to no other node: nothing is marked visited or appended after the end cell. -/
theorem end_cell_is_last_visited
    (f : Grid → Cell → Cell → Option (Grid × List Cell)) (hf : f ∈ searches) (grid : Grid)
    (s e : Cell) (hs : Free (wallsOf grid) s) :
    (∃ grid' order, f (gridCopy grid) s e = some (grid', order) ∧
      (e ∈ order → order.getLast? = some e) ∧
      (∀ pre post, order = pre ++ e :: post → post = [] ∧ e ∉ pre)) ∧
    (∀ st st' : AstarState, e ∉ st.visitedNodesInOrder →
      (astarBody e st = Step.next st' → e ∉ st'.visitedNodesInOrder) ∧
      (astarBody e st = Step.done st' → e ∈ st'.visitedNodesInOrder →
        st'.visitedNodesInOrder = st.visitedNodesInOrder ++ [e] ∧
        ∀ c, c ≠ e → st'.grid c = st.grid c)) ∧
    (∀ st st' : DijkstraState, e ∉ st.visitedNodesInOrder →
      (dijkstraBody e st = Step.next st' → e ∉ st'.visitedNodesInOrder) ∧
      (dijkstraBody e st = Step.done st' → e ∈ st'.visitedNodesInOrder →
        st'.visitedNodesInOrder = st.visitedNodesInOrder ++ [e] ∧
        ∀ c, c ≠ e → st'.grid c = st.grid c)) ∧
    (∀ st st' : BfsState, e ∉ st.visitedNodesInOrder →
      (bfsBody e st = Step.next st' → e ∉ st'.visitedNodesInOrder) ∧
      (bfsBody e st = Step.done st' → e ∈ st'.visitedNodesInOrder →
        st'.visitedNodesInOrder = st.visitedNodesInOrder ++ [e] ∧
        ∀ c, c ≠ e → st'.grid c = st.grid c)) ∧
    (∀ st st' : DfsState, e ∉ st.visitedNodesInOrder →
      (dfsBody e st = Step.next st' → e ∉ st'.visitedNodesInOrder) ∧
      (dfsBody e st = Step.done st' → e ∈ st'.visitedNodesInOrder →
        st'.visitedNodesInOrder = st.visitedNodesInOrder ++ [e] ∧
        ∀ c, c ≠ e → st'.grid c = st.grid c)) := by
  obtain ⟨g', order, h1, hp⟩ := searches_post hf grid e hs
  exact ⟨⟨g', order, h1, hp.end_last, fun pre post h =>
      nothing_after_last hp.nodup (hp.end_last (by rw [h]; simp)) h⟩,
    fun st st' h => astarBody_end_exit e st st' h,
    fun st st' h => dijkstraBody_end_exit e st st' h,
    fun st st' h => bfsBody_end_exit e st st' h,
    fun st st' h => dfsBody_end_exit e st st' h⟩

theorem end_cell_is_last_visited_witness :
    astar ∈ searches ∧ Free (wallsOf initializeGrid) (10, 5) ∧
    (∃ grid' order, astar (gridCopy initializeGrid) (10, 5) (10, 35) = some (grid', order) ∧
      (((10, 35) : Cell) ∈ order → order.getLast? = some (10, 35)) ∧
      (∀ pre post, order = pre ++ (10, 35) :: post → post = [] ∧ ((10, 35) : Cell) ∉ pre)) :=
  ⟨by simp [searches], by decide,
    (end_cell_is_last_visited astar (by simp [searches]) initializeGrid (10, 5) (10, 35)
      (by decide)).1⟩

/-! ## The claims on unknown algorithms and on leftover state -/

/-- C15, as stated, fails: run with the algorithm string `"greedy"` on a grid
that carries a visited mark from an earlier run, `visualize` reports no error:
it returns the empty visitation order and the empty path, and the grid state
it writes has lost the mark. -/
theorem visualize_unknown_algorithm_returns :
    (leftoverGrid (10, 6)).isVisited = true ∧
    (visualize "greedy" leftoverGrid).map
      (fun r => (r.visitedNodesInOrder, r.path, (r.grid (10, 6)).isVisited)) =
      some ([], [], false) := by
  refine ⟨by decide, ?_⟩
  rw [visualize_other "greedy" leftoverGrid (by decide) (by decide) (by decide) (by decide)]
  rfl

/-- C15, amended. Run with an algorithm string other than `'astar'`,
`'dijkstra'`, `'bfs'`, `'dfs'`, `visualize` matches no `case` of its `switch`
and reports no error: it returns the empty visitation order and the empty
path.  The grid state it writes is the one of `clearPath()`, which has the
walls of the grid it started from, and its working copy is left as made. -/
theorem visualize_unknown_algorithm (algorithm : String) (grid : Grid)
    (h1 : algorithm ≠ "astar") (h2 : algorithm ≠ "dijkstra") (h3 : algorithm ≠ "bfs")
    (h4 : algorithm ≠ "dfs") :
    ∃ r, visualize algorithm grid = some r ∧ r.visitedNodesInOrder = [] ∧ r.path = [] ∧
      r.grid = clearPath grid ∧ r.gridCopy = gridCopy grid ∧
      wallsOf r.grid = wallsOf grid :=
  ⟨_, visualize_other algorithm grid h1 h2 h3 h4, rfl, rfl, rfl, rfl, rfl⟩

theorem visualize_unknown_algorithm_witness :
    "greedy" ≠ "astar" ∧ "greedy" ≠ "dijkstra" ∧ "greedy" ≠ "bfs" ∧ "greedy" ≠ "dfs" ∧
    ∃ r, visualize "greedy" initializeGrid = some r ∧ r.visitedNodesInOrder = [] ∧
      r.path = [] ∧ r.grid = clearPath initializeGrid ∧ r.gridCopy = gridCopy initializeGrid ∧
      wallsOf r.grid = wallsOf initializeGrid :=
  ⟨by decide, by decide, by decide, by decide,
    visualize_unknown_algorithm "greedy" initializeGrid (by decide) (by decide) (by decide)
      (by decide)⟩

/-- C16. For any two grids that agree on `isWall` at every cell, whatever
else their nodes hold, and for every algorithm string, `visualize` computes
the same visitation order and the same path on both; and when the start cell is
not a wall it does return on both. -/
theorem run_output_depends_on_walls_only (algorithm : String) (g1 g2 : Grid)
    (hw : ∀ c, (g1 c).isWall = (g2 c).isWall) :
    (visualize algorithm g1).map (fun r => (r.visitedNodesInOrder, r.path)) =
      (visualize algorithm g2).map (fun r => (r.visitedNodesInOrder, r.path)) ∧
    ((g1 START_NODE).isWall = false →
      ∃ r1 r2, visualize algorithm g1 = some r1 ∧ visualize algorithm g2 = some r2 ∧
        r1.visitedNodesInOrder = r2.visitedNodesInOrder ∧ r1.path = r2.path) := by
  have heq : (visualize algorithm g1).map (fun r => (r.visitedNodesInOrder, r.path)) =
      (visualize algorithm g2).map (fun r => (r.visitedNodesInOrder, r.path)) := by
    rw [visualize_output, visualize_output]
    exact runOutput_walls_only (dispatch_strip algorithm) hw START_NODE END_NODE
  refine ⟨heq, ?_⟩
  intro hs
  have hs1 : Free (wallsOf g1) START_NODE := ⟨by decide, by decide, hs⟩
  have hs2 : Free (wallsOf g2) START_NODE :=
    ⟨by decide, by decide, by rw [← hs]; exact (hw START_NODE).symm⟩
  obtain ⟨r1, hr1⟩ := visualize_returns algorithm g1 hs1
  obtain ⟨r2, hr2⟩ := visualize_returns algorithm g2 hs2
  rw [hr1, hr2] at heq
  simp only [Option.map_some', Option.some.injEq, Prod.mk.injEq] at heq
  exact ⟨r1, r2, hr1, hr2, heq.1, heq.2⟩

theorem run_output_depends_on_walls_only_witness :
    (∀ c, (leftoverGrid c).isWall = (initializeGrid c).isWall) ∧
    ((visualize "dfs" leftoverGrid).map (fun r => (r.visitedNodesInOrder, r.path)) =
      (visualize "dfs" initializeGrid).map (fun r => (r.visitedNodesInOrder, r.path)) ∧
    ((leftoverGrid START_NODE).isWall = false →
      ∃ r1 r2, visualize "dfs" leftoverGrid = some r1 ∧
        visualize "dfs" initializeGrid = some r2 ∧
        r1.visitedNodesInOrder = r2.visitedNodesInOrder ∧ r1.path = r2.path)) :=
  ⟨fun c => by unfold leftoverGrid Grid.set; split <;> rfl,
    run_output_depends_on_walls_only "dfs" leftoverGrid initializeGrid
      (fun c => by unfold leftoverGrid Grid.set; split <;> rfl)⟩

/-! ## Loop bounds that need no assumption on the walls -/

/-- Each pass of the loop of `dijkstra` that goes on removes a node from
`unvisitedNodes`. -/
theorem dijkstraBody_length (e : Cell) (st st' : DijkstraState)
    (hb : dijkstraBody e st = Step.next st') :
    st'.unvisitedNodes.length < st.unvisitedNodes.length := by
  have hperm := stableSort_perm
    (fun a b => numLe (st.grid a).distance (st.grid b).distance) st.unvisitedNodes
  unfold dijkstraBody at hb
  split at hb
  · cases hb
  · rename_i u rest hq
    rw [hq] at hperm
    have hlen : st.unvisitedNodes.length = rest.length + 1 := by
      rw [← hperm.length_eq]; simp
    split at hb
    · injection hb with hb
      subst hb
      dsimp only; omega
    · split at hb
      · cases hb
      · dsimp only at hb
        split at hb
        · cases hb
        · injection hb with hb
          subst hb
          dsimp only; omega

/-- The loop of `dijkstra` makes at most `ROWS * COLS` passes, whatever the
grid and the start and end cells. -/
theorem dijkstra_passes_le_any (grid : Grid) (s e : Cell) :
    ∃ k, dijkstraPasses grid s e = some k ∧ k ≤ ROWS * COLS := by
  have key := countPasses_spec (fun st : DijkstraState => !st.unvisitedNodes.isEmpty)
    (dijkstraBody e) (fun _ => True) (fun st => st.unvisitedNodes.length)
    (fun st st' _ hb => ⟨trivial, dijkstraBody_length e st st' hb⟩)
    (by
      intro st st' _ _ hc
      dsimp only at hc ⊢
      cases h : st.unvisitedNodes with
      | nil => rw [h] at hc; simp at hc
      | cons a l => simp)
    (ROWS * COLS + 1)
    ⟨grid.set s { grid s with distance := some 0 }, flat, []⟩ trivial
    (by dsimp only; rw [flat_length]; omega)
  obtain ⟨k, h1, h2⟩ := key
  refine ⟨k, h1, ?_⟩
  dsimp only at h2
  rw [flat_length] at h2
  exact h2

theorem BfsBound.length_le {st : BfsState} (hI : BfsBound st) :
    st.visitedNodesInOrder.length + st.queue.length ≤ ROWS * COLS := by
  have := length_le_of_nodup hI.nodup hI.inBounds
  rwa [List.length_append] at this

theorem bfsBound_expand {st : BfsState} (hI : BfsBound st) {u : Cell} {rest : List Cell}
    (hq : st.queue = u :: rest) :
    BfsBound ⟨((getNeighbors u st.grid).foldl (bfsVisit u) (st.grid, rest)).1,
      ((getNeighbors u st.grid).foldl (bfsVisit u) (st.grid, rest)).2,
      st.visitedNodesInOrder ++ [u]⟩ := by
  have hub : u.1 < ROWS ∧ u.2 < COLS := hI.inBounds u (by rw [hq]; simp)
  have hold : ∀ c, c ∈ st.visitedNodesInOrder ++ [u] ++ rest ↔
      c ∈ st.visitedNodesInOrder ++ st.queue := by
    intro c; rw [hq]; simp
  have hpushed : ∀ c, c ∈ (getNeighbors u st.grid).filter (fun c => !(st.grid c).isVisited) →
      c ∈ getNeighbors u st.grid ∧ (st.grid c).isVisited = false := by
    intro c hc
    rw [List.mem_filter] at hc
    exact ⟨hc.1, by simpa using hc.2⟩
  rw [foldl_bfsVisit u _ _ _ (getNeighbors_nodup u st.grid)]
  refine { nodup := ?_, inBounds := ?_, vis := ?_ }
  · dsimp only
    rw [← List.append_assoc, List.nodup_append]
    refine ⟨?_, (getNeighbors_nodup u st.grid).filter _, ?_⟩
    · have := hI.nodup
      rw [hq] at this
      simpa using this
    · intro c hc1 hc2
      have h1 := hI.vis c ((hold c).1 hc1)
      rw [(hpushed c hc2).2] at h1
      cases h1
  · intro c hc
    dsimp only at hc
    rw [← List.append_assoc, List.mem_append] at hc
    rcases hc with hc | hc
    · exact hI.inBounds c ((hold c).1 hc)
    · have := ((mem_getNeighbors_iff hub).1 (hpushed c hc).1).2
      exact ⟨this.1, this.2.1⟩
  · intro c hc
    dsimp only at hc ⊢
    rw [← List.append_assoc, List.mem_append] at hc
    rcases hc with hc | hc
    · have h1 := hI.vis c ((hold c).1 hc)
      rw [if_neg (by rw [h1]; simp)]
      exact h1
    · have := hpushed c hc
      rw [if_pos this]

/-- The loop of `bfs` makes at most `ROWS * COLS` passes from every start
cell of the grid, whatever the grid holds. -/
theorem bfs_passes_le_any (grid : Grid) (s e : Cell) (hs : s.1 < ROWS ∧ s.2 < COLS) :
    ∃ k, bfsPasses grid s e = some k ∧ k ≤ ROWS * COLS := by
  have key := countPasses_spec (fun st : BfsState => !st.queue.isEmpty) (bfsBody e)
    BfsBound (fun st => ROWS * COLS - st.visitedNodesInOrder.length)
    (by
      intro st st' hI hb
      unfold bfsBody at hb
      split at hb
      · cases hb
      · rename_i u rest hq
        dsimp only at hb
        split at hb
        · cases hb
        · have hI' := bfsBound_expand hI hq
          have h1 := hI.length_le
          injection hb with hb
          subst hb
          refine ⟨hI', ?_⟩
          rw [hq] at h1
          dsimp only
          simp only [List.length_append, List.length_singleton, List.length_cons] at h1 ⊢
          omega)
    (by
      intro st st' hI hb hc
      dsimp only at hc ⊢
      have h1 := hI.length_le
      cases hq : st.queue with
      | nil => rw [hq] at hc; simp at hc
      | cons u rest =>
        rw [hq] at h1
        simp only [List.length_cons] at h1
        omega)
    (ROWS * COLS + 1)
    ⟨grid.set s { grid s with isVisited := true }, [s], []⟩
    { nodup := by simp
      inBounds := by
        intro c hc
        have : c = s := by simpa using hc
        rw [this]; exact hs
      vis := by
        intro c hc
        have : c = s := by simpa using hc
        rw [this]; simp }
    (by dsimp only; simp)
  obtain ⟨k, h1, h2⟩ := key
  exact ⟨k, h1, by simpa using h2⟩

/-- From a start cell that is a wall, `astar` pops it, skips it and stops. -/
theorem astar_wall_start (grid : Grid) (s e : Cell) (hw : (grid s).isWall = true) :
    astarPasses grid s e = some 1 := by
  have hfuel : ROWS * COLS + 1 = 799 + 1 + 1 := by decide
  unfold astarPasses
  rw [hfuel]
  simp [countPasses, astarBody, stableSort, orderedInsert, hw]

/-- With the start cell within the grid, the loops of `astar`, `dijkstra` and
`bfs` on a fresh working copy make at most `ROWS * COLS` passes, and the loop
of `dfs` at most `4 * (ROWS * COLS) + 1`. -/
theorem passes_le_of_inBounds (grid : Grid) (s e : Cell) (hs : s.1 < ROWS ∧ s.2 < COLS) :
    (∃ k, astarPasses (gridCopy grid) s e = some k ∧ k ≤ ROWS * COLS) ∧
    (∃ k, dijkstraPasses (gridCopy grid) s e = some k ∧ k ≤ ROWS * COLS) ∧
    (∃ k, bfsPasses (gridCopy grid) s e = some k ∧ k ≤ ROWS * COLS) ∧
    (∃ k, dfsPasses (gridCopy grid) s e = some k ∧ k ≤ 4 * (ROWS * COLS) + 1) := by
  refine ⟨?_, dijkstra_passes_le_any _ s e, bfs_passes_le_any _ s e hs, ?_⟩
  · by_cases hw : (gridCopy grid s).isWall = true
    · exact ⟨1, astar_wall_start _ s e hw, by decide⟩
    · exact astar_passes_le e (gridCopy_fresh grid) ⟨hs.1, hs.2, by simpa [wallsOf] using hw⟩
  · by_cases hw : (gridCopy grid s).isWall = true
    · exact ⟨1, (dfs_wall_start _ s e hw).2, by decide⟩
    · exact dfs_passes_le e (gridCopy_fresh grid) ⟨hs.1, hs.2, by simpa [wallsOf] using hw⟩

/-! ## The claims on loop bounds, editing and search order -/

/-- C17, as stated, fails for `dfs`: on the grid whose only walls are the four
cells around the end cell, with the start and end cells of the program (neither a
wall), the stack loop of `dfs` exits after more than `ROWS * COLS` = 800
passes. -/
theorem dfs_loop_exceeds_grid_size :
    (enclosedGrid START_NODE).isWall = false ∧ (enclosedGrid END_NODE).isWall = false ∧
    ∃ k, dfsPasses (gridCopy enclosedGrid) START_NODE END_NODE = some k ∧ ROWS * COLS < k := by
  refine ⟨by decide, by decide, ?_⟩
  obtain ⟨k, h1, h2⟩ := dfs_passes_enclosedGrid
  exact ⟨k, h1, h2⟩

/-- C17, amended. For every wall configuration and every start cell of the
grid, on the freshly reset working copy the open-set loop of `astar`, the
frontier loop of `dijkstra` and the queue loop of `bfs` each exit after at most
`ROWS * COLS` = 800 passes, and the stack loop of `dfs` exits after at most
`4 * ROWS * COLS + 1` = 3201 passes (passes cut short by `continue` or `break`
included). -/
theorem search_loops_pass_bounds (grid : Grid) (s e : Cell) (hs : s.1 < ROWS ∧ s.2 < COLS) :
    (∃ k, astarPasses (gridCopy grid) s e = some k ∧ k ≤ ROWS * COLS) ∧
    (∃ k, dijkstraPasses (gridCopy grid) s e = some k ∧ k ≤ ROWS * COLS) ∧
    (∃ k, bfsPasses (gridCopy grid) s e = some k ∧ k ≤ ROWS * COLS) ∧
    (∃ k, dfsPasses (gridCopy grid) s e = some k ∧ k ≤ 4 * (ROWS * COLS) + 1) :=
  passes_le_of_inBounds grid s e hs

theorem search_loops_pass_bounds_witness :
    (START_NODE.1 < ROWS ∧ START_NODE.2 < COLS) ∧
    (∃ k, astarPasses (gridCopy enclosedGrid) START_NODE END_NODE = some k ∧ k ≤ ROWS * COLS) ∧
    (∃ k, dijkstraPasses (gridCopy enclosedGrid) START_NODE END_NODE = some k ∧
      k ≤ ROWS * COLS) ∧
    (∃ k, bfsPasses (gridCopy enclosedGrid) START_NODE END_NODE = some k ∧ k ≤ ROWS * COLS) ∧
    (∃ k, dfsPasses (gridCopy enclosedGrid) START_NODE END_NODE = some k ∧
      k ≤ 4 * (ROWS * COLS) + 1) :=
  ⟨by decide, search_loops_pass_bounds enclosedGrid START_NODE END_NODE (by decide)⟩

/-- C18. In every grid state reachable from `initializeGrid()` by any
sequence of `toggleWall(row, col)`, `generateMaze()` (whatever the random
draws) and `clearPath()`, the start cell (10, 5) and the end cell (10, 35) are
not walls, and `toggleWall` on the coordinates of the start or of the end
leaves the grid unchanged. -/
theorem start_end_never_walls (grid : Grid) (h : Reachable grid) :
    (grid (10, 5)).isWall = false ∧ (grid (10, 35)).isWall = false ∧
    ∀ isVisualizing, toggleWall isVisualizing grid 10 5 = grid ∧
      toggleWall isVisualizing grid 10 35 = grid := by
  obtain ⟨h1, h2, h3, h4⟩ := h.flags
  exact ⟨h3, h4, fun v =>
    ⟨toggleWall_of_flag v grid 10 5 (Or.inl h1), toggleWall_of_flag v grid 10 35 (Or.inr h2)⟩⟩

theorem start_end_never_walls_witness :
    Reachable (clearPath (generateMaze (fun _ => true) (toggleWall false initializeGrid 10 6))) ∧
    ((clearPath (generateMaze (fun _ => true) (toggleWall false initializeGrid 10 6))
      (10, 5)).isWall = false ∧
    (clearPath (generateMaze (fun _ => true) (toggleWall false initializeGrid 10 6))
      (10, 35)).isWall = false ∧
    ∀ isVisualizing,
      toggleWall isVisualizing
        (clearPath (generateMaze (fun _ => true) (toggleWall false initializeGrid 10 6)))
        10 5 =
        clearPath (generateMaze (fun _ => true) (toggleWall false initializeGrid 10 6)) ∧
      toggleWall isVisualizing
        (clearPath (generateMaze (fun _ => true) (toggleWall false initializeGrid 10 6)))
        10 35 =
        clearPath (generateMaze (fun _ => true) (toggleWall false initializeGrid 10 6))) :=
  ⟨Reachable.clear (Reachable.maze _ (Reachable.toggle false 10 6 Reachable.init)),
    start_end_never_walls _
      (Reachable.clear (Reachable.maze _ (Reachable.toggle false 10 6 Reachable.init)))⟩

/-- C19. `dfs` on a freshly reset grid returns from every start cell `s` of
the grid, and for every visited cell `c` other than `s` the final
`c.previousNode` is a cell `p` next to `c` that was visited before `c`, and no
cell next to `c` was visited between `p` and `c`: `p` is the most recently
visited cell among the neighbours of `c` visited before `c`, the one whose
expansion pushed `c` last.  No pass of the loop writes the `previousNode` of a
cell that is marked visited when the pass ends, so the pointer a cell has when
it is visited is never changed. -/
theorem dfs_previousNode_is_latest_neighbour (grid : Grid) (s e : Cell)
    (hs : s.1 < ROWS ∧ s.2 < COLS) :
    (∃ grid' order, dfs (gridCopy grid) s e = some (grid', order) ∧
      ∀ c ∈ order, c ≠ s → ∃ p, (grid' c).previousNode = some p ∧ p ∈ order ∧
        indexIn p order < indexIn c order ∧ Adjacent p c ∧
        ∀ q ∈ order, Adjacent q c → indexIn q order < indexIn c order →
          indexIn q order ≤ indexIn p order) ∧
    (∀ (st : DfsState) (c : Cell), ((dfsBody e st).state.grid c).isVisited = true →
      ((dfsBody e st).state.grid c).previousNode = (st.grid c).previousNode) :=
  ⟨dfs_latest_of_inBounds grid s e hs, fun st c h => dfsBody_previousNode_visited e st c h⟩

theorem dfs_previousNode_is_latest_neighbour_witness :
    (START_NODE.1 < ROWS ∧ START_NODE.2 < COLS) ∧
    ((∃ grid' order, dfs (gridCopy enclosedGrid) START_NODE END_NODE = some (grid', order) ∧
      ∀ c ∈ order, c ≠ START_NODE → ∃ p, (grid' c).previousNode = some p ∧ p ∈ order ∧
        indexIn p order < indexIn c order ∧ Adjacent p c ∧
        ∀ q ∈ order, Adjacent q c → indexIn q order < indexIn c order →
          indexIn q order ≤ indexIn p order) ∧
    (∀ (st : DfsState) (c : Cell),
      ((dfsBody END_NODE st).state.grid c).isVisited = true →
      ((dfsBody END_NODE st).state.grid c).previousNode = (st.grid c).previousNode)) :=
  ⟨by decide, dfs_previousNode_is_latest_neighbour enclosedGrid START_NODE END_NODE (by decide)⟩

/-- C20. For every wall configuration and every non-wall start `s`,
`dijkstra` on the freshly reset working copy returns; along the returned
visitation order the cells' `distance` values never decrease, and the final
`distance` of every visited cell is the minimum number of edges of a walk from
`s` to that cell through 4-adjacent non-wall cells. -/
theorem dijkstra_visits_in_level_order (grid : Grid) (s e : Cell)
    (hs : Free (wallsOf grid) s) :
    ∃ grid' order, dijkstra (gridCopy grid) s e = some (grid', order) ∧
      order.Pairwise (fun a b => ∃ ka kb, (grid' a).distance = some ka ∧
        (grid' b).distance = some kb ∧ ka ≤ kb) ∧
      ∀ c ∈ order, ∃ k, (grid' c).distance = some k ∧ IsShortest (wallsOf grid) s c k := by
  obtain ⟨g', order, h1, h2, h3⟩ :=
    dijkstra_spec_levels e (gridCopy_fresh grid) (free_gridCopy hs)
  rw [wallsOf_gridCopy] at h2
  exact ⟨g', order, h1, h3, h2⟩

theorem dijkstra_visits_in_level_order_witness :
    Free (wallsOf enclosedGrid) START_NODE ∧
    ∃ grid' order, dijkstra (gridCopy enclosedGrid) START_NODE END_NODE = some (grid', order) ∧
      order.Pairwise (fun a b => ∃ ka kb, (grid' a).distance = some ka ∧
        (grid' b).distance = some kb ∧ ka ≤ kb) ∧
      ∀ c ∈ order, ∃ k, (grid' c).distance = some k ∧
        IsShortest (wallsOf enclosedGrid) START_NODE c k :=
  ⟨by decide, dijkstra_visits_in_level_order enclosedGrid START_NODE END_NODE (by decide)⟩

end MazeRunner
